import Mathlib

/-!
Verification of re2c: tagged epsilon-closure and skeleton path enumeration.

A shallow embedding of `src/ir/dfa/closure.cc` and `skeleton.cc`.

Pointers into the NFA arena, the tag pool and the skeleton are natural-number
indices.  A tag version (`tagver_t`) is a signed machine integer, written `Int`
here; signed overflow is undefined behaviour in the source, so versions are
unbounded integers and the statements speak about runs without overflow.
The `uint32_t` / `uint64_t` arithmetic of the skeleton is taken modulo `2^32` /
`2^64` explicitly.

A function whose recursion is bounded by counters on the graph takes a depth
bound as its first argument and returns `none` when the bound is hit; a result
`some r` is the result of the source function.

The `<algorithm>` routines the closure kernel calls are a parameter, held to the
contract of the C++ standard; a statement that also rests on what libstdc++
does where the standard is silent names that as a hypothesis.
-/

namespace re2c

/-! ## Tag versions and the tag pool -/

/-- Modelled from the spec: `TAGVER_ZERO` is declared in a header that is not
part of the two source files; the spec calls it "no version" and tests
versions against `0`. -/
def TAGVER_ZERO : Int := 0

/-- Modelled from the spec: the reserved handle of the all-`ZERO` vector
(declared in the tag pool header). -/
def ZERO_TAGS : Nat := 0

/-- Modelled from the spec: the hash-consed pool of tag vectors (class
`Tagpool`, declared outside the two source files).  A handle is the index of
the interned vector; the three scratch buffers live in the pool. -/
structure Tagpool where
  ntags : Nat
  vecs : List (List Int)
  buffer1 : List Int
  buffer2 : List Int
  buffer3 : List Int
deriving DecidableEq, Repr

/-- Modelled from the spec: `tagpool[handle]`, a view of the interned vector. -/
def Tagpool.lookup (p : Tagpool) (h : Nat) : List Int :=
  p.vecs.getD h []

/-- Position of the first vector equal to `v`, or the length of the list when
there is none. -/
def find_vec (v : List Int) : List (List Int) → Nat
  | [] => 0
  | x :: xs => if x = v then 0 else find_vec v xs + 1

/-- Modelled from the spec: `tagpool.insert(tags)` interns the first `ntags`
entries of the buffer; an equal vector already in the pool gives its handle
back, otherwise the vector is appended. -/
def Tagpool.insert (p : Tagpool) (tags : List Int) : Tagpool × Nat :=
  let v := tags.take p.ntags
  if find_vec v p.vecs < p.vecs.length then (p, find_vec v p.vecs)
  else ({ p with vecs := p.vecs ++ [v] }, p.vecs.length)

/-- Read of slot `t` of a raw tag vector (`x[t]` on a `tagver_t *`). -/
def tagAt (x : List Int) (t : Nat) : Int := x.getD t 0

/-! ## Closure items -/

/-- Closure item `clos_t`; `origin` and `state` point into the NFA arena,
`tvers`, `ttran` and `tlook` are tag pool handles. -/
structure clos_t where
  origin : Nat
  state : Nat
  tvers : Nat
  ttran : Nat
  tlook : Nat
deriving DecidableEq, Repr

/-- The tag-by-tag loop of `is_better`: `for (size_t t = ntags; t --> 0;)`.
The argument is the number of tags still to be compared, so the tag looked at
is the predecessor of the argument. -/
def is_better_loop (l1 l2 t1 t2 v1 v2 : List Int) : Nat → Bool
  | 0 => false
  | t + 1 =>
    if tagAt l1 t > tagAt l2 t then false
    else if tagAt l1 t < tagAt l2 t then true
    else if tagAt t1 t > tagAt t2 t then false
    else if tagAt t1 t < tagAt t2 t then true
    else if tagAt v1 t > tagAt v2 t then false
    else if tagAt v1 t < tagAt v2 t then true
    else is_better_loop l1 l2 t1 t2 v1 v2 t

/-- Source function `is_better(c1, c2, tagpool)`. -/
def is_better (c1 c2 : clos_t) (tagpool : Tagpool) : Bool :=
  if c1.tlook = c2.tlook ∧ c1.ttran = c2.ttran ∧ c1.tvers = c2.tvers then false
  else
    is_better_loop (tagpool.lookup c1.tlook) (tagpool.lookup c2.tlook)
      (tagpool.lookup c1.ttran) (tagpool.lookup c2.ttran)
      (tagpool.lookup c1.tvers) (tagpool.lookup c2.tvers) tagpool.ntags

/-- The value an item shows at scan position `j` when the tags are scanned from
`ntags - 1` down to `0` and, within one tag, in the order `tlook`, `ttran`,
`tvers` (the scan order described for the comparison). -/
def scanValue (tagpool : Tagpool) (c : clos_t) (j : Nat) : Int :=
  let t := tagpool.ntags - 1 - j / 3
  if j % 3 = 0 then tagAt (tagpool.lookup c.tlook) t
  else if j % 3 = 1 then tagAt (tagpool.lookup c.ttran) t
  else tagAt (tagpool.lookup c.tvers) t

/-- Position `k` is the first scan position at which the two items differ. -/
def FirstDiff (tagpool : Tagpool) (c1 c2 : clos_t) (k : Nat) : Prop :=
  k < 3 * tagpool.ntags ∧
    (∀ j, j < k → scanValue tagpool c1 j = scanValue tagpool c2 j) ∧
    scanValue tagpool c1 k ≠ scanValue tagpool c2 k

instance (tagpool : Tagpool) (c1 c2 : clos_t) (k : Nat) :
    Decidable (FirstDiff tagpool c1 c2 k) := by
  unfold FirstDiff; infer_instance

/-- Lexicographic comparison of two scan sequences on their first `m`
positions: they agree before some position `k < m` and the first one is
strictly smaller at `k`. -/
def LexLt (f g : Nat → Int) (m : Nat) : Prop :=
  ∃ k, k < m ∧ (∀ j, j < k → f j = g j) ∧ f k < g k

/-- Scan value for raw vectors with `n` tags (`scanValue` on looked-up vectors). -/
def scanRaw (l t v : List Int) (n j : Nat) : Int :=
  if j % 3 = 0 then tagAt l (n - 1 - j / 3)
  else if j % 3 = 1 then tagAt t (n - 1 - j / 3)
  else tagAt v (n - 1 - j / 3)

/-- All three handles of the item resolve to vectors of length `ntags`. -/
def WellSized (tagpool : Tagpool) (c : clos_t) : Prop :=
  (tagpool.lookup c.tlook).length = tagpool.ntags ∧
  (tagpool.lookup c.ttran).length = tagpool.ntags ∧
  (tagpool.lookup c.tvers).length = tagpool.ntags

instance (tagpool : Tagpool) (c : clos_t) : Decidable (WellSized tagpool c) := by
  unfold WellSized; infer_instance

/-- A pool with one tag holding the vectors `[0]`, `[1]` and `[2]`. -/
def pool012 : Tagpool := ⟨1, [[0], [1], [2]], [0], [0], [0]⟩

/-- Item with lookahead vector `[0]`. -/
def itemLow : clos_t := ⟨0, 0, 0, 0, 0⟩

/-- Item with lookahead vector `[1]`. -/
def itemMid : clos_t := ⟨0, 0, 0, 0, 1⟩

/-- Item with lookahead vector `[2]`. -/
def itemHigh : clos_t := ⟨0, 0, 0, 0, 2⟩

/-! ## NFA, rules and the standard algorithms -/

/-- Kind of an NFA state together with its successors (arena indices).  The
character ranges of `RAN` are not read by the closure kernel. -/
inductive nfa_kind where
  | NIL (out : Nat)
  | ALT (out1 out2 : Nat)
  | TAG (out : Nat) (info : Nat) (bottom : Bool)
  | RAN (out : Nat)
  | FIN
deriving DecidableEq, Repr

/-- NFA state `nfa_state_t`: kind, rule index and the mutable `loop` counter. -/
structure nfa_state_t where
  type : nfa_kind
  rule : Nat
  loop : Nat
deriving DecidableEq, Repr

/-- The part of `Rule` the closure kernel touches: the tag range
`[lvar, hvar)`, the source line `info->loc.line` and the `shadow` set. -/
structure Rule where
  lvar : Nat
  hvar : Nat
  line : Nat
  shadow : List Nat
deriving DecidableEq, Repr

/-- The `<algorithm>` routines called by the closure kernel, acting on a range
given as a list.  `partition` returns the rearranged range split at the
returned iterator; `partial_sort` takes the range and `middle - first`.  The
C++ standard fixes their results only up to the contract `StdAlgo.Conforming`,
so the kernel takes an implementation as a parameter. -/
structure StdAlgo where
  partition : (clos_t → Bool) → List clos_t → List clos_t × List clos_t
  partial_sort : (clos_t → clos_t → Bool) → List clos_t → Nat → List clos_t
  sort : (clos_t → clos_t → Bool) → List clos_t → List clos_t

/-- Comparator requirement of the standard (`Compare`): a strict weak ordering. -/
def StrictWeak (lt : clos_t → clos_t → Bool) : Prop :=
  (∀ a, lt a a = false) ∧
  (∀ a b c, lt a b = true → lt b c = true → lt a c = true) ∧
  (∀ a b c, lt a b = false → lt b c = false → lt a c = false)

/-- Contract of the standard for the three routines: each result is a
permutation of the range; `partition` puts the elements satisfying the
predicate in front; after `partial_sort` the first `middle - first` elements
are in order and none of the elements behind them is smaller; after `sort`
the whole range is in order. -/
structure StdAlgo.Conforming (lib : StdAlgo) : Prop where
  partition_perm : ∀ p xs, ((lib.partition p xs).1 ++ (lib.partition p xs).2).Perm xs
  partition_front : ∀ p xs x, x ∈ (lib.partition p xs).1 → p x = true
  partition_back : ∀ p xs x, x ∈ (lib.partition p xs).2 → p x = false
  partial_sort_perm : ∀ lt xs k, (lib.partial_sort lt xs k).Perm xs
  partial_sort_prefix : ∀ lt xs k, StrictWeak lt → k ≤ xs.length →
    ((lib.partial_sort lt xs k).take k).Pairwise (fun a b => lt b a = false) ∧
    ∀ a ∈ (lib.partial_sort lt xs k).take k, ∀ b ∈ (lib.partial_sort lt xs k).drop k,
      lt b a = false
  sort_perm : ∀ lt xs, (lib.sort lt xs).Perm xs
  sort_sorted : ∀ lt xs, StrictWeak lt →
    (lib.sort lt xs).Pairwise (fun a b => lt b a = false)

/-- What libstdc++ does on `std::partial_sort (first, middle, last, comp)` with
`middle == first`, the only way the closure kernel calls it: afterwards no element of the
range is smaller than the one at `first`.  The standard does not ask for this; it follows
from the loop `heap_select_front`. -/
def StdAlgo.MinFirst (lib : StdAlgo) : Prop :=
  ∀ lt xs f rest, StrictWeak lt → lib.partial_sort lt xs 0 = f :: rest →
    ∀ b ∈ rest, lt b f = false

/-- The loop of libstdc++ `std::__heap_select (first, middle, last, comp)` for
`middle == first` on the range `f :: xs`: for every `i`, when `comp (*i, *first)` holds,
`std::__pop_heap (first, middle, i, comp)` runs, which on the empty heap stores `*first`
at `i` and the old `*i` at `first`.  The round `i == first` leaves the range as it is.
Returns the element left at `first` and the rest of the range. -/
def heap_select_front (lt : clos_t → clos_t → Bool) : clos_t → List clos_t →
    clos_t × List clos_t
  | f, [] => (f, [])
  | f, x :: xs =>
    if lt x f then ((heap_select_front lt x xs).1, f :: (heap_select_front lt x xs).2)
    else ((heap_select_front lt f xs).1, x :: (heap_select_front lt f xs).2)

/-- The routines as libstdc++ has them, as far as the closure kernel can tell: a
partition and a sort that meet the contract, and `partial_sort`, which for an empty
sorted part `[first, middle)` is the loop `heap_select_front` (the heap built and sorted
around it is empty); for a non-empty sorted part, which the kernel never asks for, the
whole range is sorted. -/
def plainStd : StdAlgo where
  partition p xs := (xs.filter p, xs.filter (fun x => !p x))
  partial_sort lt xs k :=
    if k = 0 then
      match xs with
      | [] => []
      | f :: rest => (heap_select_front lt f rest).1 :: (heap_select_front lt f rest).2
    else xs.insertionSort (fun a b => lt b a = false)
  sort lt xs := xs.insertionSort (fun a b => lt b a = false)

/-- An implementation that meets the contract of the standard and returns from
`partial_sort` at once when the sorted part `[first, middle)` is empty. -/
def idleStd : StdAlgo where
  partition p xs := (xs.filter p, xs.filter (fun x => !p x))
  partial_sort lt xs k :=
    if k = 0 then xs else xs.insertionSort (fun a b => lt b a = false)
  sort lt xs := xs.insertionSort (fun a b => lt b a = false)

/-! ## closure.cc -/

/-- Mutable state of the epsilon-closure expansion: the output closure, the
tag pool, the item `c0` passed by reference, the scratch vector `tags` and
the NFA arena with its `loop` counters. -/
structure closure_st where
  clos : List clos_t
  tagpool : Tagpool
  c0 : clos_t
  tags : List Int
  nfa : List nfa_state_t
deriving DecidableEq, Repr

/-- Increment `++n->loop`. -/
def loop_inc (nfa : List nfa_state_t) (n : Nat) : List nfa_state_t :=
  match nfa[n]? with
  | some s => nfa.set n { s with loop := s.loop + 1 }
  | none => nfa

/-- Decrement `--n->loop`. -/
def loop_dec (nfa : List nfa_state_t) (n : Nat) : List nfa_state_t :=
  match nfa[n]? with
  | some s => nfa.set n { s with loop := s.loop - 1 }
  | none => nfa

/-- The kernel-state branch of `closure_one` on the closure: search for an
item with the state of `c0`; append `c0` when there is none, overwrite the
item found when `is_better` says so. -/
def closure_put (tagpool : Tagpool) (c0 : clos_t) : List clos_t → List clos_t
  | [] => [c0]
  | c :: rest =>
    if c.state = c0.state then
      (if is_better c c0 tagpool then c0 :: rest else c :: rest)
    else c :: closure_put tagpool c0 rest

/-- Source function `closure_one(clos, tagpool, c0, n, tags)`.  The first argument bounds the
recursion depth; `none` means the bound was hit or `n` is not a state of the
arena.  `CURSOR` and `BOTTOM` are the values of `TAGVER_CURSOR` and
`TAGVER_BOTTOM`, which are declared outside the source file. -/
def closure_one (CURSOR BOTTOM : Int) : Nat → closure_st → Nat → Option closure_st
  | 0, _, _ => none
  | fuel + 1, st, n =>
    match st.nfa[n]? with
    | none => none
    | some s =>
      if s.loop > 1 then some st
      else
        let st1 := { st with nfa := loop_inc st.nfa n }
        let r : Option closure_st :=
          match s.type with
          | nfa_kind.NIL out => closure_one CURSOR BOTTOM fuel st1 out
          | nfa_kind.ALT out1 out2 =>
            (closure_one CURSOR BOTTOM fuel st1 out1).bind
              (fun st2 => closure_one CURSOR BOTTOM fuel st2 out2)
          | nfa_kind.TAG out t bottom =>
            let old := tagAt st1.tags t
            let st2 := { st1 with tags := st1.tags.set t (if bottom then BOTTOM else CURSOR) }
            (closure_one CURSOR BOTTOM fuel st2 out).map
              (fun st3 => { st3 with tags := st3.tags.set t old })
          | _ =>
            let ins := st1.tagpool.insert st1.tags
            let c0 := { st1.c0 with state := n, tlook := ins.2 }
            some { st1 with tagpool := ins.1, c0 := c0, clos := closure_put ins.1 c0 st1.clos }
        r.map (fun st4 => { st4 with nfa := loop_dec st4.nfa n })

/-- Rule of the NFA state an item points to (`c.state->rule`). -/
def rule_of (nfa : List nfa_state_t) (c : clos_t) : Nat :=
  match nfa[c.state]? with
  | some s => s.rule
  | none => 0

/-- Source function `compare_by_rule(c1, c2)`: by rule, then by state address. -/
def compare_by_rule (nfa : List nfa_state_t) (c1 c2 : clos_t) : Bool :=
  if rule_of nfa c1 < rule_of nfa c2 then true
  else if rule_of nfa c1 > rule_of nfa c2 then false
  else if c1.state < c2.state then true
  else if c1.state > c2.state then false
  else false

/-- Source function `not_fin(c)`. -/
def not_fin (nfa : List nfa_state_t) (c : clos_t) : Bool :=
  match nfa[c.state]? with
  | some s => decide (s.type ≠ nfa_kind.FIN)
  | none => true

/-- Statement `rules[r].shadow.insert(line)`. -/
def shadow_insert (rules : List Rule) (r : Nat) (line : Nat) : List Rule :=
  match rules[r]? with
  | some rule => rules.set r { rule with shadow := rule.shadow.insert line }
  | none => rules

/-- Expression `rules[r].info->loc.line`. -/
def rule_line (rules : List Rule) (r : Nat) : Nat :=
  match rules[r]? with
  | some rule => rule.line
  | none => 0

/-- Source function `prune_final_items(clos, rules)`; returns the closure and the rules.  The
outer match is the test `f != e`. -/
def prune_final_items (lib : StdAlgo) (nfa : List nfa_state_t)
    (clos : List clos_t) (rules : List Rule) : List clos_t × List Rule :=
  let pf := lib.partition (not_fin nfa) clos
  match pf.2 with
  | [] => (pf.1, rules)
  | x :: xs =>
    match lib.partial_sort (compare_by_rule nfa) (x :: xs) 0 with
    | [] => (pf.1, rules)
    | f :: rest =>
      let line := rule_line rules (rule_of nfa f)
      let rules1 := rest.foldl (fun rs c => shadow_insert rs (rule_of nfa c) line) rules
      ((pf.1 ++ f :: rest).take (pf.1.length + 1), rules1)

/-- The innermost loop of `check_nondeterminism`:
`for (t = rule.lvar; t < rule.hvar; ++t) badtags[t] |= y[t] != x[t]`. -/
def mark_badtags (x y : List Int) (lvar hvar : Nat) (badtags : List Bool) : List Bool :=
  (List.range' lvar (hvar - lvar)).foldl
    (fun bad t => bad.set t (bad.getD t false || decide (tagAt y t ≠ tagAt x t))) badtags

/-- The rule looked up by `rules[r]`. -/
def rule_at (rules : List Rule) (r : Nat) : Rule :=
  rules.getD r ⟨0, 0, 0, []⟩

/-- The loops of `check_nondeterminism` after the first item has been read:
`r` is the current rule and `x` the `ttran` vector of the first item of its
group.  An item with rule `r` is handled by the inner loop; any other item
ends the inner loop and starts the next round of the outer loop, which takes
its `ttran` as `x` and advances `r` by `for (; r < c->state->rule; ++r);`. -/
def check_nondeterminism_from (nfa : List nfa_state_t) (tagpool : Tagpool)
    (rules : List Rule) : Nat → List Int → List clos_t → List Bool → List Bool
  | _, _, [], badtags => badtags
  | r, x, c :: cs, badtags =>
    if rule_of nfa c = r then
      check_nondeterminism_from nfa tagpool rules r x cs
        (mark_badtags x (tagpool.lookup c.ttran) (rule_at rules r).lvar (rule_at rules r).hvar
          badtags)
    else
      check_nondeterminism_from nfa tagpool rules (max r (rule_of nfa c))
        (tagpool.lookup c.ttran) cs badtags

/-- Source function `check_nondeterminism(clos, tagpool, rules, badtags)`; returns `badtags`. -/
def check_nondeterminism (nfa : List nfa_state_t) (clos : List clos_t)
    (tagpool : Tagpool) (rules : List Rule) (badtags : List Bool) : List Bool :=
  match clos with
  | [] => badtags
  | c :: cs =>
    check_nondeterminism_from nfa tagpool rules (max 0 (rule_of nfa c))
      (tagpool.lookup c.ttran) cs badtags

/-- Some item of the closure has `tagpool[c->ttran][t] == v`. -/
def has_ttran (tagpool : Tagpool) (clos : List clos_t) (t : Nat) (v : Int) : Bool :=
  clos.any (fun c => decide (tagAt (tagpool.lookup c.ttran) t = v))

/-- State of the version allocation loop of `merge_transition_tags`. -/
structure alloc_st where
  cur : List Int
  bot : List Int
  maxver : Int
deriving DecidableEq, Repr

/-- One round of the allocation loop, for tag `t`. -/
def alloc_step (CURSOR BOTTOM : Int) (tagpool : Tagpool) (clos : List clos_t)
    (a : alloc_st) (t : Nat) : alloc_st :=
  let a0 : alloc_st := ⟨a.cur.set t TAGVER_ZERO, a.bot.set t TAGVER_ZERO, a.maxver⟩
  let a1 : alloc_st :=
    if has_ttran tagpool clos t CURSOR then ⟨a0.cur.set t (a0.maxver + 1), a0.bot, a0.maxver + 1⟩
    else a0
  if has_ttran tagpool clos t BOTTOM then ⟨a1.cur, a1.bot.set t (-(a1.maxver + 1)), a1.maxver + 1⟩
  else a1

/-- The allocation loop `for (size_t t = 0; t < ntag; ++t)`. -/
def alloc_versions (CURSOR BOTTOM : Int) (tagpool : Tagpool) (clos : List clos_t)
    (a : alloc_st) : alloc_st :=
  (List.range tagpool.ntags).foldl (alloc_step CURSOR BOTTOM tagpool clos) a

/-- The `switch (tran[t])` loop that fills the scratch vector `ver`; a value
of `tran[t]` outside the three cases leaves `ver[t]` as it was. -/
def apply_tran (CURSOR BOTTOM : Int) (tran ver0 cur bot : List Int) (ntag : Nat)
    (ver : List Int) : List Int :=
  (List.range ntag).foldl
    (fun v t =>
      if tagAt tran t = TAGVER_ZERO then v.set t (tagAt ver0 t)
      else if tagAt tran t = CURSOR then v.set t (tagAt cur t)
      else if tagAt tran t = BOTTOM then v.set t (tagAt bot t)
      else v) ver

/-- The second loop of `merge_transition_tags` over the items; the pool
carries the scratch vector `ver` in `buffer3`. -/
def apply_items (CURSOR BOTTOM : Int) (cur bot : List Int) :
    Tagpool → List clos_t → Tagpool × List clos_t
  | tagpool, [] => (tagpool, [])
  | tagpool, c :: cs =>
    if c.ttran = ZERO_TAGS then
      let r := apply_items CURSOR BOTTOM cur bot tagpool cs
      (r.1, c :: r.2)
    else
      let ver := apply_tran CURSOR BOTTOM (tagpool.lookup c.ttran) (tagpool.lookup c.tvers)
        cur bot tagpool.ntags tagpool.buffer3
      let ins := ({ tagpool with buffer3 := ver } : Tagpool).insert ver
      let r := apply_items CURSOR BOTTOM cur bot ins.1 cs
      (r.1, { c with tvers := ins.2 } :: r.2)

/-- Modelled from the spec: the save record built by
`tcpool.conv_to_save(bot, cur, ntag)` (the tag-commit pool is declared outside
the source file); it is kept as the two version vectors it is built from. -/
structure tagsave_t where
  bot : List Int
  cur : List Int
deriving DecidableEq, Repr

/-- Modelled from the spec: `tcpool.conv_to_save(bot, cur, ntag)`. -/
def conv_to_save (bot cur : List Int) (ntag : Nat) : tagsave_t :=
  ⟨bot.take ntag, cur.take ntag⟩

/-- Result of `merge_transition_tags`: closure, pool, `maxver` and the save record. -/
structure merge_result where
  clos : List clos_t
  tagpool : Tagpool
  maxver : Int
  save : tagsave_t
deriving DecidableEq, Repr

/-- Source function `merge_transition_tags(clos, tagpool, tcpool, maxver)`. -/
def merge_transition_tags (CURSOR BOTTOM : Int) (clos : List clos_t) (tagpool : Tagpool)
    (maxver : Int) : merge_result :=
  let a := alloc_versions CURSOR BOTTOM tagpool clos ⟨tagpool.buffer1, tagpool.buffer2, maxver⟩
  let tagpool1 : Tagpool := { tagpool with buffer1 := a.cur, buffer2 := a.bot }
  let r := apply_items CURSOR BOTTOM a.cur a.bot tagpool1 clos
  ⟨r.2, r.1, a.maxver, conv_to_save a.bot a.cur tagpool.ntags⟩

/-- The expansion loop of `closure`: `closure_one` on every item of `clos1`;
the items of `clos1` are passed by reference and are returned as they are
left. -/
def closure_expand (CURSOR BOTTOM : Int) (fuel : Nat) :
    List clos_t → closure_st → Option (List clos_t × closure_st)
  | [], st => some ([], st)
  | c :: cs, st =>
    match closure_one CURSOR BOTTOM fuel { st with c0 := c } c.state with
    | none => none
    | some st1 =>
      match closure_expand CURSOR BOTTOM fuel cs st1 with
      | none => none
      | some r => some (st1.c0 :: r.1, r.2)

/-- Everything `closure` leaves behind. -/
structure closure_result where
  clos1 : List clos_t
  clos2 : List clos_t
  tagpool : Tagpool
  rules : List Rule
  badtags : List Bool
  maxver : Int
  nfa : List nfa_state_t
  save : tagsave_t
deriving DecidableEq, Repr

/-- Source function `closure(clos1, clos2, tagpool, tcpool, rules, badtags, maxver)`; `fuel`
bounds the recursion depth of each `closure_one` call. -/
def closure (lib : StdAlgo) (CURSOR BOTTOM : Int) (fuel : Nat) (nfa : List nfa_state_t)
    (clos1 : List clos_t) (tagpool : Tagpool) (rules : List Rule) (badtags : List Bool)
    (maxver : Int) : Option closure_result :=
  let tags := List.replicate tagpool.ntags TAGVER_ZERO ++ tagpool.buffer1.drop tagpool.ntags
  let st0 : closure_st := ⟨[], tagpool, ⟨0, 0, 0, 0, 0⟩, tags, nfa⟩
  match closure_expand CURSOR BOTTOM fuel clos1 st0 with
  | none => none
  | some (clos1a, st) =>
    let tagpool1 : Tagpool := { st.tagpool with buffer1 := st.tags }
    let pr := prune_final_items lib st.nfa st.clos rules
    let sorted := lib.sort (compare_by_rule st.nfa) pr.1
    let badtags1 := check_nondeterminism st.nfa sorted tagpool1 pr.2 badtags
    let m := merge_transition_tags CURSOR BOTTOM sorted tagpool1 maxver
    some ⟨clos1a, m.clos, m.tagpool, pr.2, badtags1, m.maxver, st.nfa, m.save⟩

/-- The successors of a state kind that the expansion follows lie inside an
arena of `len` states. -/
def out_ok (len : Nat) : nfa_kind → Bool
  | nfa_kind.NIL out => decide (out < len)
  | nfa_kind.ALT out1 out2 => decide (out1 < len) && decide (out2 < len)
  | nfa_kind.TAG out _ _ => decide (out < len)
  | nfa_kind.RAN _ => true
  | nfa_kind.FIN => true

/-- Finite NFA: every epsilon-successor is a state of the arena. -/
def NfaClosed (nfa : List nfa_state_t) : Prop :=
  ∀ s ∈ nfa, out_ok nfa.length s.type = true

instance (nfa : List nfa_state_t) : Decidable (NfaClosed nfa) := by
  unfold NfaClosed; infer_instance

/-- Number of entries the `loop` counters still admit: `2 - loop` summed over
the arena (a state is entered only while its counter is at most 1). -/
def slack : List nfa_state_t → Nat
  | [] => 0
  | s :: rest => (2 - s.loop) + slack rest

/-- The states of the items of a closure. -/
def states_of (clos : List clos_t) : List Nat := clos.map (fun c => c.state)

/-- An NFA with an epsilon-cycle: state 0 is `ALT` to states 1 and 2, state 1
sets tag 0 and leads to the final state 3, state 2 leads back to state 0. -/
def nfaLoop : List nfa_state_t :=
  [⟨nfa_kind.ALT 1 2, 0, 0⟩, ⟨nfa_kind.TAG 3 0 false, 0, 0⟩, ⟨nfa_kind.NIL 0, 0, 0⟩,
   ⟨nfa_kind.FIN, 0, 0⟩]

/-- A pool with one tag that holds the all-`ZERO` vector only. -/
def poolOneTag : Tagpool := ⟨1, [[0]], [0], [0], [0]⟩

/-- Test `is_fin c`: the item points to a `FIN` state (the negation of `not_fin`). -/
def is_fin (nfa : List nfa_state_t) (c : clos_t) : Bool := !not_fin nfa c

/-- The final items of a closure, in closure order. -/
def finals_of (nfa : List nfa_state_t) (clos : List clos_t) : List clos_t :=
  clos.filter (is_fin nfa)

/-- Value of `rules[r]` after `rules[r].shadow.insert(line)`. -/
def with_shadow (rule : Rule) (line : Nat) : Rule :=
  { rule with shadow := rule.shadow.insert line }

/-- Note [at most one final item per closure]: the arena has at most one
`FIN` state per rule. -/
def OneFinalPerRule (nfa : List nfa_state_t) : Prop :=
  ∀ i, i < nfa.length → ∀ j, j < nfa.length →
    (nfa.getD i ⟨nfa_kind.FIN, 0, 0⟩).type = nfa_kind.FIN →
    (nfa.getD j ⟨nfa_kind.FIN, 0, 0⟩).type = nfa_kind.FIN →
    (nfa.getD i ⟨nfa_kind.FIN, 0, 0⟩).rule = (nfa.getD j ⟨nfa_kind.FIN, 0, 0⟩).rule → i = j

instance (nfa : List nfa_state_t) : Decidable (OneFinalPerRule nfa) := by
  unfold OneFinalPerRule; infer_instance

/-- Two final states: state 0 belongs to rule 1, state 1 to rule 0. -/
def nfaTwoFinals : List nfa_state_t := [⟨nfa_kind.FIN, 1, 0⟩, ⟨nfa_kind.FIN, 0, 0⟩]

/-- Closure with the final item of rule 1 in front of the final item of rule 0. -/
def closTwoFinals : List clos_t := [⟨0, 0, 0, 0, 0⟩, ⟨1, 1, 0, 0, 0⟩]

/-- Rule 0 at source line 10, rule 1 at source line 20, nothing shadowed yet. -/
def rulesTwo : List Rule := [⟨0, 0, 10, []⟩, ⟨0, 0, 20, []⟩]

/-- Scenario S3 after the transition on `a`: the final states of rule 0 and
rule 1, in rule order. -/
def nfaS3 : List nfa_state_t := [⟨nfa_kind.FIN, 0, 0⟩, ⟨nfa_kind.FIN, 1, 0⟩]

/-- Tag `t` belongs to rule `r`: `rules[r].lvar <= t < rules[r].hvar`. -/
def in_range (rules : List Rule) (r t : Nat) : Prop :=
  (rule_at rules r).lvar ≤ t ∧ t < (rule_at rules r).hvar

instance (rules : List Rule) (r t : Nat) : Decidable (in_range rules r t) := by
  unfold in_range; infer_instance

/-- The first item of the closure that belongs to rule `r` (the first item of
the group of `r` when the items are grouped by rule). -/
def group_first (nfa : List nfa_state_t) (clos : List clos_t) (r : Nat) : Option clos_t :=
  clos.find? (fun c => decide (rule_of nfa c = r))

/-- Some item `c` of the closure differs at tag `t` from the first item of
the group of its rule, and `t` is a tag of that rule. -/
def NondetAt (nfa : List nfa_state_t) (tagpool : Tagpool) (rules : List Rule)
    (clos : List clos_t) (t : Nat) : Prop :=
  ∃ c ∈ clos, ∃ c0 ∈ clos, group_first nfa clos (rule_of nfa c) = some c0 ∧
    in_range rules (rule_of nfa c) t ∧
    tagAt (tagpool.lookup c.ttran) t ≠ tagAt (tagpool.lookup c0.ttran) t

instance (nfa : List nfa_state_t) (tagpool : Tagpool) (rules : List Rule)
    (clos : List clos_t) (t : Nat) : Decidable (NondetAt nfa tagpool rules clos t) := by
  unfold NondetAt; infer_instance

/-- The items are grouped by rule: items of one rule are adjacent. -/
def GroupedByRule (nfa : List nfa_state_t) (clos : List clos_t) : Prop :=
  ∀ k, k < clos.length → ∀ j, j < k → ∀ i, i < j →
    (clos.map (rule_of nfa)).getD i 0 = (clos.map (rule_of nfa)).getD k 0 →
    (clos.map (rule_of nfa)).getD j 0 = (clos.map (rule_of nfa)).getD i 0

instance (nfa : List nfa_state_t) (clos : List clos_t) : Decidable (GroupedByRule nfa clos) := by
  unfold GroupedByRule; infer_instance

/-- The items are in non-decreasing rule order (what `std::sort` with
`compare_by_rule` leaves). -/
def SortedByRule (nfa : List nfa_state_t) (clos : List clos_t) : Prop :=
  (clos.map (rule_of nfa)).Pairwise (fun a b => a ≤ b)

instance (nfa : List nfa_state_t) (clos : List clos_t) : Decidable (SortedByRule nfa clos) := by
  unfold SortedByRule; infer_instance

/-- Three `RAN` states: state 0 of rule 1, states 1 and 2 of rule 0. -/
def nfaGroups : List nfa_state_t :=
  [⟨nfa_kind.RAN 0, 1, 0⟩, ⟨nfa_kind.RAN 0, 0, 0⟩, ⟨nfa_kind.RAN 0, 0, 0⟩]

/-- One tag; handle 0 is `[0]`, handle 1 is `[7]`. -/
def poolGroups : Tagpool := ⟨1, [[0], [7]], [0], [0], [0]⟩

/-- Grouped by rule in the order rule 1, rule 0, rule 0; the two items of
rule 0 differ in `ttran[0]`. -/
def closGroupsDesc : List clos_t := [⟨0, 0, 0, 0, 0⟩, ⟨1, 1, 0, 0, 0⟩, ⟨2, 2, 0, 1, 0⟩]

/-- The same items in rule order 0, 0, 1. -/
def closGroupsAsc : List clos_t := [⟨1, 1, 0, 0, 0⟩, ⟨2, 2, 0, 1, 0⟩, ⟨0, 0, 0, 0, 0⟩]

/-- Rule 0 owns tag 0, rule 1 owns no tag. -/
def rulesGroups : List Rule := [⟨0, 1, 10, []⟩, ⟨1, 1, 20, []⟩]

/-- What the loops starting from rule `r` and reference vector `x` flag on the rest of
the closure: an item of rule `r` that differs from `x`, or an item of a later group that
differs from the first item of its group. -/
def BadFrom (nfa : List nfa_state_t) (tagpool : Tagpool) (rules : List Rule) (r : Nat)
    (x : List Int) (cs : List clos_t) (t : Nat) : Prop :=
  (∃ c ∈ cs, rule_of nfa c = r ∧ in_range rules r t ∧
      tagAt (tagpool.lookup c.ttran) t ≠ tagAt x t) ∨
  (∃ c ∈ cs, rule_of nfa c ≠ r ∧ ∃ c0 ∈ cs, group_first nfa cs (rule_of nfa c) = some c0 ∧
      in_range rules (rule_of nfa c) t ∧
      tagAt (tagpool.lookup c.ttran) t ≠ tagAt (tagpool.lookup c0.ttran) t)

/-- Value of `maxver` when the allocation loop reaches tag `t`: the starting
value plus one for every version handed out for the tags below `t`. -/
def maxver_at (CURSOR BOTTOM : Int) (tagpool : Tagpool) (clos : List clos_t) (maxver : Int) :
    Nat → Int
  | 0 => maxver
  | t + 1 =>
    maxver_at CURSOR BOTTOM tagpool clos maxver t
      + (if has_ttran tagpool clos t CURSOR then 1 else 0)
      + (if has_ttran tagpool clos t BOTTOM then 1 else 0)

/-- Number of tags below `ntags` whose slot in `v` is not `ZERO`. -/
def count_nonzero (v : List Int) (ntags : Nat) : Nat :=
  ((List.range ntags).filter (fun t => decide (tagAt v t ≠ TAGVER_ZERO))).length

/-- One tag, `[0]` at handle 0 and `[5]` at handle 1 (5 stands for `CURSOR`). -/
def poolCursor : Tagpool := ⟨1, [[0], [5]], [0], [0], [0]⟩

/-- A closure with one item whose `ttran` is handle 1. -/
def closCursor : List clos_t := [⟨0, 0, 0, 1, 0⟩]

/-- The pool `q` is the pool `p` with more vectors interned behind the old
ones: handles of `p` keep their vectors. -/
def PoolExt (p q : Tagpool) : Prop :=
  q.ntags = p.ntags ∧ ∃ ext, q.vecs = p.vecs ++ ext

/-- Slot `t` of the tag versions an item is to get from the transition:
the old version for `ZERO`, `cur[t]` for `CURSOR`, `bot[t]` for `BOTTOM`. -/
def merged_version (CURSOR : Int) (tagpool : Tagpool) (cur bot : List Int) (c : clos_t)
    (t : Nat) : Int :=
  if tagAt (tagpool.lookup c.ttran) t = TAGVER_ZERO then tagAt (tagpool.lookup c.tvers) t
  else if tagAt (tagpool.lookup c.ttran) t = CURSOR then tagAt cur t
  else tagAt bot t

/-- Every `ttran` slot of every item is `ZERO`, `CURSOR` or `BOTTOM`. -/
def TtranAlphabet (CURSOR BOTTOM : Int) (tagpool : Tagpool) (clos : List clos_t) : Prop :=
  ∀ c ∈ clos, ∀ t, t < tagpool.ntags →
    tagAt (tagpool.lookup c.ttran) t = TAGVER_ZERO ∨
    tagAt (tagpool.lookup c.ttran) t = CURSOR ∨
    tagAt (tagpool.lookup c.ttran) t = BOTTOM

instance (CURSOR BOTTOM : Int) (tagpool : Tagpool) (clos : List clos_t) :
    Decidable (TtranAlphabet CURSOR BOTTOM tagpool clos) := by
  unfold TtranAlphabet; infer_instance

/-- The `tvers` and `ttran` handles of the items are handles of the pool. -/
def HandlesValid (tagpool : Tagpool) (clos : List clos_t) : Prop :=
  ∀ c ∈ clos, c.tvers < tagpool.vecs.length ∧ c.ttran < tagpool.vecs.length

instance (tagpool : Tagpool) (clos : List clos_t) : Decidable (HandlesValid tagpool clos) := by
  unfold HandlesValid; infer_instance

/-- Two tags; handle 0 is the all-`ZERO` vector, handle 1 is `[5, -5]`
(`CURSOR`, `BOTTOM`), handle 2 is `[3, 2]`. -/
def poolMerge : Tagpool := ⟨2, [[0, 0], [5, -5], [3, 2]], [0, 0], [0, 0], [9, 9]⟩

/-- An item with both tags set on the transition and one with none. -/
def closMerge : List clos_t := [⟨0, 0, 2, 1, 0⟩, ⟨1, 1, 2, 0, 0⟩]

/-- What `merge_transition_tags` does to one item: `c` before, `c'` after,
`final` the pool after the call.  Only `tvers` changes; it stays the same
handle when `ttran` is `ZERO_TAGS`, and slot by slot the new versions are the
old version, `cur[t]` or `bot[t]` according to `ttran[t]`. -/
def MergedItem (CURSOR BOTTOM : Int) (tagpool : Tagpool) (cur bot : List Int)
    (final : Tagpool) (c c' : clos_t) : Prop :=
  c'.state = c.state ∧ c'.origin = c.origin ∧ c'.ttran = c.ttran ∧ c'.tlook = c.tlook ∧
  (c.ttran = ZERO_TAGS → c'.tvers = c.tvers) ∧
  ∀ t, t < tagpool.ntags →
    (tagAt (tagpool.lookup c.ttran) t = TAGVER_ZERO →
      tagAt (final.lookup c'.tvers) t = tagAt (tagpool.lookup c.tvers) t) ∧
    (tagAt (tagpool.lookup c.ttran) t = CURSOR →
      tagAt (final.lookup c'.tvers) t = tagAt cur t) ∧
    (tagAt (tagpool.lookup c.ttran) t = BOTTOM →
      tagAt (final.lookup c'.tvers) t = tagAt bot t)

/-! ## skeleton.cc -/

/-- Constant `Skeleton::MAX_SIZE` (1Gb). -/
def MAX_SIZE : Nat := 1024 * 1024 * 1024

/-- Constant `SkeletonState::INVALID_PATH_LEN`. -/
def INVALID_PATH_LEN : Nat := 0xFFFFffff

/-- Modelled from the spec: a `Path` (declared in the skeleton header) carries
its characters, the length of the prefix that matched and the rule. -/
structure Path where
  chars : List Nat
  length : Nat
  rule : Nat
deriving DecidableEq, Repr

/-- Modelled from the spec: the rule value "none" (`~0u`). -/
def RULE_NONE : Nat := 0xFFFFffff

/-- Modelled from the spec: `Path::update(rule)` records a match end at the
current end of the path when an accepting state is passed; the characters are
not touched. -/
def Path.update (p : Path) (rule : Nat) : Path :=
  if rule ≠ RULE_NONE then { p with length := p.chars.length, rule := rule } else p

/-- Modelled from the spec: `Path::extend(rule, c)` updates the match and
appends one character. -/
def Path.extend (p : Path) (rule : Nat) (c : Nat) : Path :=
  { p.update rule with chars := (p.update rule).chars ++ [c] }

/-- Skeleton node `SkeletonState`.  `go` is the map from successor to
characters, listed in iteration order; successors are indices into the array
of states. -/
structure SkeletonState where
  go : List (Nat × List Nat)
  rule : Nat
  visited : Nat
  path : Option Path
  path_len : Nat
deriving DecidableEq, Repr

/-- Modelled from the spec: `is_end()` (declared in the skeleton header) holds
for the final states, which are the states without outgoing edges. -/
def SkeletonState.is_end (s : SkeletonState) : Bool := s.go.isEmpty

/-- Constructor of the guard `SkeletonState::visit _ (s->visited)`: `++visited`. -/
def visit_inc (sk : List SkeletonState) (s : Nat) : List SkeletonState :=
  match sk[s]? with
  | some st => sk.set s { st with visited := st.visited + 1 }
  | none => sk

/-- Destructor of the guard `SkeletonState::visit`: `--visited`. -/
def visit_dec (sk : List SkeletonState) (s : Nat) : List SkeletonState :=
  match sk[s]? with
  | some st => sk.set s { st with visited := st.visited - 1 }
  | none => sk

/-- The edge loop of `estimate_size_all`; `call` is the recursive call,
`result` the running `uint64_t` sum.  `size() * count` is a `size_t` product
(64 bits); the arguments of the call are converted to `uint32_t`. -/
def all_loop (call : List SkeletonState → Nat → Nat → Nat → Option (Nat × List SkeletonState))
    (count len : Nat) :
    List (Nat × List Nat) → List SkeletonState → Nat → Option (Nat × List SkeletonState)
  | [], sk, result => some (result % 2 ^ 32, sk)
  | e :: es, sk, result =>
    let new_count := (e.2.length * count) % 2 ^ 64
    if new_count ≥ MAX_SIZE then some (MAX_SIZE, sk)
    else
      match call sk e.1 (new_count % 2 ^ 32) ((len + 1) % 2 ^ 32) with
      | none => none
      | some r =>
        let result1 := (result + r.1) % 2 ^ 64
        if result1 ≥ MAX_SIZE then some (MAX_SIZE, r.2)
        else all_loop call count len es r.2 result1

/-- Source function `Skeleton::estimate_size_all(s, count, len)`; returns the value and the
skeleton with its `visited` counters.  The first argument bounds the recursion
depth; `none` means the bound was hit or a pointer leaves the array. -/
def estimate_size_all :
    Nat → List SkeletonState → Nat → Nat → Nat → Option (Nat × List SkeletonState)
  | 0, _, _, _, _ => none
  | fuel + 1, sk, s, count, len =>
    match sk[s]? with
    | none => none
    | some st =>
      if st.is_end then some ((count * len) % 2 ^ 32, sk)
      else if st.visited < 2 then
        (all_loop (estimate_size_all fuel) count len st.go (visit_inc sk s) 0).map
          (fun r => (r.1, visit_dec r.2 s))
      else some (0, sk)

/-- Assignment `s->path_len = i->first->path_len + 1` when `n != 0` and `s->path_len` is
still invalid. -/
def set_path_len (sk : List SkeletonState) (s p n : Nat) : List SkeletonState :=
  match sk[s]?, sk[p]? with
  | some st, some pt =>
    if n ≠ 0 ∧ st.path_len = INVALID_PATH_LEN then
      sk.set s { st with path_len := (pt.path_len + 1) % 2 ^ 32 }
    else sk
  | _, _ => sk

/-- Modelled from the spec: the loop over `SkeletonState::wrap_iter i (s->go)`
with condition `!i.end () || c < count`.  The iterator walks the real edges and
then keeps yielding them round-robin; `end()` holds once the last real edge has
been passed.  `idx` is the position in `go`, `wrapped` the value of `end()`,
`c` the `uint32_t` arrow counter, `result` the `uint64_t` sum.  The first
argument bounds the number of rounds. -/
def cover_loop (call : List SkeletonState → Nat → Nat → Nat → Option (Nat × List SkeletonState))
    (go : List (Nat × List Nat)) (s count len : Nat) :
    Nat → Nat → Bool → Nat → List SkeletonState → Nat → Option (Nat × List SkeletonState)
  | 0, _, _, _, _, _ => none
  | rounds + 1, idx, wrapped, c, sk, result =>
    if wrapped ∧ ¬ c < count then some (result % 2 ^ 32, sk)
    else
      match go[idx]? with
      | none => none
      | some e =>
        let arrows := e.2.length % 2 ^ 32
        let c1 := (c + arrows) % 2 ^ 32
        match call sk e.1 arrows ((len + 1) % 2 ^ 32) with
        | none => none
        | some r =>
          let sk1 := set_path_len r.2 s e.1 r.1
          let result1 := (result + r.1) % 2 ^ 64
          if result1 > MAX_SIZE then some (MAX_SIZE, sk1)
          else if idx + 1 = go.length then
            cover_loop call go s count len rounds 0 true c1 sk1 result1
          else cover_loop call go s count len rounds (idx + 1) wrapped c1 sk1 result1

/-- Source function `Skeleton::estimate_size_cover(s, count, len)`; the first argument bounds
the recursion depth and the number of rounds of each edge loop. -/
def estimate_size_cover :
    Nat → List SkeletonState → Nat → Nat → Nat → Option (Nat × List SkeletonState)
  | 0, _, _, _, _ => none
  | fuel + 1, sk, s, count, len =>
    match sk[s]? with
    | none => none
    | some st =>
      if st.path_len ≠ INVALID_PATH_LEN then
        some ((count * ((len + st.path_len) % 2 ^ 32)) % 2 ^ 32, sk)
      else if st.visited < 2 then
        (cover_loop (estimate_size_cover fuel) st.go s count len fuel 0 false 0
            (visit_inc sk s) 0).map
          (fun r => (r.1, visit_dec r.2 s))
      else some (0, sk)

/-- The paths `zs` built for one edge of `generate_paths_all`: every prefix
extended by every character of the edge, prefix-major. -/
def extend_all (rule : Nat) (prefixes : List Path) (chars : List Nat) : List Path :=
  prefixes.flatMap (fun p => chars.map (fun c => p.extend rule c))

/-- The edge loop of `generate_paths_all`. -/
def gen_all_loop
    (call : List SkeletonState → Nat → List Path → List Path →
      Option (List Path × List SkeletonState))
    (rule : Nat) (prefixes : List Path) :
    List (Nat × List Nat) → List SkeletonState → List Path →
      Option (List Path × List SkeletonState)
  | [], sk, results => some (results, sk)
  | e :: es, sk, results =>
    match call sk e.1 (extend_all rule prefixes e.2) results with
    | none => none
    | some r => gen_all_loop call rule prefixes es r.2 r.1

/-- Source function `generate_paths_all(s, prefixes, results)`; returns `results` and the
skeleton.  The first argument bounds the recursion depth. -/
def generate_paths_all :
    Nat → List SkeletonState → Nat → List Path → List Path →
      Option (List Path × List SkeletonState)
  | 0, _, _, _, _ => none
  | fuel + 1, sk, s, prefixes, results =>
    match sk[s]? with
    | none => none
    | some st =>
      if st.is_end then some (results ++ prefixes.map (fun p => p.update st.rule), sk)
      else if st.visited < 2 then
        (gen_all_loop (generate_paths_all fuel) st.rule prefixes st.go (visit_inc sk s)
            results).map
          (fun r => (r.1, visit_dec r.2 s))
      else some (results, sk)

/-- Total character count of a list of paths: the sum of `chars.size()`. -/
def total_chars (paths : List Path) : Nat :=
  (paths.map (fun p => p.chars.length)).sum

/-- A skeleton with a single state, the final state. -/
def skFinal : List SkeletonState := [⟨[], RULE_NONE, 0, some ⟨[], 0, RULE_NONE⟩, 0⟩]

/-- A state with one edge of two characters to a final state. -/
def skEdge : List SkeletonState :=
  [⟨[(1, [97, 98])], RULE_NONE, 0, none, INVALID_PATH_LEN⟩,
   ⟨[], RULE_NONE, 0, some ⟨[], 0, RULE_NONE⟩, 0⟩]

/-- The edge loop of `gen_size`. -/
def gen_size_loop
    (call : List SkeletonState → Nat → Nat → Nat → Option (Nat × List SkeletonState))
    (n total : Nat) :
    List (Nat × List Nat) → List SkeletonState → Nat → Option (Nat × List SkeletonState)
  | [], sk, acc => some (acc, sk)
  | e :: es, sk, acc =>
    match call sk e.1 (n * e.2.length) (e.2.length * (total + n)) with
    | none => none
    | some r => gen_size_loop call n total es r.2 (acc + r.1)

/-- Number of characters `generate_paths_all` emits from state `s` for `n`
prefixes that hold `total` characters together, computed along the same
traversal without building the paths (exact arithmetic). -/
def gen_size : Nat → List SkeletonState → Nat → Nat → Nat → Option (Nat × List SkeletonState)
  | 0, _, _, _, _ => none
  | fuel + 1, sk, s, n, total =>
    match sk[s]? with
    | none => none
    | some st =>
      if st.is_end then some (total, sk)
      else if st.visited < 2 then
        (gen_size_loop (gen_size fuel) n total st.go (visit_inc sk s) 0).map
          (fun r => (r.1, visit_dec r.2 s))
      else some (0, sk)

/-- Skeleton state of a DFA state that goes to `next` on the character `c` and
to the null state on every other character: spans `[0, c)`, `[c, c + 1)` and
`[c + 1, 256)`. -/
def char_state (next null c : Nat) : SkeletonState :=
  ⟨[(next, [c]), (null, [0, c - 1, c + 1, 255])], RULE_NONE, 0, none, INVALID_PATH_LEN⟩

/-- Skeleton state of a DFA state that goes to `next` on every character: the
single span `[0, 256)`. -/
def any_state (next : Nat) : SkeletonState :=
  ⟨[(next, [0, 255])], RULE_NONE, 0, none, INVALID_PATH_LEN⟩

/-- The final state as `SkeletonState::init` leaves it for the null state. -/
def final_state : SkeletonState := ⟨[], RULE_NONE, 0, some ⟨[], 0, RULE_NONE⟩, 0⟩

/-- An accepting DFA state whose single span leads to the null state: final,
with the accept code 0 as its rule. -/
def accept_state : SkeletonState := ⟨[], 0, 0, some ⟨[], 0, 0⟩, 0⟩

/-- Skeleton of the DFA of the rule `"abc" [^]{29}`: the characters `a`, `b`,
`c`, then 29 arbitrary characters, then the accepting state (state 32); the
last node (state 33) stands for the null state. -/
def skAbcAny : List SkeletonState :=
  [char_state 1 33 97, char_state 2 33 98, char_state 3 33 99]
    ++ (List.range 29).map (fun i => any_state (i + 4)) ++ [accept_state, final_state]

/-- The seed of `generate_paths`: `Path (std::vector<uint32_t> (), 0, ~0)`. -/
def empty_path : Path := ⟨[], 0, RULE_NONE⟩

/-- Every successor named in a `go` map is a state of the skeleton. -/
def SkClosed (sk : List SkeletonState) : Prop :=
  ∀ st ∈ sk, ∀ e ∈ st.go, e.1 < sk.length

instance (sk : List SkeletonState) : Decidable (SkClosed sk) := by
  unfold SkClosed; infer_instance

/-- Number of entries the `visited` counters still admit: `2 - visited` summed
over the skeleton. -/
def visit_slack : List SkeletonState → Nat
  | [] => 0
  | st :: rest => (2 - st.visited) + visit_slack rest

/-- What a traversal may change in one skeleton state: nothing but a
`path_len` that was still invalid. -/
def Frame (a b : SkeletonState) : Prop :=
  b.go = a.go ∧ b.rule = a.rule ∧ b.visited = a.visited ∧ b.path = a.path ∧
    (a.path_len ≠ INVALID_PATH_LEN → b.path_len = a.path_len)

/-- The relation `Frame` without the `visited` counter. -/
def FrameG (a b : SkeletonState) : Prop :=
  b.go = a.go ∧ (a.path_len ≠ INVALID_PATH_LEN → b.path_len = a.path_len)

/-- Preconditions under which the cover estimator is shown to return: the
skeleton is closed, a state has at most `G` edges, an edge carries between 1
and `A` characters, and a state without edges has a valid `path_len` (as
`SkeletonState::init` leaves it). -/
def CoverWF (A G : Nat) (sk : List SkeletonState) : Prop :=
  SkClosed sk ∧
  (∀ st ∈ sk, st.go.length ≤ G ∧ ∀ e ∈ st.go, 1 ≤ e.2.length ∧ e.2.length ≤ A) ∧
  (∀ st ∈ sk, st.path_len = INVALID_PATH_LEN → st.go ≠ [])

instance (A G : Nat) (sk : List SkeletonState) : Decidable (CoverWF A G sk) := by
  unfold CoverWF; infer_instance

/-- Skeleton of scenario S4: the DFA has one accepting state (accept code 0) with a
self-loop on the character `a` (97); the spans `[0, 97)` and `[98, 256)` lead to the null
state, which is the last node.  The `go` map is listed in the order of its keys. -/
def skLoop : List SkeletonState :=
  [⟨[(0, [97]), (1, [0, 96, 98, 255])], 0, 0, none, INVALID_PATH_LEN⟩, final_state]

/-- The NFA of scenario S6: a bottom tag 0, then a cursor tag 0, then the final
state. -/
def nfaS6 : List nfa_state_t :=
  [⟨nfa_kind.TAG 1 0 true, 0, 0⟩, ⟨nfa_kind.TAG 2 0 false, 0, 0⟩, ⟨nfa_kind.FIN, 0, 0⟩]

/-- Ghost record of a run of `closure_one`, which the source does not keep: `active` lists
the states whose activation is on the recursion path (innermost first), `peak` is the
greatest number of activations of one state that were on the path together, and `cands`
lists the candidates: every value of `c0` that reached the kernel-state branch, in the
order of discovery. -/
structure ghost_t where
  active : List Nat
  peak : Nat
  cands : List clos_t
deriving DecidableEq, Repr

/-- The function `closure_one` run together with the ghost record: the record is extended
when a state is entered (after `++n->loop`), when a candidate reaches the kernel-state
branch, and when the state is left (after `--n->loop`).  The closure state is computed as
in `closure_one` and never reads the record. -/
def closure_one_ghost (CURSOR BOTTOM : Int) :
    Nat → ghost_t → closure_st → Nat → Option (closure_st × ghost_t)
  | 0, _, _, _ => none
  | fuel + 1, g, st, n =>
    match st.nfa[n]? with
    | none => none
    | some s =>
      if s.loop > 1 then some (st, g)
      else
        let st1 := { st with nfa := loop_inc st.nfa n }
        let g1 : ghost_t :=
          { g with active := n :: g.active, peak := max g.peak ((n :: g.active).count n) }
        let r : Option (closure_st × ghost_t) :=
          match s.type with
          | nfa_kind.NIL out => closure_one_ghost CURSOR BOTTOM fuel g1 st1 out
          | nfa_kind.ALT out1 out2 =>
            (closure_one_ghost CURSOR BOTTOM fuel g1 st1 out1).bind
              (fun r2 => closure_one_ghost CURSOR BOTTOM fuel r2.2 r2.1 out2)
          | nfa_kind.TAG out t bottom =>
            let old := tagAt st1.tags t
            let st2 := { st1 with tags := st1.tags.set t (if bottom then BOTTOM else CURSOR) }
            (closure_one_ghost CURSOR BOTTOM fuel g1 st2 out).map
              (fun r3 => ({ r3.1 with tags := r3.1.tags.set t old }, r3.2))
          | _ =>
            let ins := st1.tagpool.insert st1.tags
            let c0 := { st1.c0 with state := n, tlook := ins.2 }
            some ({ st1 with tagpool := ins.1, c0 := c0, clos := closure_put ins.1 c0 st1.clos },
              { g1 with cands := g1.cands ++ [c0] })
        r.map (fun r4 =>
          ({ r4.1 with nfa := loop_dec r4.1.nfa n }, { r4.2 with active := r4.2.active.tail }))

/-- The expansion loop of `closure` run together with the ghost record. -/
def closure_expand_ghost (CURSOR BOTTOM : Int) (fuel : Nat) :
    List clos_t → ghost_t → closure_st → Option ((List clos_t × closure_st) × ghost_t)
  | [], g, st => some (([], st), g)
  | c :: cs, g, st =>
    match closure_one_ghost CURSOR BOTTOM fuel g { st with c0 := c } c.state with
    | none => none
    | some r1 =>
      match closure_expand_ghost CURSOR BOTTOM fuel cs r1.2 r1.1 with
      | none => none
      | some r => some ((r1.1.c0 :: r.1.1, r.1.2), r.2)

/-- The counters of the arena agree with the recursion path: the `loop` counter of every
state is the number of its activations on the path. -/
def LoopInv (nfa : List nfa_state_t) (active : List Nat) : Prop :=
  ∀ m s, nfa[m]? = some s → s.loop = active.count m

/-- The three handles of an item are handles of the pool. -/
def HandleOK (tagpool : Tagpool) (c : clos_t) : Prop :=
  c.tlook < tagpool.vecs.length ∧ c.ttran < tagpool.vecs.length ∧
    c.tvers < tagpool.vecs.length

instance (tagpool : Tagpool) (c : clos_t) : Decidable (HandleOK tagpool c) := by
  unfold HandleOK; infer_instance

/-- Invariant of the expansion loop of `closure` over the output closure `clos` and the
candidates seen so far: the items have pairwise different states, every item is one of
the candidates, every candidate has an item on its state, every candidate resolves in
the pool, and no candidate is better than the item on its state. -/
def CandInv (tagpool : Tagpool) (clos cands : List clos_t) : Prop :=
  (states_of clos).Nodup ∧
  (∀ c ∈ clos, c ∈ cands) ∧
  (∀ c' ∈ cands, c'.state ∈ states_of clos) ∧
  (∀ c' ∈ cands, HandleOK tagpool c') ∧
  (∀ c ∈ clos, ∀ c' ∈ cands, c'.state = c.state → is_better c c' tagpool = false)

/-- Two items carry the same tag vectors: their `tlook`, `ttran` and `tvers` vectors agree
on every tag. -/
def SameVectors (tagpool : Tagpool) (c c' : clos_t) : Prop :=
  ∀ t, t < tagpool.ntags →
    tagAt (tagpool.lookup c.tlook) t = tagAt (tagpool.lookup c'.tlook) t ∧
    tagAt (tagpool.lookup c.ttran) t = tagAt (tagpool.lookup c'.ttran) t ∧
    tagAt (tagpool.lookup c.tvers) t = tagAt (tagpool.lookup c'.tvers) t

instance (tagpool : Tagpool) (c c' : clos_t) : Decidable (SameVectors tagpool c c') := by
  unfold SameVectors; infer_instance

/-- An NFA in which the final state 3 is reached twice from state 0: through the cursor
tag 0 (state 1) and without a tag (state 2). -/
def nfaTwoPaths : List nfa_state_t :=
  [⟨nfa_kind.ALT 1 2, 0, 0⟩, ⟨nfa_kind.TAG 3 0 false, 0, 0⟩, ⟨nfa_kind.NIL 3, 0, 0⟩,
   ⟨nfa_kind.FIN, 0, 0⟩]

/-- The NFA `nfaTwoPaths` with the alternatives swapped: the untagged path comes first. -/
def nfaTwoPathsSwapped : List nfa_state_t :=
  [⟨nfa_kind.ALT 2 1, 0, 0⟩, ⟨nfa_kind.TAG 3 0 false, 0, 0⟩, ⟨nfa_kind.NIL 3, 0, 0⟩,
   ⟨nfa_kind.FIN, 0, 0⟩]

/-! ## Skeleton construction -/

/-- Modelled from the spec: a character span of a DFA state (declared in the DFA header):
the exclusive upper bound `ub` and the successor `to` (written `to_state`, as `to` is
reserved), which is `none` for the null pointer and otherwise the position of the
successor in the list of DFA states. -/
structure Span where
  ub : Nat
  to_state : Option Nat
deriving DecidableEq, Repr

/-- Modelled from the spec: the part of a DFA state (declared in the DFA header) that the
skeleton reads: the spans `go.span[0 .. go.nSpans)` and the rule, `none` for a null
`rule` pointer and otherwise the accept code `rule->accept`. -/
structure State where
  span : List Span
  rule : Option Nat
deriving DecidableEq, Repr

/-- Modelled from the spec: a default-constructed `SkeletonState` (the constructor is in
the skeleton header): no edges, no rule, not visited, no cached path, invalid
`path_len`. -/
def default_state : SkeletonState := ⟨[], RULE_NONE, 0, none, INVALID_PATH_LEN⟩

/-- Modelled from the spec: `go[p]` on the `std::map` keyed by successor: the vector stored
under `p`, empty when `p` is not a key. -/
def go_find : List (Nat × List Nat) → Nat → List Nat
  | [], _ => []
  | (q, cs) :: rest, p => if q = p then cs else go_find rest p

/-- Modelled from the spec: `go[p].push_back (c)` on the `std::map`, which is kept in the
order of its keys: the character is appended to the vector of `p`, and a new entry is
made at the place of `p` in the key order when there is none. -/
def go_push : List (Nat × List Nat) → Nat → Nat → List (Nat × List Nat)
  | [], p, c => [(p, [c])]
  | (q, cs) :: rest, p, c =>
    if q = p then (q, cs ++ [c]) :: rest
    else if p < q then (p, [c]) :: (q, cs) :: rest
    else (q, cs) :: go_push rest p c

/-- The span loop of `SkeletonState::init`: `lb` is the lower bound carried from span to
span, `m` the map from DFA states to skeleton nodes; `ub - 1` is `uint32_t`
arithmetic. -/
def init_spans (m : Option Nat → Nat) : List Span → Nat → List (Nat × List Nat) →
    List (Nat × List Nat)
  | [], _, go => go
  | sp :: rest, lb, go =>
    let p := m sp.to_state
    let go1 := go_push go p lb
    let go2 := if lb ≠ (sp.ub + 2 ^ 32 - 1) % 2 ^ 32
      then go_push go1 p ((sp.ub + 2 ^ 32 - 1) % 2 ^ 32) else go1
    init_spans m rest sp.ub go2

/-- Source function `SkeletonState::init (s, m)` on the node `self`; `s` is `none` for the null
state. -/
def SkeletonState.init (self : SkeletonState) (s : Option State) (m : Option Nat → Nat) :
    SkeletonState :=
  match s with
  | none => { self with path := some ⟨[], 0, self.rule⟩, path_len := 0 }
  | some st =>
    let is_final : Bool :=
      decide (st.span.length = 1) && decide ((st.span.map Span.to_state)[0]? = some none)
    let self1 : SkeletonState :=
      match st.rule with
      | some accept => { self with rule := accept }
      | none => self
    if is_final then { self1 with path := some ⟨[], 0, self1.rule⟩, path_len := 0 }
    else { self1 with go := init_spans m st.span 0 self1.go }

/-- Constructor `Skeleton::Skeleton (dfa)`: one node per DFA state in list order and a last
node for the null state; the map `m` sends a DFA state to its node and the null pointer
to the last node. -/
def Skeleton (dfa : List State) : List SkeletonState :=
  let m : Option Nat → Nat := fun t =>
    match t with
    | none => dfa.length
    | some i => i
  dfa.map (fun s => default_state.init (some s) m) ++ [default_state.init none m]

/-- Characters one round of the span loop pushes for the span `[lb, ub)`. -/
def span_chars (lb ub : Nat) : List Nat :=
  if lb ≠ (ub + 2 ^ 32 - 1) % 2 ^ 32 then [lb, (ub + 2 ^ 32 - 1) % 2 ^ 32] else [lb]

/-- The spans of a state, each with its lower bound: `lb_0 = lb` and
`lb_j = ub_(j-1)`. -/
def with_lb : Nat → List Span → List (Nat × Span)
  | _, [] => []
  | lb, sp :: rest => (lb, sp) :: with_lb sp.ub rest

/-- A DFA state for the S4 scenario: it loops on `a` and goes to the null state on every
other character; accept code 0. -/
def dfaLoop : List State := [⟨[⟨97, none⟩, ⟨98, some 0⟩, ⟨256, none⟩], some 0⟩]

/-! ## Path lengths of the cover estimator -/

/-- The field `path_len` holds a length and not the sentinel. -/
def valid_len (st : SkeletonState) : Bool := decide (st.path_len ≠ INVALID_PATH_LEN)

/-- The freshly constructed skeleton, as far as the cover estimator reads it: `path_len`
is 0 on the final states (the states without edges) and `INVALID_PATH_LEN` on the
others. -/
def Fresh (sk : List SkeletonState) : Prop :=
  ∀ st ∈ sk, (st.go = [] → st.path_len = 0) ∧ (st.go ≠ [] → st.path_len = INVALID_PATH_LEN)

instance (sk : List SkeletonState) : Decidable (Fresh sk) := by
  unfold Fresh; infer_instance

/-- There is a path of exactly `n` edges from state `s` to a final state. -/
def reach_final (sk : List SkeletonState) : Nat → Nat → Bool
  | 0, s =>
    match sk[s]? with
    | some st => st.go.isEmpty
    | none => false
  | n + 1, s =>
    match sk[s]? with
    | some st => st.go.any (fun e => reach_final sk n e.1)
    | none => false

/-- Invariant of the `path_len` fields under the cover estimator: a valid `path_len` is 0
on a final state and is otherwise one more than the valid `path_len` of a successor; and
it is smaller than the number of states whose `path_len` is valid. -/
def PathLenInv (sk : List SkeletonState) : Prop :=
  (∀ (s : Nat) (st : SkeletonState), sk[s]? = some st → st.path_len ≠ INVALID_PATH_LEN →
    (st.go = [] ∧ st.path_len = 0) ∨
    (∃ e ∈ st.go, ∃ pt, sk[e.1]? = some pt ∧ pt.path_len ≠ INVALID_PATH_LEN ∧
      st.path_len = pt.path_len + 1)) ∧
  (∀ st ∈ sk, st.path_len ≠ INVALID_PATH_LEN → st.path_len < sk.countP valid_len)

/-- Skeleton of the DFA of the rule `"ab"`: state 0 goes to state 1 on `a`, state 1 to the
accepting state 2 on `b`, every other character leads to the null state 3. -/
def skAb : List SkeletonState :=
  [char_state 1 3 97, char_state 2 3 98, accept_state, final_state]

/-! ## Cover-mode path generation -/

/-- Modelled from the spec: `Path::append (p)` (declared in the skeleton header) appends
the characters of the suffix `p`.  The spec does not say how the match end and the rule
are combined; here those of the suffix are taken when it carries a rule.  The statements
below read the characters only. -/
def Path.append (p q : Path) : Path :=
  { chars := p.chars ++ q.chars,
    length := if q.rule ≠ RULE_NONE then p.chars.length + q.length else p.length,
    rule := if q.rule ≠ RULE_NONE then q.rule else p.rule }

/-- The paths `zs` built for one edge of `generate_paths_cover`:
`zs[j] = prefixes[in % in_arrows]` extended by `i->second[j]`, with `in` advancing with
`j`.  `in` is the value of the `uint32_t` counter when the edge is reached; `none` stands
for the division `in % in_arrows` with `in_arrows = 0` and for a read outside the vector
of prefixes. -/
def cover_zs (rule : Nat) (prefixes : List Path) : List Nat → Nat → Option (List Path)
  | [], _ => some []
  | c :: cs, inn =>
    if prefixes.length % 2 ^ 32 = 0 then none
    else
      match prefixes[inn % (prefixes.length % 2 ^ 32)]? with
      | none => none
      | some p =>
        (cover_zs rule prefixes cs ((inn + 1) % 2 ^ 32)).map (fun zs => p.extend rule c :: zs)

/-- The statement after the recursive call in `generate_paths_cover`: when `s` has no
cached path and the successor `p` has one, `s->path` becomes the first character of the
edge followed by the successor's path.  `none` stands for a pointer outside the array or
the read `i->second[0]` on an edge without characters. -/
def set_path (sk : List SkeletonState) (s p : Nat) (chars : List Nat) :
    Option (List SkeletonState) :=
  match sk[s]?, sk[p]? with
  | some st, some pt =>
    match st.path, pt.path with
    | none, some pp =>
      match chars with
      | c :: _ => some (sk.set s { st with path := some ((⟨[c], 0, st.rule⟩ : Path).append pp) })
      | [] => none
    | _, _ => some sk
  | _, _ => none

/-- Modelled from the spec: the loop of `generate_paths_cover` over
`SkeletonState::wrap_iter i (s->go)` with condition `!i.end () || in < in_arrows`; the
iterator is the one of `cover_loop`.  `idx` is the position in `go`, `wrapped` the value
of `end()`, `inn` the `uint32_t` counter `in`.  The first argument bounds the number of
rounds. -/
def gen_cover_loop
    (call : List SkeletonState → Nat → List Path → List Path →
      Option (List Path × List SkeletonState))
    (go : List (Nat × List Nat)) (s rule : Nat) (prefixes : List Path) :
    Nat → Nat → Bool → Nat → List SkeletonState → List Path →
      Option (List Path × List SkeletonState)
  | 0, _, _, _, _, _ => none
  | rounds + 1, idx, wrapped, inn, sk, results =>
    if wrapped ∧ ¬ inn < prefixes.length % 2 ^ 32 then some (results, sk)
    else
      match go[idx]? with
      | none => none
      | some e =>
        match cover_zs rule prefixes e.2 inn with
        | none => none
        | some zs =>
          match call sk e.1 zs results with
          | none => none
          | some r =>
            match set_path r.2 s e.1 e.2 with
            | none => none
            | some sk1 =>
              if idx + 1 = go.length then
                gen_cover_loop call go s rule prefixes rounds 0 true
                  ((inn + e.2.length) % 2 ^ 32) sk1 r.1
              else
                gen_cover_loop call go s rule prefixes rounds (idx + 1) wrapped
                  ((inn + e.2.length) % 2 ^ 32) sk1 r.1

/-- Source function `generate_paths_cover(s, prefixes, results)`; returns `results` and the
skeleton.  The first argument bounds the recursion depth and the number of rounds of each
edge loop. -/
def generate_paths_cover :
    Nat → List SkeletonState → Nat → List Path → List Path →
      Option (List Path × List SkeletonState)
  | 0, _, _, _, _ => none
  | fuel + 1, sk, s, prefixes, results =>
    match sk[s]? with
    | none => none
    | some st =>
      match st.path with
      | some pp => some (results ++ prefixes.map (fun p => p.append pp), sk)
      | none =>
        if st.visited < 2 then
          (gen_cover_loop (generate_paths_cover fuel) st.go s st.rule prefixes fuel 0 false 0
              (visit_inc sk s) results).map
            (fun r => (r.1, visit_dec r.2 s))
        else some (results, sk)

/-- What `Skeleton::generate_paths` leaves behind: the paths, the skeleton, and whether the
line "generating too much data" was written to the error stream. -/
structure paths_result where
  results : List Path
  states : List SkeletonState
  warned : Bool
deriving DecidableEq, Repr

/-- Source function `Skeleton::generate_paths(results)`; the root `states` is node 0. -/
def generate_paths (fuel : Nat) (sk : List SkeletonState) (results : List Path) :
    Option paths_result :=
  let prefixes := [empty_path]
  match estimate_size_all fuel sk 0 1 0 with
  | none => none
  | some r1 =>
    if r1.1 = MAX_SIZE then
      match estimate_size_cover fuel r1.2 0 1 0 with
      | none => none
      | some r2 =>
        (generate_paths_cover fuel r2.2 0 prefixes results).map
          (fun r => ⟨r.1, r.2, decide (r2.1 = MAX_SIZE)⟩)
    else
      (generate_paths_all fuel r1.2 0 prefixes results).map (fun r => ⟨r.1, r.2, false⟩)

/-- Skeleton of the DFA of the rule `[^\xff]* "\xff"`: state 0 loops on the span
`[0, 255)` and goes to the accepting state 1 on `0xff`; state 2 is the null state. -/
def skStar : List SkeletonState :=
  [⟨[(0, [0, 254]), (1, [255])], RULE_NONE, 0, none, INVALID_PATH_LEN⟩, accept_state,
   final_state]

/-- The skeleton with every `path_len` overwritten by 0: what is left of it for a function
that does not read `path_len`. -/
def erase_len (sk : List SkeletonState) : List SkeletonState :=
  sk.map (fun st => { st with path_len := 0 })

/-- A chain of 30 states that each go to the next one on every character, followed by the
accepting state and the null state: `2^30` paths lead to the accepting state. -/
def skWide : List SkeletonState :=
  (List.range 30).map (fun i => any_state (i + 1)) ++ [accept_state, final_state]

/-! ## Walks in the skeleton and edge coverage -/

/-- The characters `w` spell a walk from state `s` to state `t`: each character is one of
the characters of an edge from the state reached so far. -/
def walk (sk : List SkeletonState) : List Nat → Nat → Nat → Bool
  | [], s, t => decide (s = t)
  | a :: w, s, t =>
    match sk[s]? with
    | none => false
    | some st => st.go.any (fun e => e.2.contains a && walk sk w e.1 t)

/-- State `t` is a final state of the skeleton: it has no edges. -/
def is_final_at (sk : List SkeletonState) (t : Nat) : Bool :=
  match sk[t]? with
  | some st => st.go.isEmpty
  | none => false

/-- The characters `chars` of an emitted path spell a walk from `root` to a final state that
takes the edge from `s` to `p` on the character `a`. -/
def takes_edge (sk : List SkeletonState) (root : Nat) (chars : List Nat) (s a p : Nat) :
    Prop :=
  ∃ w1 w2 f, chars = w1 ++ a :: w2 ∧ walk sk w1 root s = true ∧ walk sk [a] s p = true ∧
    walk sk w2 p f = true ∧ is_final_at sk f = true

/-- The skeleton has no cycle: `rank` decreases along every edge. -/
def Ranked (rank : Nat → Nat) (sk : List SkeletonState) : Prop :=
  ∀ s, s < sk.length → ∀ e ∈ (sk.getD s default_state).go, rank e.1 < rank s

instance (rank : Nat → Nat) (sk : List SkeletonState) : Decidable (Ranked rank sk) := by
  unfold Ranked; infer_instance

/-- Shape of the `go` maps: successors are states of the skeleton, a state has at most `G`
edges and an edge carries between 1 and `A` characters. -/
def EdgeWF (A G : Nat) (sk : List SkeletonState) : Prop :=
  SkClosed sk ∧ ∀ st ∈ sk, st.go.length ≤ G ∧ ∀ e ∈ st.go, 1 ≤ e.2.length ∧ e.2.length ≤ A

instance (A G : Nat) (sk : List SkeletonState) : Decidable (EdgeWF A G sk) := by
  unfold EdgeWF; infer_instance

/-- The skeleton as the constructor leaves it for path generation: all `visited` counters
are 0 and exactly the final states carry a cached path, which has no characters. -/
def GenFresh (sk : List SkeletonState) : Prop :=
  ∀ st ∈ sk, st.visited = 0 ∧ (st.go = [] → st.path.map (fun pp => pp.chars) = some []) ∧
    (st.go ≠ [] → st.path = none)

instance (sk : List SkeletonState) : Decidable (GenFresh sk) := by
  unfold GenFresh; infer_instance

/-- What cover-mode generation may change in one skeleton state: nothing but a cached path
that was still missing. -/
def PathFrame (a b : SkeletonState) : Prop :=
  b.go = a.go ∧ b.rule = a.rule ∧ b.visited = a.visited ∧ b.path_len = a.path_len ∧
    (a.path ≠ none → b.path = a.path)

/-- The skeleton `sk` has the `go` maps of `sk0`. -/
def GoEq (sk0 sk : List SkeletonState) : Prop :=
  ∀ t : Nat, (sk[t]?).map (fun st => st.go) = (sk0[t]?).map (fun st => st.go)

/-- Invariant of the cached paths: a state without a cached path has an edge, and a cached
path spells a walk from its state to a final state. -/
def PathsOK (sk0 sk : List SkeletonState) : Prop :=
  ∀ (t : Nat) (st : SkeletonState), sk[t]? = some st →
    (st.path = none → st.go ≠ []) ∧
    (∀ pp, st.path = some pp →
      ∃ f, walk sk0 pp.chars t f = true ∧ is_final_at sk0 f = true)

/-- Invariant of the emitted paths: for every state that has a cached path and is not being
traversed, every successor has a cached path and every character of every edge is taken
by an emitted path. -/
def Covered (sk0 : List SkeletonState) (root : Nat) (sk : List SkeletonState)
    (results : List Path) : Prop :=
  ∀ (t : Nat) (st : SkeletonState), sk[t]? = some st → st.path ≠ none → st.visited = 0 →
    ∀ e ∈ st.go, (∃ pt, sk[e.1]? = some pt ∧ pt.path ≠ none) ∧
      ∀ a ∈ e.2, ∃ π ∈ results, takes_edge sk0 root π.chars t a e.1

/-- The prefix `q` handed to state `s` is continued by an emitted path to a final
state. -/
def Continued (sk0 : List SkeletonState) (s : Nat) (results : List Path) (q : Path) : Prop :=
  ∃ π ∈ results, ∃ w f, π.chars = q.chars ++ w ∧ walk sk0 w s f = true ∧
    is_final_at sk0 f = true

/-- Precondition of a call `generate_paths_cover(s, prefixes, results)` in a skeleton
without cycles: the invariants hold, no state of rank at most that of `s` is being
traversed, and every prefix spells a walk from the root to `s`. -/
def CoverPre (sk0 : List SkeletonState) (root : Nat) (rank : Nat → Nat) (A : Nat)
    (s : Nat) (prefixes : List Path) (sk : List SkeletonState) (results : List Path) : Prop :=
  GoEq sk0 sk ∧ PathsOK sk0 sk ∧ Covered sk0 root sk results ∧
  (∀ (t : Nat) (st : SkeletonState), sk[t]? = some st → rank t ≤ rank s → st.visited = 0) ∧
  s < sk0.length ∧ prefixes ≠ [] ∧ prefixes.length ≤ A ∧
  (∀ q ∈ prefixes, walk sk0 q.chars root s = true)

/-- Postcondition of the call: only cached paths were added, the invariants hold, nothing
emitted before is lost, `s` has a cached path, and every prefix is continued by an
emitted path. -/
def CoverPost (sk0 : List SkeletonState) (root : Nat) (s : Nat) (prefixes : List Path)
    (sk : List SkeletonState) (results : List Path)
    (r : List Path × List SkeletonState) : Prop :=
  List.Forall₂ PathFrame sk r.2 ∧ PathsOK sk0 r.2 ∧ Covered sk0 root r.2 r.1 ∧
  (∀ π ∈ results, π ∈ r.1) ∧ (∃ st, r.2[s]? = some st ∧ st.path ≠ none) ∧
  (∀ q ∈ prefixes, Continued sk0 s r.1 q)

/-- Invariant of the edge loop of `generate_paths_cover` on state `s`: the edges before
`idx` (all edges once the iterator has wrapped) are done, which means that their
successors have cached paths and their characters are taken by emitted paths; the
prefixes at the positions below `inn` (modulo their number) are continued. -/
def CoverLoopInv (sk0 : List SkeletonState) (root : Nat) (rank : Nat → Nat) (A : Nat)
    (go : List (Nat × List Nat)) (s : Nat) (prefixes : List Path)
    (idx : Nat) (wrapped : Bool) (inn : Nat) (sk : List SkeletonState)
    (results : List Path) : Prop :=
  GoEq sk0 sk ∧ PathsOK sk0 sk ∧ Covered sk0 root sk results ∧
  (∀ (t : Nat) (st : SkeletonState), sk[t]? = some st → rank t < rank s → st.visited = 0) ∧
  (∃ st, sk[s]? = some st ∧ st.visited ≠ 0 ∧
    ((idx ≠ 0 ∨ wrapped = true) → st.path ≠ none)) ∧
  (∀ (j : Nat) (e : Nat × List Nat), go[j]? = some e → (wrapped = true ∨ j < idx) →
    (∃ pt, sk[e.1]? = some pt ∧ pt.path ≠ none) ∧
    ∀ a ∈ e.2, ∃ π ∈ results, takes_edge sk0 root π.chars s a e.1) ∧
  (∀ i, i < inn → ∃ q, prefixes[i % prefixes.length]? = some q ∧ Continued sk0 s results q) ∧
  idx < go.length ∧ (wrapped = false → inn ≤ idx * A)

/-! ## A loop with a two-edge cycle behind a wide chain -/

/-- DFA of the rule `[^]{n} ("a" | "bc")* "d"` over 8-bit characters: `n` states that go
to the next state on every character; state `n`, which loops on `a`, goes to state
`n + 1` on `b` and to the accepting state `n + 2` on `d`; state `n + 1`, which goes back
to state `n` on `c`; the accepting state `n + 2`.  Every other character leads to the
null state. -/
def dfaBack (n : Nat) : List State :=
  (List.range n).map (fun i => (⟨[⟨256, some (i + 1)⟩], none⟩ : State)) ++
    [⟨[⟨97, none⟩, ⟨98, some n⟩, ⟨99, some (n + 1)⟩, ⟨100, none⟩, ⟨101, some (n + 2)⟩,
        ⟨256, none⟩], none⟩,
     ⟨[⟨99, none⟩, ⟨100, some n⟩, ⟨256, none⟩], none⟩,
     ⟨[⟨256, none⟩], some 0⟩]

/-- The character strings cover mode emits on the skeleton of `dfaBack n`, in the order of
emission: `n` times 0 or `n` times 255 through the chain, then the characters taken from
state `n` on. -/
def coverBack (n : Nat) : List (List Nat) :=
  [List.replicate n 0 ++ [97, 98, 0], List.replicate n 0 ++ [97, 98, 98],
   List.replicate n 0 ++ [97, 98, 100], List.replicate n 0 ++ [97, 98, 255],
   List.replicate n 0 ++ [97, 100], List.replicate n 0 ++ [97, 0],
   List.replicate n 0 ++ [97, 96], List.replicate n 0 ++ [97, 99],
   List.replicate n 0 ++ [97, 101], List.replicate n 0 ++ [97, 255],
   List.replicate n 255 ++ [98, 0], List.replicate n 0 ++ [100],
   List.replicate n 255 ++ [0], List.replicate n 0 ++ [96],
   List.replicate n 255 ++ [99], List.replicate n 0 ++ [101],
   List.replicate n 255 ++ [255]]

/-- The relation `takes_edge` with the place `i` of the edge character in the path and the
final state `f` bounded, so that it can be decided. -/
def takes_edge_at (sk : List SkeletonState) (root : Nat) (chars : List Nat) (s a p : Nat) :
    Prop :=
  ∃ i, i < chars.length ∧ ∃ f, f < sk.length ∧ chars[i]? = some a ∧
    walk sk (chars.take i) root s = true ∧ walk sk [a] s p = true ∧
    walk sk (chars.drop (i + 1)) p f = true ∧ is_final_at sk f = true

instance (sk : List SkeletonState) (root : Nat) (chars : List Nat) (s a p : Nat) :
    Decidable (takes_edge_at sk root chars s a p) := by
  unfold takes_edge_at; infer_instance
/-! ## Theorems -/

theorem LexLt.irrefl_of_eq {f g : Nat → Int} {m : Nat} (h : ∀ j, j < m → f j = g j) :
    ¬ LexLt f g m := by
  rintro ⟨k, hk, -, hlt⟩
  have := h k hk
  omega

theorem LexLt.trans {f g h : Nat → Int} {m : Nat} (h1 : LexLt f g m) (h2 : LexLt g h m) :
    LexLt f h m := by
  obtain ⟨k1, hk1, e1, l1⟩ := h1
  obtain ⟨k2, hk2, e2, l2⟩ := h2
  rcases Nat.lt_trichotomy k1 k2 with hlt | heq | hgt
  · exact ⟨k1, hk1, fun j hj => (e1 j hj).trans (e2 j (by omega)), by
      have := e2 k1 hlt; omega⟩
  · subst heq
    exact ⟨k1, hk1, fun j hj => (e1 j hj).trans (e2 j hj), by omega⟩
  · exact ⟨k2, hk2, fun j hj => (e1 j (by omega)).trans (e2 j hj), by
      have := e1 k2 hgt; omega⟩

theorem LexLt.asymm {f g : Nat → Int} {m : Nat} (h1 : LexLt f g m) (h2 : LexLt g f m) :
    False := by
  have := LexLt.trans h1 h2
  exact LexLt.irrefl_of_eq (fun _ _ => rfl) this

theorem LexLt.succ_iff (f g : Nat → Int) (m : Nat) :
    LexLt f g (m + 1) ↔
      f 0 < g 0 ∨ (f 0 = g 0 ∧ LexLt (fun j => f (j + 1)) (fun j => g (j + 1)) m) := by
  constructor
  · rintro ⟨k, hk, e, l⟩
    cases k with
    | zero => exact Or.inl l
    | succ k =>
      refine Or.inr ⟨e 0 (by omega), k, by omega, fun j hj => e (j + 1) (by omega), l⟩
  · rintro (h | ⟨h0, k, hk, e, l⟩)
    · exact ⟨0, by omega, fun j hj => by omega, h⟩
    · refine ⟨k + 1, by omega, fun j hj => ?_, l⟩
      cases j with
      | zero => exact h0
      | succ j => exact e j (by omega)

theorem scanRaw_shift (l t v : List Int) (n j : Nat) :
    scanRaw l t v (n + 1) (j + 3) = scanRaw l t v n j := by
  unfold scanRaw
  have h1 : (j + 3) % 3 = j % 3 := by omega
  have h2 : n + 1 - 1 - (j + 3) / 3 = n - 1 - j / 3 := by omega
  rw [h1, h2]

theorem is_better_loop_iff (l1 l2 t1 t2 v1 v2 : List Int) (n : Nat) :
    is_better_loop l1 l2 t1 t2 v1 v2 n = true ↔
      LexLt (scanRaw l1 t1 v1 n) (scanRaw l2 t2 v2 n) (3 * n) := by
  induction n with
  | zero =>
    simp only [is_better_loop, Nat.mul_zero]
    constructor
    · intro h; cases h
    · rintro ⟨k, hk, -⟩; omega
  | succ n ih =>
    have e3 : 3 * (n + 1) = 3 * n + 1 + 1 + 1 := by omega
    rw [e3, LexLt.succ_iff, LexLt.succ_iff, LexLt.succ_iff]
    have hsh : ∀ (l t v : List Int),
        (fun j => scanRaw l t v (n + 1) (j + 1 + 1 + 1)) = scanRaw l t v n := by
      intro l t v; funext j; exact scanRaw_shift l t v n j
    simp only [hsh, ← ih]
    have a0 : ∀ (l t v : List Int), scanRaw l t v (n + 1) 0 = tagAt l n := by
      intro l t v; simp [scanRaw]
    have a1 : ∀ (l t v : List Int), scanRaw l t v (n + 1) (0 + 1) = tagAt t n := by
      intro l t v; simp [scanRaw]
    have a2 : ∀ (l t v : List Int), scanRaw l t v (n + 1) (0 + 1 + 1) = tagAt v n := by
      intro l t v; simp [scanRaw]
    simp only [a0, a1, a2]
    rw [is_better_loop]
    by_cases c1 : tagAt l1 n > tagAt l2 n
    · rw [if_pos c1]
      constructor
      · intro h; cases h
      · rintro (h | ⟨h, -⟩) <;> omega
    rw [if_neg c1]
    by_cases c2 : tagAt l1 n < tagAt l2 n
    · rw [if_pos c2]; exact ⟨fun _ => Or.inl c2, fun _ => rfl⟩
    rw [if_neg c2]
    have e1 : tagAt l1 n = tagAt l2 n := by omega
    by_cases c3 : tagAt t1 n > tagAt t2 n
    · rw [if_pos c3]
      constructor
      · intro h; cases h
      · rintro (h | ⟨-, h | ⟨h, -⟩⟩) <;> omega
    rw [if_neg c3]
    by_cases c4 : tagAt t1 n < tagAt t2 n
    · rw [if_pos c4]; exact ⟨fun _ => Or.inr ⟨e1, Or.inl c4⟩, fun _ => rfl⟩
    rw [if_neg c4]
    have e2 : tagAt t1 n = tagAt t2 n := by omega
    by_cases c5 : tagAt v1 n > tagAt v2 n
    · rw [if_pos c5]
      constructor
      · intro h; cases h
      · rintro (h | ⟨-, h | ⟨-, h | ⟨h, -⟩⟩⟩) <;> omega
    rw [if_neg c5]
    by_cases c6 : tagAt v1 n < tagAt v2 n
    · rw [if_pos c6]; exact ⟨fun _ => Or.inr ⟨e1, Or.inr ⟨e2, Or.inl c6⟩⟩, fun _ => rfl⟩
    rw [if_neg c6]
    have e3 : tagAt v1 n = tagAt v2 n := by omega
    constructor
    · intro h; exact Or.inr ⟨e1, Or.inr ⟨e2, Or.inr ⟨e3, h⟩⟩⟩
    · rintro (h | ⟨-, h | ⟨-, h | ⟨-, h⟩⟩⟩)
      · omega
      · omega
      · omega
      · exact h

theorem scanValue_eq (tagpool : Tagpool) (c : clos_t) :
    scanValue tagpool c =
      scanRaw (tagpool.lookup c.tlook) (tagpool.lookup c.ttran) (tagpool.lookup c.tvers)
        tagpool.ntags := by
  funext j; simp [scanValue, scanRaw]

theorem is_better_iff_lex (c1 c2 : clos_t) (tagpool : Tagpool) :
    is_better c1 c2 tagpool = true ↔
      LexLt (scanValue tagpool c1) (scanValue tagpool c2) (3 * tagpool.ntags) := by
  unfold is_better
  by_cases h : c1.tlook = c2.tlook ∧ c1.ttran = c2.ttran ∧ c1.tvers = c2.tvers
  · rw [if_pos h]
    constructor
    · intro h'; cases h'
    · intro hl
      exfalso
      refine LexLt.irrefl_of_eq (fun j _ => ?_) hl
      obtain ⟨h1, h2, h3⟩ := h
      simp [scanValue, h1, h2, h3]
  · rw [if_neg h, is_better_loop_iff, scanValue_eq, scanValue_eq]

/-- C1 (amended): with the tags scanned from `ntags - 1` down to `0` and the fields in
the order `tlook`, `ttran`, `tvers`, `is_better c_existing c_new` is decided by the first
position where the two items differ: it is true exactly when the value of `c_existing`
there is strictly less than the value of `c_new` (so false when the value of `c_new` is
the smaller one), and it is false when no position differs. -/
theorem is_better_first_difference (tagpool : Tagpool) (c_existing c_new : clos_t)
    (_h1 : WellSized tagpool c_existing) (_h2 : WellSized tagpool c_new) :
    (∀ k, FirstDiff tagpool c_existing c_new k →
      (is_better c_existing c_new tagpool = true ↔
        scanValue tagpool c_existing k < scanValue tagpool c_new k)) ∧
    ((¬ ∃ k, FirstDiff tagpool c_existing c_new k) →
      is_better c_existing c_new tagpool = false) := by
  constructor
  · rintro k ⟨hk, heq, hne⟩
    rw [is_better_iff_lex]
    constructor
    · rintro ⟨k', hk', heq', hlt'⟩
      rcases Nat.lt_trichotomy k' k with h | h | h
      · have := heq k' h; omega
      · subst h; exact hlt'
      · exact absurd (heq' k h) hne
    · intro hlt
      exact ⟨k, hk, heq, hlt⟩
  · intro hno
    cases hb : is_better c_existing c_new tagpool with
    | false => rfl
    | true =>
      exfalso
      obtain ⟨k, hk, heq, hlt⟩ := (is_better_iff_lex _ _ _).1 hb
      exact hno ⟨k, hk, heq, by omega⟩

/-- C1 (amended) at a concrete pair of items. -/
theorem is_better_first_difference_witness :
    WellSized pool012 itemLow ∧ WellSized pool012 itemHigh ∧ FirstDiff pool012 itemLow itemHigh 0 ∧
      is_better itemLow itemHigh pool012 = true := by
  refine ⟨by decide, by decide, by decide, ?_⟩
  exact ((is_better_first_difference pool012 itemLow itemHigh (by decide) (by decide)).1 0
    (by decide)).2 (by decide)

/-- C1 as stated fails: the items first differ at scan position 0, where `c_new`
holds 2 and `c_existing` holds 0, and `is_better` returns true although the value of
`c_new` is not the smaller one. -/
theorem is_better_new_smaller_counterexample :
    WellSized pool012 itemLow ∧ WellSized pool012 itemHigh ∧
    FirstDiff pool012 itemLow itemHigh 0 ∧
      ¬ (is_better itemLow itemHigh pool012 = true ↔
          scanValue pool012 itemHigh 0 < scanValue pool012 itemLow 0) := by
  decide

/-- C2: over a fixed tag pool `is_better` is transitive and asymmetric, it is false on
equal items, and when the three handles agree (the shortcut) the tag-by-tag loop would
return false as well. -/
theorem is_better_strict_order (tagpool : Tagpool) (a b c : clos_t) :
    (is_better a b tagpool = true → is_better b c tagpool = true →
        is_better a c tagpool = true) ∧
    ¬ (is_better a b tagpool = true ∧ is_better b a tagpool = true) ∧
    is_better a a tagpool = false ∧
    ((a.tlook = b.tlook ∧ a.ttran = b.ttran ∧ a.tvers = b.tvers) →
      is_better_loop (tagpool.lookup a.tlook) (tagpool.lookup b.tlook)
        (tagpool.lookup a.ttran) (tagpool.lookup b.ttran)
        (tagpool.lookup a.tvers) (tagpool.lookup b.tvers) tagpool.ntags = false) := by
  refine ⟨?_, ?_, ?_, ?_⟩
  · intro h1 h2
    rw [is_better_iff_lex] at *
    exact LexLt.trans h1 h2
  · rintro ⟨h1, h2⟩
    rw [is_better_iff_lex] at *
    exact LexLt.asymm h1 h2
  · simp [is_better]
  · rintro ⟨h1, h2, h3⟩
    rw [h1, h2, h3]
    cases hb : is_better_loop (tagpool.lookup b.tlook) (tagpool.lookup b.tlook)
        (tagpool.lookup b.ttran) (tagpool.lookup b.ttran)
        (tagpool.lookup b.tvers) (tagpool.lookup b.tvers) tagpool.ntags with
    | false => rfl
    | true =>
      exfalso
      rw [is_better_loop_iff] at hb
      exact LexLt.irrefl_of_eq (fun _ _ => rfl) hb

/-- C2 at three concrete items. -/
theorem is_better_strict_order_witness :
    is_better itemLow itemMid pool012 = true ∧ is_better itemMid itemHigh pool012 = true ∧
      is_better itemLow itemHigh pool012 = true :=
  ⟨by decide, by decide,
    (is_better_strict_order pool012 itemLow itemMid itemHigh).1 (by decide) (by decide)⟩



theorem loop_inc_length (nfa : List nfa_state_t) (n : Nat) :
    (loop_inc nfa n).length = nfa.length := by
  unfold loop_inc
  cases h : nfa[n]? <;> simp

theorem loop_dec_length (nfa : List nfa_state_t) (n : Nat) :
    (loop_dec nfa n).length = nfa.length := by
  unfold loop_dec
  cases h : nfa[n]? <;> simp

theorem loop_dec_inc (nfa : List nfa_state_t) (n : Nat) :
    loop_dec (loop_inc nfa n) n = nfa := by
  induction nfa generalizing n with
  | nil => simp [loop_inc, loop_dec]
  | cons s rest ih =>
    cases n with
    | zero => simp [loop_inc, loop_dec]
    | succ n =>
      have := ih n
      unfold loop_inc loop_dec at this ⊢
      simp only [List.getElem?_cons_succ]
      cases h : rest[n]? with
      | none => simp [h]
      | some s' =>
        simp only [h] at this
        simp only [List.set_cons_succ, List.getElem?_cons_succ]
        cases h2 : (rest.set n { s' with loop := s'.loop + 1 })[n]? with
        | none => simp [h2] at this ⊢; exact this
        | some s'' => simp [h2] at this ⊢; exact this

theorem slack_loop_inc (nfa : List nfa_state_t) (n : Nat) (s : nfa_state_t)
    (h : nfa[n]? = some s) (hl : ¬ s.loop > 1) :
    slack (loop_inc nfa n) + 1 = slack nfa := by
  induction nfa generalizing n with
  | nil => simp at h
  | cons a rest ih =>
    cases n with
    | zero =>
      simp at h
      subst h
      simp [loop_inc, slack]
      omega
    | succ n =>
      simp only [List.getElem?_cons_succ] at h
      have := ih n h
      unfold loop_inc at this ⊢
      simp only [List.getElem?_cons_succ, h] at this ⊢
      simp only [List.set_cons_succ, slack]
      omega

theorem loop_inc_type (nfa : List nfa_state_t) (n : Nat) :
    (loop_inc nfa n).map (fun s => s.type) = nfa.map (fun s => s.type) := by
  induction nfa generalizing n with
  | nil => simp [loop_inc]
  | cons a rest ih =>
    cases n with
    | zero => simp [loop_inc]
    | succ n =>
      have := ih n
      unfold loop_inc at this ⊢
      simp only [List.getElem?_cons_succ]
      cases h : rest[n]? with
      | none => simp
      | some s' => simp only [h] at this; simp [this]

theorem nfaClosed_iff_types (nfa : List nfa_state_t) :
    NfaClosed nfa ↔ ∀ k ∈ nfa.map (fun s => s.type), out_ok nfa.length k = true := by
  simp [NfaClosed]

theorem nfaClosed_loop_inc (nfa : List nfa_state_t) (n : Nat) (h : NfaClosed nfa) :
    NfaClosed (loop_inc nfa n) := by
  rw [nfaClosed_iff_types] at *
  rw [loop_inc_type, loop_inc_length]
  exact h

/-- With more fuel than the counters leave room for, `closure_one` returns, and the
counters are as before the call. -/
theorem closure_one_total (CURSOR BOTTOM : Int) (fuel : Nat) (st : closure_st) (n : Nat)
    (hc : NfaClosed st.nfa) (hn : n < st.nfa.length) (hf : slack st.nfa < fuel) :
    ∃ st', closure_one CURSOR BOTTOM fuel st n = some st' ∧ st'.nfa = st.nfa := by
  induction fuel generalizing st n with
  | zero => omega
  | succ fuel ih =>
    have hs : ∃ s, st.nfa[n]? = some s := ⟨st.nfa[n], List.getElem?_eq_getElem hn⟩
    obtain ⟨s, hs⟩ := hs
    rw [closure_one]
    simp only [hs]
    by_cases hl : s.loop > 1
    · rw [if_pos hl]; exact ⟨st, rfl, rfl⟩
    rw [if_neg hl]
    have hsl := slack_loop_inc st.nfa n s hs hl
    have hc1 := nfaClosed_loop_inc st.nfa n hc
    have hlen := loop_inc_length st.nfa n
    have hmem : s ∈ st.nfa := List.getElem?_mem hs
    have hok := hc s hmem
    have hdec := loop_dec_inc st.nfa n
    cases hty : s.type with
    | NIL out =>
      rw [hty] at hok
      simp only [out_ok, decide_eq_true_eq] at hok
      obtain ⟨st', h1, h2⟩ := ih { st with nfa := loop_inc st.nfa n } out hc1
        (by simp only [hlen]; exact hok) (by simp only; omega)
      simp only [h1, Option.map_some']
      exact ⟨_, rfl, by simp only [h2, hdec]⟩
    | ALT out1 out2 =>
      rw [hty] at hok
      simp only [out_ok, Bool.and_eq_true, decide_eq_true_eq] at hok
      obtain ⟨st', h1, h2⟩ := ih { st with nfa := loop_inc st.nfa n } out1 hc1
        (by simp only [hlen]; exact hok.1) (by simp only; omega)
      simp only at h2
      obtain ⟨st'', h3, h4⟩ := ih st' out2 (by rw [h2]; exact hc1)
        (by rw [h2, hlen]; exact hok.2) (by rw [h2]; omega)
      simp only [h1, Option.some_bind, h3, Option.map_some']
      exact ⟨_, rfl, by simp only [h4, h2, hdec]⟩
    | TAG out t bottom =>
      rw [hty] at hok
      simp only [out_ok, decide_eq_true_eq] at hok
      obtain ⟨st', h1, h2⟩ := ih
        { st with nfa := loop_inc st.nfa n,
                  tags := st.tags.set t (if bottom then BOTTOM else CURSOR) } out hc1
        (by simp only [hlen]; exact hok) (by simp only; omega)
      simp only [h1, Option.map_some']
      exact ⟨_, rfl, by simp only [h2, hdec]⟩
    | RAN out =>
      simp only [Option.map_some']
      exact ⟨_, rfl, by simp only [hdec]⟩
    | FIN =>
      simp only [Option.map_some']
      exact ⟨_, rfl, by simp only [hdec]⟩



theorem states_of_closure_put (tagpool : Tagpool) (c0 : clos_t) (clos : List clos_t) :
    states_of (closure_put tagpool c0 clos) =
      if c0.state ∈ states_of clos then states_of clos else states_of clos ++ [c0.state] := by
  induction clos with
  | nil => simp [closure_put, states_of]
  | cons c rest ih =>
    unfold closure_put
    by_cases h : c.state = c0.state
    · rw [if_pos h]
      have hm : c0.state ∈ states_of (c :: rest) := by simp [states_of, h]
      rw [if_pos hm]
      by_cases hb : is_better c c0 tagpool = true
      · rw [if_pos hb]; simp [states_of, h]
      · rw [if_neg hb]
    · rw [if_neg h]
      have hne : ¬ c0.state = c.state := fun e => h e.symm
      by_cases hm : c0.state ∈ states_of rest
      · have hm' : c0.state ∈ states_of (c :: rest) := by
          simp only [states_of, List.map_cons, List.mem_cons] at hm ⊢; exact Or.inr hm
        rw [if_pos hm'] ; rw [if_pos hm] at ih
        simp only [states_of, List.map_cons] at ih ⊢
        rw [ih]
      · have hm' : ¬ c0.state ∈ states_of (c :: rest) := by
          simp only [states_of, List.map_cons, List.mem_cons] at hm ⊢
          rintro (e | e)
          · exact hne e
          · exact hm e
        rw [if_neg hm'] ; rw [if_neg hm] at ih
        simp only [states_of, List.map_cons, List.cons_append] at ih ⊢
        rw [ih]

theorem nodup_closure_put (tagpool : Tagpool) (c0 : clos_t) (clos : List clos_t)
    (h : (states_of clos).Nodup) : (states_of (closure_put tagpool c0 clos)).Nodup := by
  rw [states_of_closure_put]
  by_cases hm : c0.state ∈ states_of clos
  · rw [if_pos hm]; exact h
  · rw [if_neg hm]
    rw [List.nodup_append]
    refine ⟨h, List.nodup_singleton _, ?_⟩
    intro a ha hb
    simp only [List.mem_singleton] at hb
    subst hb
    exact hm ha

/-- Any property of the output closure that every insertion keeps is kept by
`closure_one`. -/
theorem closure_one_clos_inv (P : List clos_t → Prop)
    (hput : ∀ tp c0 clos, P clos → P (closure_put tp c0 clos))
    (CURSOR BOTTOM : Int) (fuel : Nat) (st : closure_st) (n : Nat) (st' : closure_st)
    (h : closure_one CURSOR BOTTOM fuel st n = some st') (hP : P st.clos) : P st'.clos := by
  induction fuel generalizing st n st' with
  | zero => simp [closure_one] at h
  | succ fuel ih =>
    rw [closure_one] at h
    cases hs : st.nfa[n]? with
    | none => simp [hs] at h
    | some s =>
      simp only [hs] at h
      by_cases hl : s.loop > 1
      · rw [if_pos hl] at h
        cases h; exact hP
      rw [if_neg hl] at h
      cases hty : s.type with
      | NIL out =>
        simp only [hty, Option.map_eq_some'] at h
        obtain ⟨a, h1, h2⟩ := h
        subst h2
        exact ih _ _ a h1 hP
      | ALT out1 out2 =>
        simp only [hty, Option.map_eq_some', Option.bind_eq_some] at h
        obtain ⟨a, ⟨b, h1, h3⟩, h2⟩ := h
        subst h2
        exact ih _ _ a h3 (ih _ _ b h1 hP)
      | TAG out t bottom =>
        simp only [hty, Option.map_eq_some'] at h
        obtain ⟨a, ⟨b, h1, h3⟩, h2⟩ := h
        subst h2 h3
        exact ih _ _ b h1 hP
      | RAN out =>
        simp only [hty, Option.map_some', Option.some.injEq] at h
        subst h
        exact hput _ _ _ hP
      | FIN =>
        simp only [hty, Option.map_some', Option.some.injEq] at h
        subst h
        exact hput _ _ _ hP

theorem closure_expand_clos_inv (P : List clos_t → Prop)
    (hput : ∀ tp c0 clos, P clos → P (closure_put tp c0 clos))
    (CURSOR BOTTOM : Int) (fuel : Nat) (clos1 : List clos_t) (st : closure_st)
    (r : List clos_t × closure_st)
    (h : closure_expand CURSOR BOTTOM fuel clos1 st = some r) (hP : P st.clos) : P r.2.clos := by
  induction clos1 generalizing st r with
  | nil => simp [closure_expand] at h; subst h; exact hP
  | cons c cs ih =>
    rw [closure_expand] at h
    cases h1 : closure_one CURSOR BOTTOM fuel { st with c0 := c } c.state with
    | none => simp [h1] at h
    | some st1 =>
      simp only [h1] at h
      cases h2 : closure_expand CURSOR BOTTOM fuel cs st1 with
      | none => simp [h2] at h
      | some r2 =>
        simp only [h2, Option.some.injEq] at h
        subst h
        exact ih st1 r2 h2 (closure_one_clos_inv P hput _ _ _ _ _ _ h1 hP)

theorem closure_expand_total (CURSOR BOTTOM : Int) (fuel : Nat) (clos1 : List clos_t)
    (st : closure_st) (hc : NfaClosed st.nfa) (hn : ∀ c ∈ clos1, c.state < st.nfa.length)
    (hf : slack st.nfa < fuel) :
    ∃ r, closure_expand CURSOR BOTTOM fuel clos1 st = some r ∧ r.2.nfa = st.nfa := by
  induction clos1 generalizing st with
  | nil => exact ⟨_, rfl, rfl⟩
  | cons c cs ih =>
    obtain ⟨st1, h1, h2⟩ := closure_one_total CURSOR BOTTOM fuel { st with c0 := c } c.state hc
      (hn c (List.mem_cons_self _ _)) hf
    simp only at h2
    obtain ⟨r, h3, h4⟩ := ih st1 (by rw [h2]; exact hc)
      (by rw [h2]; exact fun c' hc' => hn c' (List.mem_cons_of_mem _ hc')) (by rw [h2]; exact hf)
    rw [closure_expand]
    simp only [h1, h3]
    exact ⟨_, rfl, by simp only [h4, h2]⟩

theorem states_of_apply_items (CURSOR BOTTOM : Int) (cur bot : List Int) (tagpool : Tagpool)
    (clos : List clos_t) :
    states_of (apply_items CURSOR BOTTOM cur bot tagpool clos).2 = states_of clos := by
  induction clos generalizing tagpool with
  | nil => simp [apply_items, states_of]
  | cons c cs ih =>
    rw [apply_items]
    by_cases h : c.ttran = ZERO_TAGS
    · rw [if_pos h]
      simp only [states_of, List.map_cons] at ih ⊢
      rw [ih]
    · rw [if_neg h]
      simp only [states_of, List.map_cons] at ih ⊢
      rw [ih]

theorem nodup_prune_final_items (lib : StdAlgo) (hlib : lib.Conforming)
    (nfa : List nfa_state_t) (clos : List clos_t) (rules : List Rule)
    (h : (states_of clos).Nodup) :
    (states_of (prune_final_items lib nfa clos rules).1).Nodup := by
  have hperm := hlib.partition_perm (not_fin nfa) clos
  have hnd : (states_of ((lib.partition (not_fin nfa) clos).1 ++
      (lib.partition (not_fin nfa) clos).2)).Nodup :=
    (List.Perm.nodup_iff (List.Perm.map _ hperm)).2 h
  unfold prune_final_items
  simp only
  cases hb : (lib.partition (not_fin nfa) clos).2 with
  | nil =>
    simp only
    rw [hb, List.append_nil] at hnd
    exact hnd
  | cons x xs =>
    simp only
    have hp2 := hlib.partial_sort_perm (compare_by_rule nfa) (x :: xs) 0
    cases hs : lib.partial_sort (compare_by_rule nfa) (x :: xs) 0 with
    | nil =>
      simp only
      rw [hb] at hnd
      simp only [states_of, List.map_append] at hnd ⊢
      exact (List.nodup_append.1 hnd).1
    | cons f rest =>
      simp only
      rw [hs] at hp2
      rw [hb] at hnd
      have hnd2 : (states_of ((lib.partition (not_fin nfa) clos).1 ++ f :: rest)).Nodup :=
        (List.Perm.nodup_iff (List.Perm.map _ (List.Perm.append_left _ hp2))).2 hnd
      unfold states_of at hnd2 ⊢
      rw [List.map_take]
      exact List.Nodup.sublist (List.take_sublist _ _) hnd2


theorem strictWeak_asymm {lt : clos_t → clos_t → Bool} (h : StrictWeak lt) (a b : clos_t)
    (hab : lt a b = true) : lt b a = false := by
  cases hba : lt b a with
  | false => rfl
  | true =>
    have := h.2.1 a b a hab hba
    rw [h.1 a] at this
    cases this

theorem insertionSort_sorted_of_strictWeak {lt : clos_t → clos_t → Bool} (h : StrictWeak lt)
    (xs : List clos_t) :
    (xs.insertionSort (fun a b => lt b a = false)).Pairwise (fun a b => lt b a = false) := by
  haveI : IsTotal clos_t (fun a b => lt b a = false) := ⟨by
    intro a b
    cases hba : lt b a with
    | false => exact Or.inl rfl
    | true => exact Or.inr (strictWeak_asymm h b a hba)⟩
  haveI : IsTrans clos_t (fun a b => lt b a = false) := ⟨by
    intro a b c hab hbc
    exact h.2.2 c b a hbc hab⟩
  exact List.sorted_insertionSort (fun a b => lt b a = false) xs

/-- The loop `heap_select_front` rearranges the range. -/
theorem heap_select_front_perm (lt : clos_t → clos_t → Bool) (f : clos_t) (xs : List clos_t) :
    ((heap_select_front lt f xs).1 :: (heap_select_front lt f xs).2).Perm (f :: xs) := by
  induction xs generalizing f with
  | nil => simp [heap_select_front]
  | cons x xs ih =>
    rw [heap_select_front]
    split
    · exact (List.Perm.swap _ _ _).trans ((ih x).cons f)
    · exact (List.Perm.swap _ _ _).trans (((ih f).cons x).trans (List.Perm.swap _ _ _))

/-- The implementation `idleStd` meets the contract of the standard. -/
theorem idleStd_conforming : idleStd.Conforming where
  partition_perm := by
    intro p xs
    simp only [idleStd]
    exact List.filter_append_perm p xs
  partition_front := by
    intro p xs x hx
    simp only [idleStd, List.mem_filter] at hx
    exact hx.2
  partition_back := by
    intro p xs x hx
    simp only [idleStd, List.mem_filter, Bool.not_eq_true'] at hx
    exact hx.2
  partial_sort_perm := by
    intro lt xs k
    simp only [idleStd]
    by_cases hk : k = 0
    · rw [if_pos hk]
    · rw [if_neg hk]; exact List.perm_insertionSort _ xs
  partial_sort_prefix := by
    intro lt xs k hlt _
    simp only [idleStd]
    by_cases hk : k = 0
    · subst hk; simp
    · rw [if_neg hk]
      have hs := insertionSort_sorted_of_strictWeak hlt xs
      rw [← List.take_append_drop k (xs.insertionSort (fun a b => lt b a = false))] at hs
      rw [List.pairwise_append] at hs
      exact ⟨hs.1, hs.2.2⟩
  sort_perm := by
    intro lt xs
    simp only [idleStd]
    exact List.perm_insertionSort _ xs
  sort_sorted := by
    intro lt xs hlt
    simp only [idleStd]
    exact insertionSort_sorted_of_strictWeak hlt xs

/-- The implementation `plainStd` meets the contract of the standard. -/
theorem plainStd_conforming : plainStd.Conforming where
  partition_perm := by
    intro p xs
    simp only [plainStd]
    exact List.filter_append_perm p xs
  partition_front := by
    intro p xs x hx
    simp only [plainStd, List.mem_filter] at hx
    exact hx.2
  partition_back := by
    intro p xs x hx
    simp only [plainStd, List.mem_filter, Bool.not_eq_true'] at hx
    exact hx.2
  partial_sort_perm := by
    intro lt xs k
    simp only [plainStd]
    by_cases hk : k = 0
    · rw [if_pos hk]
      cases xs with
      | nil => exact List.Perm.refl _
      | cons f rest => exact heap_select_front_perm lt f rest
    · rw [if_neg hk]; exact List.perm_insertionSort _ xs
  partial_sort_prefix := by
    intro lt xs k hlt _
    simp only [plainStd]
    by_cases hk : k = 0
    · subst hk; simp
    · rw [if_neg hk]
      have hs := insertionSort_sorted_of_strictWeak hlt xs
      rw [← List.take_append_drop k (xs.insertionSort (fun a b => lt b a = false))] at hs
      rw [List.pairwise_append] at hs
      exact ⟨hs.1, hs.2.2⟩
  sort_perm := by
    intro lt xs
    simp only [plainStd]
    exact List.perm_insertionSort _ xs
  sort_sorted := by
    intro lt xs hlt
    simp only [plainStd]
    exact insertionSort_sorted_of_strictWeak hlt xs

theorem compare_by_rule_iff (nfa : List nfa_state_t) (a b : clos_t) :
    compare_by_rule nfa a b = true ↔
      rule_of nfa a < rule_of nfa b ∨ (rule_of nfa a = rule_of nfa b ∧ a.state < b.state) := by
  unfold compare_by_rule
  split_ifs with h1 h2 h3 h4
  · simp only [true_iff]; omega
  · simp only [Bool.false_eq_true, false_iff]; omega
  · simp only [true_iff]; omega
  · simp only [Bool.false_eq_true, false_iff]; omega
  · simp only [Bool.false_eq_true, false_iff]; omega

theorem compare_by_rule_false_iff (nfa : List nfa_state_t) (a b : clos_t) :
    compare_by_rule nfa a b = false ↔
      ¬ (rule_of nfa a < rule_of nfa b ∨ (rule_of nfa a = rule_of nfa b ∧ a.state < b.state)) := by
  rw [← compare_by_rule_iff]
  simp

theorem compare_by_rule_strictWeak (nfa : List nfa_state_t) :
    StrictWeak (compare_by_rule nfa) := by
  refine ⟨?_, ?_, ?_⟩
  · intro a; rw [compare_by_rule_false_iff]; omega
  · intro a b c
    rw [compare_by_rule_iff, compare_by_rule_iff, compare_by_rule_iff]
    omega
  · intro a b c
    rw [compare_by_rule_false_iff, compare_by_rule_false_iff, compare_by_rule_false_iff]
    omega

/-- C3: for every implementation of the standard algorithms that meets their contract,
whenever `closure` returns, no two items of `clos2` have the same NFA state; the property
holds after the expansion loop and is kept by `prune_final_items`, by the sort and by
`merge_transition_tags`.  On a finite NFA (every epsilon-successor is a state of the
arena) with the states of `clos1` in the arena, `closure` does return once the recursion
bound exceeds the room the `loop` counters leave. -/
theorem closure_unique_states (lib : StdAlgo) (hlib : lib.Conforming) (CURSOR BOTTOM : Int)
    (nfa : List nfa_state_t) (clos1 : List clos_t) (tagpool : Tagpool) (rules : List Rule)
    (badtags : List Bool) (maxver : Int) :
    (NfaClosed nfa → (∀ c ∈ clos1, c.state < nfa.length) →
      ∃ fuel r, closure lib CURSOR BOTTOM fuel nfa clos1 tagpool rules badtags maxver = some r) ∧
    (∀ fuel r, closure lib CURSOR BOTTOM fuel nfa clos1 tagpool rules badtags maxver = some r →
      (states_of r.clos2).Nodup) ∧
    (∀ fuel st r, (states_of st.clos).Nodup →
      closure_expand CURSOR BOTTOM fuel clos1 st = some r → (states_of r.2.clos).Nodup) ∧
    (∀ clos rs, (states_of clos).Nodup →
      (states_of (prune_final_items lib nfa clos rs).1).Nodup) ∧
    (∀ clos, (states_of clos).Nodup → (states_of (lib.sort (compare_by_rule nfa) clos)).Nodup) ∧
    (∀ clos tp mv, (states_of clos).Nodup →
      (states_of (merge_transition_tags CURSOR BOTTOM clos tp mv).clos).Nodup) := by
  have hexp : ∀ fuel st r, (states_of st.clos).Nodup →
      closure_expand CURSOR BOTTOM fuel clos1 st = some r → (states_of r.2.clos).Nodup := by
    intro fuel st r hst h
    exact closure_expand_clos_inv (fun cl => (states_of cl).Nodup)
      (fun tp c0 cl hcl => nodup_closure_put tp c0 cl hcl) CURSOR BOTTOM fuel clos1 st r h hst
  have hprune : ∀ (nfa' : List nfa_state_t) clos rs, (states_of clos).Nodup →
      (states_of (prune_final_items lib nfa' clos rs).1).Nodup :=
    fun nfa' clos rs h => nodup_prune_final_items lib hlib nfa' clos rs h
  have hsort : ∀ (nfa' : List nfa_state_t) clos, (states_of clos).Nodup →
      (states_of (lib.sort (compare_by_rule nfa') clos)).Nodup := by
    intro nfa' clos h
    exact (List.Perm.nodup_iff (List.Perm.map _ (hlib.sort_perm _ clos))).2 h
  have hmerge : ∀ clos tp mv, (states_of clos).Nodup →
      (states_of (merge_transition_tags CURSOR BOTTOM clos tp mv).clos).Nodup := by
    intro clos tp mv h
    simp only [merge_transition_tags]
    rw [states_of_apply_items]
    exact h
  refine ⟨?_, ?_, hexp, hprune nfa, hsort nfa, hmerge⟩
  · intro hc hn
    obtain ⟨r, h1, -⟩ := closure_expand_total CURSOR BOTTOM (slack nfa + 1) clos1
      ⟨[], tagpool, ⟨0, 0, 0, 0, 0⟩,
        List.replicate tagpool.ntags TAGVER_ZERO ++ tagpool.buffer1.drop tagpool.ntags, nfa⟩
      hc hn (Nat.lt_succ_self _)
    refine ⟨slack nfa + 1, ?_⟩
    simp only [closure, h1]
    exact ⟨_, rfl⟩
  · intro fuel r h
    simp only [closure] at h
    cases h1 : closure_expand CURSOR BOTTOM fuel clos1
      ⟨[], tagpool, ⟨0, 0, 0, 0, 0⟩,
        List.replicate tagpool.ntags TAGVER_ZERO ++ tagpool.buffer1.drop tagpool.ntags, nfa⟩ with
    | none => simp [h1] at h
    | some p =>
      simp only [h1, Option.some.injEq] at h
      subst h
      simp only
      apply hmerge
      apply hsort
      apply hprune
      exact hexp fuel _ p (by simp [states_of]) h1


/-- C3 on an NFA with an epsilon-cycle: the closure of state 0 returns with the single
final item. -/
theorem closure_unique_states_witness :
    NfaClosed nfaLoop ∧
    (closure plainStd 2147483647 (-2147483648) 9 nfaLoop [⟨0, 0, 0, 0, 0⟩] poolOneTag
        [⟨0, 1, 10, []⟩] [false] 0).map (fun r => states_of r.clos2) = some [3] ∧
    (∃ fuel r, closure plainStd 2147483647 (-2147483648) fuel nfaLoop [⟨0, 0, 0, 0, 0⟩]
        poolOneTag [⟨0, 1, 10, []⟩] [false] 0 = some r) :=
  ⟨by decide, by decide,
    (closure_unique_states plainStd plainStd_conforming 2147483647 (-2147483648) nfaLoop
      [⟨0, 0, 0, 0, 0⟩] poolOneTag [⟨0, 1, 10, []⟩] [false] 0).1 (by decide) (by decide)⟩


theorem partition_parts (lib : StdAlgo) (hlib : lib.Conforming) (nfa : List nfa_state_t)
    (clos : List clos_t) :
    (lib.partition (not_fin nfa) clos).1.Perm (clos.filter (not_fin nfa)) ∧
    (lib.partition (not_fin nfa) clos).2.Perm (finals_of nfa clos) := by
  have hperm := hlib.partition_perm (not_fin nfa) clos
  have hf := hlib.partition_front (not_fin nfa) clos
  have hb := hlib.partition_back (not_fin nfa) clos
  constructor
  · have h := List.Perm.filter (not_fin nfa) hperm
    rw [List.filter_append] at h
    have e1 : List.filter (not_fin nfa) (lib.partition (not_fin nfa) clos).1 =
        (lib.partition (not_fin nfa) clos).1 := List.filter_eq_self.2 hf
    have e2 : List.filter (not_fin nfa) (lib.partition (not_fin nfa) clos).2 = [] :=
      List.filter_eq_nil_iff.2 (fun x hx => by simp [hb x hx])
    rw [e1, e2, List.append_nil] at h
    exact h
  · have h := List.Perm.filter (is_fin nfa) hperm
    rw [List.filter_append] at h
    have e1 : List.filter (is_fin nfa) (lib.partition (not_fin nfa) clos).1 = [] :=
      List.filter_eq_nil_iff.2 (fun x hx => by simp [is_fin, hf x hx])
    have e2 : List.filter (is_fin nfa) (lib.partition (not_fin nfa) clos).2 =
        (lib.partition (not_fin nfa) clos).2 :=
      List.filter_eq_self.2 (fun x hx => by simp [is_fin, hb x hx])
    rw [e1, e2, List.nil_append] at h
    exact h

/-- Shape of the result of `prune_final_items` for a conforming library: either there
is no final item and nothing but the order changes, or one final item `f` is kept behind
the non-final items and the others, `rest`, are dropped after their rules are marked. -/
theorem prune_final_items_shape (lib : StdAlgo) (hlib : lib.Conforming)
    (nfa : List nfa_state_t) (clos : List clos_t) (rules : List Rule) :
    (finals_of nfa clos = [] ∧ (prune_final_items lib nfa clos rules).2 = rules ∧
      (prune_final_items lib nfa clos rules).1.Perm clos) ∨
    (∃ f rest nonfin, (f :: rest).Perm (finals_of nfa clos) ∧
      nonfin.Perm (clos.filter (not_fin nfa)) ∧
      (prune_final_items lib nfa clos rules).1 = nonfin ++ [f] ∧
      (prune_final_items lib nfa clos rules).2 =
        rest.foldl (fun rs c => shadow_insert rs (rule_of nfa c)
          (rule_line rules (rule_of nfa f))) rules) := by
  obtain ⟨h1, h2⟩ := partition_parts lib hlib nfa clos
  have hperm := hlib.partition_perm (not_fin nfa) clos
  unfold prune_final_items
  simp only
  cases hb : (lib.partition (not_fin nfa) clos).2 with
  | nil =>
    left
    rw [hb] at h2 hperm
    rw [List.append_nil] at hperm
    exact ⟨(List.Perm.nil_eq h2).symm, rfl, hperm⟩
  | cons x xs =>
    right
    have hp2 := hlib.partial_sort_perm (compare_by_rule nfa) (x :: xs) 0
    cases hs : lib.partial_sort (compare_by_rule nfa) (x :: xs) 0 with
    | nil =>
      rw [hs] at hp2
      exact absurd (List.Perm.nil_eq hp2) (by simp)
    | cons f rest =>
      rw [hs] at hp2
      rw [hb] at h2
      refine ⟨f, rest, (lib.partition (not_fin nfa) clos).1, hp2.trans h2, h1, ?_, ?_⟩
      · simp only [hs]
        rw [List.take_append]
        simp
      · simp only [hs]

theorem shadow_insert_length (rules : List Rule) (r line : Nat) :
    (shadow_insert rules r line).length = rules.length := by
  unfold shadow_insert
  cases h : rules[r]? <;> simp

theorem rule_at_shadow_insert (rules : List Rule) (r line r' : Nat) :
    rule_at (shadow_insert rules r line) r' =
      if r' = r ∧ r < rules.length then with_shadow (rule_at rules r') line
      else rule_at rules r' := by
  unfold shadow_insert rule_at
  by_cases hr : r < rules.length
  · have hs : rules[r]? = some rules[r] := List.getElem?_eq_getElem hr
    rw [hs]
    simp only
    by_cases e : r' = r
    · subst e
      rw [if_pos ⟨rfl, hr⟩]
      simp [List.getD_eq_getElem?_getD, List.getElem?_set, hr, with_shadow]
    · rw [if_neg (fun h => e h.1)]
      simp only [List.getD_eq_getElem?_getD]
      rw [List.getElem?_set_ne (fun h => e h.symm)]
  · have hs : rules[r]? = none := List.getElem?_eq_none (by omega)
    rw [hs]
    simp only
    rw [if_neg (fun h => hr h.2)]

theorem with_shadow_idem (rule : Rule) (line : Nat) :
    with_shadow (with_shadow rule line) line = with_shadow rule line := by
  unfold with_shadow
  simp

theorem shadow_fold (nfa : List nfa_state_t) (line : Nat) (rest : List clos_t)
    (rules : List Rule) :
    (rest.foldl (fun rs c => shadow_insert rs (rule_of nfa c) line) rules).length
        = rules.length ∧
    ∀ r, rule_at (rest.foldl (fun rs c => shadow_insert rs (rule_of nfa c) line) rules) r =
      if r ∈ rest.map (rule_of nfa) ∧ r < rules.length then with_shadow (rule_at rules r) line
      else rule_at rules r := by
  induction rest generalizing rules with
  | nil => simp
  | cons c cs ih =>
    simp only [List.foldl_cons, List.map_cons, List.mem_cons]
    obtain ⟨hl, hr⟩ := ih (shadow_insert rules (rule_of nfa c) line)
    refine ⟨by rw [hl, shadow_insert_length], ?_⟩
    intro r
    rw [hr r, shadow_insert_length, rule_at_shadow_insert]
    by_cases h1 : r < rules.length
    · by_cases h2 : r = rule_of nfa c
      · subst h2
        by_cases h3 : rule_of nfa c ∈ cs.map (rule_of nfa)
        · simp [h1, h3, with_shadow_idem]
        · simp [h1, h3]
      · by_cases h3 : r ∈ cs.map (rule_of nfa)
        · simp [h1, h2, h3]
        · simp [h1, h2, h3]
    · have h4 : ¬ (r = rule_of nfa c ∧ rule_of nfa c < rules.length) := by
        rintro ⟨e, h⟩; rw [e] at h1; exact h1 h
      simp [h1, h4]

theorem is_fin_state (nfa : List nfa_state_t) (c : clos_t) (h : is_fin nfa c = true) :
    c.state < nfa.length ∧
    (nfa.getD c.state ⟨nfa_kind.FIN, 0, 0⟩).type = nfa_kind.FIN ∧
    (nfa.getD c.state ⟨nfa_kind.FIN, 0, 0⟩).rule = rule_of nfa c := by
  unfold is_fin not_fin at h
  unfold rule_of
  cases hs : nfa[c.state]? with
  | none => simp [hs] at h
  | some s =>
    simp only [hs, Bool.not_eq_true', decide_eq_false_iff_not, ne_eq, not_not] at h
    obtain ⟨hlt, hget⟩ := List.getElem?_eq_some.1 hs
    refine ⟨hlt, ?_, ?_⟩
    · simp [List.getD_eq_getElem?_getD, hs, h]
    · simp [List.getD_eq_getElem?_getD, hs]

theorem finals_rules_nodup (nfa : List nfa_state_t) (clos : List clos_t)
    (hu : (states_of clos).Nodup) (h1 : OneFinalPerRule nfa) :
    ((finals_of nfa clos).map (rule_of nfa)).Nodup := by
  have hsub : (finals_of nfa clos).Sublist clos := List.filter_sublist _
  have hst : (states_of (finals_of nfa clos)).Nodup :=
    List.Nodup.sublist (List.Sublist.map _ hsub) hu
  have hnd : (finals_of nfa clos).Nodup := List.Nodup.of_map _ hst
  refine List.Nodup.map_on ?_ hnd
  intro x hx y hy hxy
  have fx := is_fin_state nfa x (List.mem_filter.1 hx).2
  have fy := is_fin_state nfa y (List.mem_filter.1 hy).2
  have hs : x.state = y.state :=
    h1 x.state fx.1 y.state fy.1 fx.2.1 fy.2.1 (by rw [fx.2.2, fy.2.2, hxy])
  exact List.inj_on_of_nodup_map hst hx hy hs

/-- C5: for every closure and every implementation of the standard algorithms that meets
their contract.  Without a final item `prune_final_items` changes no rule and keeps the
items.  Otherwise one final item `f` survives and the others, `rest`, are dropped: the
line of the rule of `f` is inserted into the shadow set of the rule of every dropped
item, and every other rule is unchanged, in particular the rules without a final item in
the closure and, when the closure has pairwise different states and the NFA at most one
final state per rule (note [at most one final item per closure]), the rule of `f`. -/
theorem prune_final_items_shadow (lib : StdAlgo) (hlib : lib.Conforming)
    (nfa : List nfa_state_t) (clos : List clos_t) (rules : List Rule) :
    (finals_of nfa clos = [] →
      (prune_final_items lib nfa clos rules).2 = rules ∧
      (prune_final_items lib nfa clos rules).1.Perm clos) ∧
    (finals_of nfa clos ≠ [] → ∃ f rest,
      (f :: rest).Perm (finals_of nfa clos) ∧
      finals_of nfa (prune_final_items lib nfa clos rules).1 = [f] ∧
      ((prune_final_items lib nfa clos rules).1.filter (not_fin nfa)).Perm
        (clos.filter (not_fin nfa)) ∧
      (prune_final_items lib nfa clos rules).2.length = rules.length ∧
      (∀ r, r ∈ rest.map (rule_of nfa) → r < rules.length →
        rule_at (prune_final_items lib nfa clos rules).2 r =
          with_shadow (rule_at rules r) (rule_line rules (rule_of nfa f)) ∧
        rule_line rules (rule_of nfa f) ∈
          (rule_at (prune_final_items lib nfa clos rules).2 r).shadow) ∧
      (∀ r, r ∉ rest.map (rule_of nfa) →
        rule_at (prune_final_items lib nfa clos rules).2 r = rule_at rules r) ∧
      (∀ r, r ∉ (finals_of nfa clos).map (rule_of nfa) →
        rule_at (prune_final_items lib nfa clos rules).2 r = rule_at rules r) ∧
      ((states_of clos).Nodup → OneFinalPerRule nfa →
        rule_of nfa f ∉ rest.map (rule_of nfa) ∧
        rule_at (prune_final_items lib nfa clos rules).2 (rule_of nfa f) =
          rule_at rules (rule_of nfa f))) := by
  rcases prune_final_items_shape lib hlib nfa clos rules with
    ⟨h0, hr, hp⟩ | ⟨f, rest, nonfin, hperm, hn, he, hrules⟩
  · exact ⟨fun _ => ⟨hr, hp⟩, fun h => absurd h0 h⟩
  · refine ⟨fun h0 => ?_, fun _ => ?_⟩
    · rw [h0] at hperm
      exact absurd (List.Perm.eq_nil hperm) (by simp)
    · have hnf : ∀ x ∈ nonfin, not_fin nfa x = true := by
        intro x hx
        exact (List.mem_filter.1 ((List.Perm.mem_iff hn).1 hx)).2
      have hff : is_fin nfa f = true := by
        have : f ∈ finals_of nfa clos := (List.Perm.mem_iff hperm).1 (List.mem_cons_self _ _)
        exact (List.mem_filter.1 this).2
      obtain ⟨hlen, hat⟩ := shadow_fold nfa (rule_line rules (rule_of nfa f)) rest rules
      rw [← hrules] at hlen hat
      have hun : ∀ r, r ∉ rest.map (rule_of nfa) →
          rule_at (prune_final_items lib nfa clos rules).2 r = rule_at rules r := by
        intro r hr
        rw [hat r, if_neg (fun h => hr h.1)]
      refine ⟨f, rest, hperm, ?_, ?_, hlen, ?_, hun, ?_, ?_⟩
      · rw [he]
        unfold finals_of
        rw [List.filter_append]
        have e1 : List.filter (is_fin nfa) nonfin = [] :=
          List.filter_eq_nil_iff.2 (fun x hx => by simp [is_fin, hnf x hx])
        rw [e1, List.nil_append]
        simp [hff]
      · rw [he, List.filter_append]
        have e1 : List.filter (not_fin nfa) nonfin = nonfin := List.filter_eq_self.2 hnf
        have e2 : List.filter (not_fin nfa) [f] = [] := by
          unfold is_fin at hff
          simp only [Bool.not_eq_true'] at hff
          simp [hff]
        rw [e1, e2, List.append_nil]
        exact hn
      · intro r hr hlt
        have := hat r
        rw [if_pos ⟨hr, hlt⟩] at this
        refine ⟨this, ?_⟩
        rw [this]
        simp [with_shadow]
      · intro r hr
        apply hun
        intro hmem
        apply hr
        have : r ∈ (f :: rest).map (rule_of nfa) := by
          rw [List.map_cons]; exact List.mem_cons_of_mem _ hmem
        exact (List.Perm.mem_iff (List.Perm.map _ hperm)).1 this
      · intro hu h1
        have hnd := finals_rules_nodup nfa clos hu h1
        have hnd2 : ((f :: rest).map (rule_of nfa)).Nodup :=
          (List.Perm.nodup_iff (List.Perm.map _ hperm)).2 hnd
        have hfr : rule_of nfa f ∉ rest.map (rule_of nfa) := by
          rw [List.map_cons, List.nodup_cons] at hnd2
          exact hnd2.1
        exact ⟨hfr, hun _ hfr⟩

/-- C5 on scenario S3: the final items of rule 0 and rule 1; the item of rule 0 survives
and the shadow set of rule 1 contains line 10, the line of rule 0. -/
theorem prune_final_items_shadow_witness :
    plainStd.Conforming ∧ (states_of closTwoFinals).Nodup ∧ OneFinalPerRule nfaS3 ∧
    finals_of nfaS3 closTwoFinals ≠ [] ∧
    (prune_final_items plainStd nfaS3 closTwoFinals rulesTwo).1 = [⟨0, 0, 0, 0, 0⟩] ∧
    rule_of nfaS3 ⟨0, 0, 0, 0, 0⟩ = 0 ∧
    10 ∈ (rule_at (prune_final_items plainStd nfaS3 closTwoFinals rulesTwo).2 1).shadow ∧
    (∃ f rest, (f :: rest).Perm (finals_of nfaS3 closTwoFinals) ∧
      finals_of nfaS3 (prune_final_items plainStd nfaS3 closTwoFinals rulesTwo).1 = [f]) := by
  refine ⟨plainStd_conforming, by decide, by decide, by decide, by decide, by decide, by decide,
    ?_⟩
  obtain ⟨f, rest, h1, h2, -⟩ :=
    (prune_final_items_shadow plainStd plainStd_conforming nfaS3 closTwoFinals rulesTwo).2
      (by decide)
  exact ⟨f, rest, h1, h2⟩


theorem getD_set_bool (bad : List Bool) (i t : Nat) (v : Bool) :
    (bad.set i v).getD t false = if t = i ∧ i < bad.length then v else bad.getD t false := by
  simp only [List.getD_eq_getElem?_getD, List.getElem?_set]
  by_cases h : i = t
  · subst h
    by_cases hl : i < bad.length
    · simp [hl]
    · simp [hl, List.getElem?_eq_none (Nat.le_of_not_lt hl)]
  · have h' : ¬ t = i := fun e => h e.symm
    simp [h, h']

theorem mark_range (x y : List Int) (n lvar : Nat) (bad : List Bool) (t : Nat) :
    ((List.range' lvar n).foldl
      (fun bad t => bad.set t (bad.getD t false || decide (tagAt y t ≠ tagAt x t))) bad).length
        = bad.length ∧
    (((List.range' lvar n).foldl
      (fun bad t => bad.set t (bad.getD t false || decide (tagAt y t ≠ tagAt x t))) bad).getD t
        false = true ↔
      bad.getD t false = true ∨
        (lvar ≤ t ∧ t < lvar + n ∧ t < bad.length ∧ tagAt y t ≠ tagAt x t)) := by
  induction n generalizing lvar bad with
  | zero =>
    simp only [List.range', List.foldl_nil, true_and]
    constructor
    · intro h; exact Or.inl h
    · rintro (h | ⟨h1, h2, -⟩)
      · exact h
      · omega
  | succ n ih =>
    simp only [List.range', List.foldl_cons]
    obtain ⟨hl, hg⟩ := ih (lvar + 1)
      (bad.set lvar (bad.getD lvar false || decide (tagAt y lvar ≠ tagAt x lvar)))
    refine ⟨by rw [hl, List.length_set], ?_⟩
    rw [hg, getD_set_bool, List.length_set]
    by_cases e : t = lvar
    · subst e
      by_cases hlt : t < bad.length
      · simp only [hlt, and_self, if_true, Bool.or_eq_true, decide_eq_true_eq]
        constructor
        · rintro ((h | h) | ⟨h, -⟩)
          · exact Or.inl h
          · exact Or.inr ⟨le_refl _, by omega, trivial, h⟩
          · omega
        · rintro (h | ⟨-, -, -, h⟩)
          · exact Or.inl (Or.inl h)
          · exact Or.inl (Or.inr h)
      · simp only [hlt, and_false, if_false]
        constructor
        · rintro (h | ⟨-, -, h, -⟩)
          · exact Or.inl h
          · exact h.elim
        · rintro (h | ⟨-, -, h, -⟩)
          · exact Or.inl h
          · exact h.elim
    · have e' : ¬ (t = lvar ∧ lvar < bad.length) := fun h => e h.1
      simp only [e', if_false]
      constructor
      · rintro (h | ⟨h1, h2, h3, h4⟩)
        · exact Or.inl h
        · exact Or.inr ⟨by omega, by omega, h3, h4⟩
      · rintro (h | ⟨h1, h2, h3, h4⟩)
        · exact Or.inl h
        · exact Or.inr ⟨by omega, by omega, h3, h4⟩

theorem mark_badtags_spec (x y : List Int) (lvar hvar : Nat) (bad : List Bool) (t : Nat) :
    (mark_badtags x y lvar hvar bad).length = bad.length ∧
    ((mark_badtags x y lvar hvar bad).getD t false = true ↔
      bad.getD t false = true ∨
        (lvar ≤ t ∧ t < hvar ∧ t < bad.length ∧ tagAt y t ≠ tagAt x t)) := by
  unfold mark_badtags
  obtain ⟨h1, h2⟩ := mark_range x y (hvar - lvar) lvar bad t
  refine ⟨h1, ?_⟩
  rw [h2]
  constructor
  · rintro (h | ⟨a, b, c, d⟩)
    · exact Or.inl h
    · exact Or.inr ⟨a, by omega, c, d⟩
  · rintro (h | ⟨a, b, c, d⟩)
    · exact Or.inl h
    · exact Or.inr ⟨a, by omega, c, d⟩

theorem group_first_cons_ne (nfa : List nfa_state_t) (c : clos_t) (cs : List clos_t) (r : Nat)
    (h : rule_of nfa c ≠ r) : group_first nfa (c :: cs) r = group_first nfa cs r := by
  unfold group_first
  rw [List.find?_cons]
  simp [h]

theorem group_first_cons_eq (nfa : List nfa_state_t) (c : clos_t) (cs : List clos_t) :
    group_first nfa (c :: cs) (rule_of nfa c) = some c := by
  unfold group_first
  rw [List.find?_cons]
  simp

theorem group_first_mem (nfa : List nfa_state_t) (cs : List clos_t) (r : Nat) (c0 : clos_t)
    (h : group_first nfa cs r = some c0) : c0 ∈ cs := by
  unfold group_first at h
  exact List.mem_of_find?_eq_some h

/-- A round of the outer loop at item `c`: what the whole list flags is what the
loops flag on the rest with `c` as the reference. -/
theorem nondetAt_cons_iff (nfa : List nfa_state_t) (tagpool : Tagpool) (rules : List Rule)
    (c : clos_t) (cs : List clos_t) (t : Nat) :
    NondetAt nfa tagpool rules (c :: cs) t ↔
      BadFrom nfa tagpool rules (rule_of nfa c) (tagpool.lookup c.ttran) cs t := by
  unfold NondetAt BadFrom
  constructor
  · rintro ⟨c1, hc1, c0, -, hg, hr, hd⟩
    by_cases e : rule_of nfa c1 = rule_of nfa c
    · rw [e, group_first_cons_eq] at hg
      cases hg
      rcases List.mem_cons.1 hc1 with h | h
      · subst h; exact absurd rfl hd
      · exact Or.inl ⟨c1, h, e, by rw [← e]; exact hr, hd⟩
    · rw [group_first_cons_ne nfa c cs _ (fun h => e h.symm)] at hg
      rcases List.mem_cons.1 hc1 with h | h
      · subst h; exact absurd rfl e
      · exact Or.inr ⟨c1, h, e, c0, group_first_mem nfa cs _ c0 hg, hg, hr, hd⟩
  · rintro (⟨c1, hc1, e, hr, hd⟩ | ⟨c1, hc1, e, c0, hc0, hg, hr, hd⟩)
    · refine ⟨c1, List.mem_cons_of_mem _ hc1, c, List.mem_cons_self _ _, ?_, by rw [e]; exact hr,
        hd⟩
      rw [e, group_first_cons_eq]
    · refine ⟨c1, List.mem_cons_of_mem _ hc1, c0, List.mem_cons_of_mem _ hc0, ?_, hr, hd⟩
      rw [group_first_cons_ne nfa c cs _ (fun h => e h.symm)]
      exact hg

theorem check_nondeterminism_from_spec (nfa : List nfa_state_t) (tagpool : Tagpool)
    (rules : List Rule) (cs : List clos_t) (r : Nat) (x : List Int) (bad : List Bool) (t : Nat)
    (hs : SortedByRule nfa cs) (hr : ∀ c ∈ cs, r ≤ rule_of nfa c) (ht : t < bad.length) :
    (check_nondeterminism_from nfa tagpool rules r x cs bad).getD t false = true ↔
      bad.getD t false = true ∨ BadFrom nfa tagpool rules r x cs t := by
  induction cs generalizing r x bad with
  | nil =>
    simp only [check_nondeterminism_from, BadFrom]
    constructor
    · intro h; exact Or.inl h
    · rintro (h | ⟨c, hc, -⟩ | ⟨c, hc, -⟩)
      · exact h
      · cases hc
      · cases hc
  | cons c cs ih =>
    have hs' : SortedByRule nfa cs := by
      unfold SortedByRule at hs ⊢
      rw [List.map_cons, List.pairwise_cons] at hs
      exact hs.2
    have hle : ∀ c' ∈ cs, rule_of nfa c ≤ rule_of nfa c' := by
      unfold SortedByRule at hs
      rw [List.map_cons, List.pairwise_cons] at hs
      intro c' hc'
      exact hs.1 _ (List.mem_map_of_mem _ hc')
    rw [check_nondeterminism_from]
    by_cases e : rule_of nfa c = r
    · rw [if_pos e]
      obtain ⟨hl, hm⟩ := mark_badtags_spec x (tagpool.lookup c.ttran) (rule_at rules r).lvar
        (rule_at rules r).hvar bad t
      rw [ih r x _ hs' (fun c' hc' => hr c' (List.mem_cons_of_mem _ hc')) (by rw [hl]; exact ht),
        hm]
      unfold BadFrom
      constructor
      · rintro ((h | ⟨a, b, -, d⟩) | ⟨c1, hc1, e1, hr1, hd⟩ | ⟨c1, hc1, e1, c0, hc0, hg, hr1, hd⟩)
        · exact Or.inl h
        · exact Or.inr (Or.inl ⟨c, List.mem_cons_self _ _, e, ⟨a, b⟩, d⟩)
        · exact Or.inr (Or.inl ⟨c1, List.mem_cons_of_mem _ hc1, e1, hr1, hd⟩)
        · refine Or.inr (Or.inr ⟨c1, List.mem_cons_of_mem _ hc1, e1, c0,
            List.mem_cons_of_mem _ hc0, ?_, hr1, hd⟩)
          rw [group_first_cons_ne nfa c cs _ (fun h => e1 (h.symm.trans e))]
          exact hg
      · rintro (h | ⟨c1, hc1, e1, hr1, hd⟩ | ⟨c1, hc1, e1, c0, hc0, hg, hr1, hd⟩)
        · exact Or.inl (Or.inl h)
        · rcases List.mem_cons.1 hc1 with h | h
          · subst h; exact Or.inl (Or.inr ⟨hr1.1, hr1.2, ht, hd⟩)
          · exact Or.inr (Or.inl ⟨c1, h, e1, hr1, hd⟩)
        · rcases List.mem_cons.1 hc1 with h | h
          · subst h; exact absurd e e1
          · rw [group_first_cons_ne nfa c cs _ (fun h => e1 (h.symm.trans e))] at hg
            exact Or.inr (Or.inr ⟨c1, h, e1, c0, group_first_mem nfa cs _ c0 hg, hg, hr1, hd⟩)
    · rw [if_neg e]
      have hlt : r < rule_of nfa c := by
        have := hr c (List.mem_cons_self _ _)
        omega
      have hmax : max r (rule_of nfa c) = rule_of nfa c := by omega
      rw [hmax, ih (rule_of nfa c) (tagpool.lookup c.ttran) bad hs' hle ht,
        ← nondetAt_cons_iff]
      unfold BadFrom NondetAt
      constructor
      · rintro (h | ⟨c1, hc1, c0, hc0, hg, hr1, hd⟩)
        · exact Or.inl h
        · refine Or.inr (Or.inr ⟨c1, hc1, ?_, c0, hc0, hg, hr1, hd⟩)
          have : rule_of nfa c ≤ rule_of nfa c1 := by
            rcases List.mem_cons.1 hc1 with h | h
            · subst h; exact le_refl _
            · exact hle c1 h
          omega
      · rintro (h | ⟨c1, hc1, e1, -⟩ | ⟨c1, hc1, e1, c0, hc0, hg, hr1, hd⟩)
        · exact Or.inl h
        · have : rule_of nfa c ≤ rule_of nfa c1 := by
            rcases List.mem_cons.1 hc1 with h | h
            · subst h; exact le_refl _
            · exact hle c1 h
          omega
        · exact Or.inr ⟨c1, hc1, c0, hc0, hg, hr1, hd⟩

/-- C6 (amended): for a closure whose items are in non-decreasing rule order, after
`check_nondeterminism` the entry of tag `t` is true exactly when it was true before or
some item differs at `t` from the first item of the group of its rule and `t` lies in the
tag range of that rule; so no entry goes from true to false. -/
theorem check_nondeterminism_sorted (nfa : List nfa_state_t) (clos : List clos_t)
    (tagpool : Tagpool) (rules : List Rule) (badtags : List Bool) (t : Nat)
    (hs : SortedByRule nfa clos) (ht : t < badtags.length) :
    ((check_nondeterminism nfa clos tagpool rules badtags).getD t false = true ↔
      badtags.getD t false = true ∨ NondetAt nfa tagpool rules clos t) ∧
    (badtags.getD t false = true →
      (check_nondeterminism nfa clos tagpool rules badtags).getD t false = true) := by
  have key : (check_nondeterminism nfa clos tagpool rules badtags).getD t false = true ↔
      badtags.getD t false = true ∨ NondetAt nfa tagpool rules clos t := by
    cases clos with
    | nil =>
      simp only [check_nondeterminism, NondetAt]
      constructor
      · intro h; exact Or.inl h
      · rintro (h | ⟨c, hc, -⟩)
        · exact h
        · cases hc
    | cons c cs =>
      have hs' : SortedByRule nfa cs := by
        unfold SortedByRule at hs ⊢
        rw [List.map_cons, List.pairwise_cons] at hs
        exact hs.2
      have hle : ∀ c' ∈ cs, rule_of nfa c ≤ rule_of nfa c' := by
        unfold SortedByRule at hs
        rw [List.map_cons, List.pairwise_cons] at hs
        intro c' hc'
        exact hs.1 _ (List.mem_map_of_mem _ hc')
      rw [check_nondeterminism, Nat.zero_max,
        check_nondeterminism_from_spec nfa tagpool rules cs _ _ badtags t hs' hle ht,
        nondetAt_cons_iff]
  exact ⟨key, fun h => key.2 (Or.inl h)⟩

/-- C6 (amended) on a closure in rule order 0, 0, 1 whose two items of rule 0 differ at
tag 0. -/
theorem check_nondeterminism_sorted_witness :
    SortedByRule nfaGroups closGroupsAsc ∧ NondetAt nfaGroups poolGroups rulesGroups closGroupsAsc 0 ∧
    (check_nondeterminism nfaGroups closGroupsAsc poolGroups rulesGroups [false]).getD 0 false
      = true := by
  refine ⟨by decide, by decide, ?_⟩
  exact ((check_nondeterminism_sorted nfaGroups closGroupsAsc poolGroups rulesGroups [false] 0
    (by decide) (by decide)).1).2 (Or.inr (by decide))

/-- C6 as stated fails: the closure is grouped by rule in the order 1, 0, 0 and the two
items of rule 0 differ at tag 0, which rule 0 owns, yet `badtags[0]` stays false. -/
theorem check_nondeterminism_grouped_counterexample :
    GroupedByRule nfaGroups closGroupsDesc ∧
    ¬ ((check_nondeterminism nfaGroups closGroupsDesc poolGroups rulesGroups [false]).getD 0 false
        = true ↔
      ([false] : List Bool).getD 0 false = true ∨
        NondetAt nfaGroups poolGroups rulesGroups closGroupsDesc 0) := by
  decide


theorem tagAt_set (l : List Int) (i t : Nat) (v : Int) :
    tagAt (l.set i v) t = if t = i ∧ i < l.length then v else tagAt l t := by
  unfold tagAt
  simp only [List.getD_eq_getElem?_getD, List.getElem?_set]
  by_cases h : i = t
  · subst h
    by_cases hl : i < l.length
    · simp [hl]
    · simp [hl, List.getElem?_eq_none (Nat.le_of_not_lt hl)]
  · have h' : ¬ t = i := fun e => h e.symm
    simp [h, h']

theorem maxver_at_mono (CURSOR BOTTOM : Int) (tagpool : Tagpool) (clos : List clos_t)
    (maxver : Int) (a b : Nat) (h : a ≤ b) :
    maxver_at CURSOR BOTTOM tagpool clos maxver a ≤
      maxver_at CURSOR BOTTOM tagpool clos maxver b := by
  induction b with
  | zero =>
    have : a = 0 := by omega
    subst this; exact le_refl _
  | succ b ih =>
    by_cases e : a = b + 1
    · subst e; exact le_refl _
    · have := ih (by omega)
      simp only [maxver_at]
      split_ifs <;> omega

/-- State of the allocation loop after the rounds for the tags below `k`. -/
theorem alloc_fold (CURSOR BOTTOM : Int) (tagpool : Tagpool) (clos : List clos_t)
    (a0 : alloc_st) (n : Nat) (h1 : a0.cur.length = n) (h2 : a0.bot.length = n) (k : Nat)
    (hk : k ≤ n) :
    ((List.range k).foldl (alloc_step CURSOR BOTTOM tagpool clos) a0).maxver =
        maxver_at CURSOR BOTTOM tagpool clos a0.maxver k ∧
    ((List.range k).foldl (alloc_step CURSOR BOTTOM tagpool clos) a0).cur.length = n ∧
    ((List.range k).foldl (alloc_step CURSOR BOTTOM tagpool clos) a0).bot.length = n ∧
    ∀ t, t < k →
      tagAt ((List.range k).foldl (alloc_step CURSOR BOTTOM tagpool clos) a0).cur t =
        (if has_ttran tagpool clos t CURSOR then
          maxver_at CURSOR BOTTOM tagpool clos a0.maxver t + 1 else 0) ∧
      tagAt ((List.range k).foldl (alloc_step CURSOR BOTTOM tagpool clos) a0).bot t =
        (if has_ttran tagpool clos t BOTTOM then
          -(maxver_at CURSOR BOTTOM tagpool clos a0.maxver t
            + (if has_ttran tagpool clos t CURSOR then 1 else 0) + 1) else 0) := by
  induction k with
  | zero =>
    refine ⟨rfl, h1, h2, ?_⟩
    intro t ht; omega
  | succ k ih =>
    obtain ⟨im, ic, ib, it⟩ := ih (by omega)
    rw [List.range_succ, List.foldl_append, List.foldl_cons, List.foldl_nil]
    generalize (List.range k).foldl (alloc_step CURSOR BOTTOM tagpool clos) a0 = a at im ic ib it
    have hkc : k < a.cur.length := by omega
    have hkb : k < a.bot.length := by omega
    refine ⟨?_, ?_, ?_, ?_⟩
    · simp only [alloc_step, maxver_at]
      split_ifs <;> simp only [im] <;> omega
    · simp only [alloc_step]
      split_ifs <;> simp [ic]
    · simp only [alloc_step]
      split_ifs <;> simp [ib]
    · intro t ht
      by_cases e : t = k
      · subst e
        simp only [alloc_step, TAGVER_ZERO]
        split_ifs <;>
          simp [tagAt_set, hkc, hkb, im, List.length_set]
      · have hlt : t < k := by omega
        obtain ⟨c1, c2⟩ := it t hlt
        rw [← c1, ← c2]
        simp only [alloc_step, TAGVER_ZERO]
        split_ifs <;> simp [tagAt_set, e]

theorem maxver_at_count (CURSOR BOTTOM : Int) (tagpool : Tagpool) (clos : List clos_t)
    (maxver : Int) (k : Nat) :
    maxver_at CURSOR BOTTOM tagpool clos maxver k =
      maxver + (((List.range k).filter (fun t => has_ttran tagpool clos t CURSOR)).length : Int)
        + (((List.range k).filter (fun t => has_ttran tagpool clos t BOTTOM)).length : Int) := by
  induction k with
  | zero => simp [maxver_at]
  | succ k ih =>
    simp only [maxver_at, ih, List.range_succ, List.filter_append, List.length_append,
      List.filter_cons, List.filter_nil]
    split_ifs <;> simp <;> omega

theorem tagAt_take (l : List Int) (n t : Nat) (h : t < n) : tagAt (l.take n) t = tagAt l t := by
  unfold tagAt
  simp [List.getD_eq_getElem?_getD, List.getElem?_take, h]


/-- The version vectors and the counter that `merge_transition_tags` leaves, tag by tag. -/
theorem merge_transition_tags_alloc (CURSOR BOTTOM : Int) (clos : List clos_t)
    (tagpool : Tagpool) (maxver : Int)
    (hb1 : tagpool.buffer1.length = tagpool.ntags)
    (hb2 : tagpool.buffer2.length = tagpool.ntags) :
    (merge_transition_tags CURSOR BOTTOM clos tagpool maxver).maxver =
      maxver_at CURSOR BOTTOM tagpool clos maxver tagpool.ntags ∧
    ∀ t, t < tagpool.ntags →
      tagAt (merge_transition_tags CURSOR BOTTOM clos tagpool maxver).save.cur t =
        (if has_ttran tagpool clos t CURSOR then
          maxver_at CURSOR BOTTOM tagpool clos maxver t + 1 else 0) ∧
      tagAt (merge_transition_tags CURSOR BOTTOM clos tagpool maxver).save.bot t =
        (if has_ttran tagpool clos t BOTTOM then
          -(maxver_at CURSOR BOTTOM tagpool clos maxver t
            + (if has_ttran tagpool clos t CURSOR then 1 else 0) + 1) else 0) := by
  obtain ⟨hm, -, -, ht⟩ := alloc_fold CURSOR BOTTOM tagpool clos
    ⟨tagpool.buffer1, tagpool.buffer2, maxver⟩ tagpool.ntags hb1 hb2 tagpool.ntags (le_refl _)
  refine ⟨hm, ?_⟩
  intro t hlt
  simp only [merge_transition_tags, conv_to_save, alloc_versions]
  rw [tagAt_take _ _ _ hlt, tagAt_take _ _ _ hlt]
  exact ht t hlt

theorem maxver_at_step_le (CURSOR BOTTOM : Int) (tagpool : Tagpool) (clos : List clos_t)
    (maxver : Int) (t1 t2 : Nat) (h : t1 < t2) :
    maxver_at CURSOR BOTTOM tagpool clos maxver t1
      + (if has_ttran tagpool clos t1 CURSOR then 1 else 0)
      + (if has_ttran tagpool clos t1 BOTTOM then 1 else 0) ≤
        maxver_at CURSOR BOTTOM tagpool clos maxver t2 := by
  have := maxver_at_mono CURSOR BOTTOM tagpool clos maxver (t1 + 1) t2 h
  simpa only [maxver_at] using this

/-- C7 (amended): for a starting `maxver` that is not negative and scratch buffers of
length `ntags`.  For each tag, `cur[t]` is positive exactly when some item has
`ttran[t] = CURSOR` and is `ZERO` otherwise, `bot[t]` is negative exactly when some item
has `ttran[t] = BOTTOM` and is `ZERO` otherwise; the absolute values of the entries that
are not `ZERO` are greater than the starting `maxver` and pairwise different; and
`maxver` grows by the number of such entries. -/
theorem merge_transition_tags_versions (CURSOR BOTTOM : Int) (clos : List clos_t)
    (tagpool : Tagpool) (maxver : Int) (hm : 0 ≤ maxver)
    (hb1 : tagpool.buffer1.length = tagpool.ntags)
    (hb2 : tagpool.buffer2.length = tagpool.ntags) :
    (∀ t, t < tagpool.ntags →
      (0 < tagAt (merge_transition_tags CURSOR BOTTOM clos tagpool maxver).save.cur t ↔
        has_ttran tagpool clos t CURSOR = true) ∧
      (has_ttran tagpool clos t CURSOR = false →
        tagAt (merge_transition_tags CURSOR BOTTOM clos tagpool maxver).save.cur t
          = TAGVER_ZERO) ∧
      (tagAt (merge_transition_tags CURSOR BOTTOM clos tagpool maxver).save.bot t < 0 ↔
        has_ttran tagpool clos t BOTTOM = true) ∧
      (has_ttran tagpool clos t BOTTOM = false →
        tagAt (merge_transition_tags CURSOR BOTTOM clos tagpool maxver).save.bot t
          = TAGVER_ZERO)) ∧
    (∀ t, t < tagpool.ntags →
      (tagAt (merge_transition_tags CURSOR BOTTOM clos tagpool maxver).save.cur t ≠ TAGVER_ZERO →
        maxver < tagAt (merge_transition_tags CURSOR BOTTOM clos tagpool maxver).save.cur t) ∧
      (tagAt (merge_transition_tags CURSOR BOTTOM clos tagpool maxver).save.bot t ≠ TAGVER_ZERO →
        maxver < -tagAt (merge_transition_tags CURSOR BOTTOM clos tagpool maxver).save.bot t)) ∧
    (∀ t1, t1 < tagpool.ntags → ∀ t2, t2 < tagpool.ntags →
      (tagAt (merge_transition_tags CURSOR BOTTOM clos tagpool maxver).save.cur t1 ≠ TAGVER_ZERO →
        (tagAt (merge_transition_tags CURSOR BOTTOM clos tagpool maxver).save.cur t1).natAbs =
          (tagAt (merge_transition_tags CURSOR BOTTOM clos tagpool maxver).save.cur t2).natAbs →
        t1 = t2) ∧
      (tagAt (merge_transition_tags CURSOR BOTTOM clos tagpool maxver).save.bot t1 ≠ TAGVER_ZERO →
        (tagAt (merge_transition_tags CURSOR BOTTOM clos tagpool maxver).save.bot t1).natAbs =
          (tagAt (merge_transition_tags CURSOR BOTTOM clos tagpool maxver).save.bot t2).natAbs →
        t1 = t2) ∧
      (tagAt (merge_transition_tags CURSOR BOTTOM clos tagpool maxver).save.cur t1 ≠ TAGVER_ZERO →
        (tagAt (merge_transition_tags CURSOR BOTTOM clos tagpool maxver).save.cur t1).natAbs ≠
          (tagAt (merge_transition_tags CURSOR BOTTOM clos tagpool maxver).save.bot t2).natAbs)) ∧
    (merge_transition_tags CURSOR BOTTOM clos tagpool maxver).maxver =
      maxver
        + (count_nonzero (merge_transition_tags CURSOR BOTTOM clos tagpool maxver).save.cur
            tagpool.ntags : Int)
        + (count_nonzero (merge_transition_tags CURSOR BOTTOM clos tagpool maxver).save.bot
            tagpool.ntags : Int) ∧
    maxver ≤ (merge_transition_tags CURSOR BOTTOM clos tagpool maxver).maxver := by
  obtain ⟨hmx, hat⟩ := merge_transition_tags_alloc CURSOR BOTTOM clos tagpool maxver hb1 hb2
  have hge : ∀ t, maxver ≤ maxver_at CURSOR BOTTOM tagpool clos maxver t := fun t =>
    maxver_at_mono CURSOR BOTTOM tagpool clos maxver 0 t (Nat.zero_le _)
  refine ⟨?_, ?_, ?_, ?_, ?_⟩
  · intro t ht
    obtain ⟨c, b⟩ := hat t ht
    have := hge t
    rw [c, b]
    simp only [TAGVER_ZERO]
    refine ⟨?_, ?_, ?_, ?_⟩
    · split_ifs with h1 <;> (simp [h1]; all_goals omega)
    · intro h; simp [h]
    · split_ifs with h1 h2 <;> simp [h1] <;> omega
    · intro h; simp [h]
  · intro t ht
    obtain ⟨c, b⟩ := hat t ht
    have := hge t
    rw [c, b]
    simp only [TAGVER_ZERO]
    constructor
    · split_ifs <;> intro h <;> omega
    · split_ifs <;> intro h <;> omega
  · intro t1 h1 t2 h2
    obtain ⟨c1, b1⟩ := hat t1 h1
    obtain ⟨c2, b2⟩ := hat t2 h2
    have g1 := hge t1
    have g2 := hge t2
    have s12 : t1 < t2 → _ := maxver_at_step_le CURSOR BOTTOM tagpool clos maxver t1 t2
    have s21 : t2 < t1 → _ := maxver_at_step_le CURSOR BOTTOM tagpool clos maxver t2 t1
    rw [c1, c2, b1, b2]
    simp only [TAGVER_ZERO]
    refine ⟨?_, ?_, ?_⟩
    · intro hne heq
      rcases Nat.lt_trichotomy t1 t2 with h | h | h
      · have := s12 h
        split_ifs at hne heq this <;> omega
      · exact h
      · have := s21 h
        split_ifs at hne heq this <;> omega
    · intro hne heq
      rcases Nat.lt_trichotomy t1 t2 with h | h | h
      · have := s12 h
        split_ifs at hne heq this <;> omega
      · exact h
      · have := s21 h
        split_ifs at hne heq this <;> omega
    · intro hne heq
      rcases Nat.lt_trichotomy t1 t2 with h | h | h
      · have := s12 h
        split_ifs at hne heq this <;> omega
      · subst h
        split_ifs at hne heq <;> omega
      · have := s21 h
        split_ifs at hne heq this <;> omega
  · rw [hmx, maxver_at_count]
    unfold count_nonzero
    have e1 : (List.range tagpool.ntags).filter (fun t => decide
        (tagAt (merge_transition_tags CURSOR BOTTOM clos tagpool maxver).save.cur t
          ≠ TAGVER_ZERO)) =
        (List.range tagpool.ntags).filter (fun t => has_ttran tagpool clos t CURSOR) := by
      apply List.filter_congr
      intro t ht
      have ht' := List.mem_range.1 ht
      have := hge t
      rw [(hat t ht').1]
      simp only [TAGVER_ZERO]
      cases hh : has_ttran tagpool clos t CURSOR <;> (simp; all_goals omega)
    have e2 : (List.range tagpool.ntags).filter (fun t => decide
        (tagAt (merge_transition_tags CURSOR BOTTOM clos tagpool maxver).save.bot t
          ≠ TAGVER_ZERO)) =
        (List.range tagpool.ntags).filter (fun t => has_ttran tagpool clos t BOTTOM) := by
      apply List.filter_congr
      intro t ht
      have ht' := List.mem_range.1 ht
      have := hge t
      rw [(hat t ht').2]
      simp only [TAGVER_ZERO]
      cases hh : has_ttran tagpool clos t BOTTOM <;> (simp; all_goals (split_ifs <;> omega))
    rw [e1, e2]
  · rw [hmx]
    exact hge _

/-- C7 (amended) with `maxver = 3` and one item whose `ttran[0]` is `CURSOR`. -/
theorem merge_transition_tags_versions_witness :
    tagAt (merge_transition_tags 5 (-5) closCursor poolCursor 3).save.cur 0 = 4 ∧
    (0 < tagAt (merge_transition_tags 5 (-5) closCursor poolCursor 3).save.cur 0 ↔
      has_ttran poolCursor closCursor 0 5 = true) ∧
    (merge_transition_tags 5 (-5) closCursor poolCursor 3).maxver = 4 := by
  refine ⟨by decide, ?_, by decide⟩
  exact ((merge_transition_tags_versions 5 (-5) closCursor poolCursor 3 (by decide) (by decide)
    (by decide)).1 0 (by decide)).1

/-- C7 as stated fails for the starting value `maxver = -1`: an item has
`ttran[0] = CURSOR` but `cur[0]` is `++maxver = 0`, not a positive version, and `maxver`
grows although no entry differs from `ZERO`. -/
theorem merge_transition_tags_negative_maxver_counterexample :
    has_ttran poolCursor closCursor 0 5 = true ∧
    ¬ (0 < tagAt (merge_transition_tags 5 (-5) closCursor poolCursor (-1)).save.cur 0) ∧
    (merge_transition_tags 5 (-5) closCursor poolCursor (-1)).maxver = 0 ∧
    count_nonzero (merge_transition_tags 5 (-5) closCursor poolCursor (-1)).save.cur 1 = 0 := by
  decide


theorem poolExt_refl (p : Tagpool) : PoolExt p p := ⟨rfl, [], by simp⟩

theorem poolExt_trans {p q r : Tagpool} (h1 : PoolExt p q) (h2 : PoolExt q r) : PoolExt p r := by
  obtain ⟨n1, e1, he1⟩ := h1
  obtain ⟨n2, e2, he2⟩ := h2
  exact ⟨n2.trans n1, e1 ++ e2, by rw [he2, he1, List.append_assoc]⟩

theorem poolExt_lookup {p q : Tagpool} (h : PoolExt p q) (i : Nat) (hi : i < p.vecs.length) :
    q.lookup i = p.lookup i := by
  obtain ⟨-, ext, he⟩ := h
  unfold Tagpool.lookup
  rw [he]
  simp [List.getD_eq_getElem?_getD, List.getElem?_append_left hi]

theorem poolExt_length {p q : Tagpool} (h : PoolExt p q) : p.vecs.length ≤ q.vecs.length := by
  obtain ⟨-, ext, he⟩ := h
  rw [he, List.length_append]
  omega

theorem find_vec_getD (v : List Int) (vecs : List (List Int))
    (h : find_vec v vecs < vecs.length) : vecs.getD (find_vec v vecs) [] = v := by
  induction vecs with
  | nil => simp at h
  | cons x xs ih =>
    unfold find_vec at h ⊢
    by_cases e : x = v
    · simp [e]
    · rw [if_neg e] at h ⊢
      simp only [List.length_cons, Nat.add_lt_add_iff_right] at h
      simpa using ih h

/-- Interning: the pool only grows, the handle is a handle of the new pool, and it
resolves to the vector that was interned (`lookup(insert(v)) = v`). -/
theorem insert_spec (p : Tagpool) (tags : List Int) :
    PoolExt p (p.insert tags).1 ∧
    (p.insert tags).2 < (p.insert tags).1.vecs.length ∧
    (p.insert tags).1.lookup (p.insert tags).2 = tags.take p.ntags ∧
    (p.insert tags).1.buffer3 = p.buffer3 := by
  unfold Tagpool.insert
  simp only
  by_cases h : find_vec (tags.take p.ntags) p.vecs < p.vecs.length
  · rw [if_pos h]
    exact ⟨poolExt_refl p, h, find_vec_getD _ _ h, rfl⟩
  · rw [if_neg h]
    refine ⟨⟨rfl, [tags.take p.ntags], rfl⟩, by simp, ?_, rfl⟩
    unfold Tagpool.lookup
    simp [List.getD_eq_getElem?_getD]

/-- The `switch` loop fills every slot below `ntag` when `tran` only holds the three
reserved values. -/
theorem apply_tran_spec (CURSOR BOTTOM : Int) (tran ver0 cur bot : List Int) (ntag : Nat)
    (ver : List Int) (hlen : ntag ≤ ver.length)
    (halpha : ∀ t, t < ntag →
      tagAt tran t = TAGVER_ZERO ∨ tagAt tran t = CURSOR ∨ tagAt tran t = BOTTOM)
    (hcb : CURSOR ≠ BOTTOM) :
    (apply_tran CURSOR BOTTOM tran ver0 cur bot ntag ver).length = ver.length ∧
    ∀ t, t < ntag →
      tagAt (apply_tran CURSOR BOTTOM tran ver0 cur bot ntag ver) t =
        if tagAt tran t = TAGVER_ZERO then tagAt ver0 t
        else if tagAt tran t = CURSOR then tagAt cur t
        else tagAt bot t := by
  unfold apply_tran
  have key : ∀ k, k ≤ ntag →
      ((List.range k).foldl
        (fun v t =>
          if tagAt tran t = TAGVER_ZERO then v.set t (tagAt ver0 t)
          else if tagAt tran t = CURSOR then v.set t (tagAt cur t)
          else if tagAt tran t = BOTTOM then v.set t (tagAt bot t)
          else v) ver).length = ver.length ∧
      ∀ t, t < k →
        tagAt ((List.range k).foldl
          (fun v t =>
            if tagAt tran t = TAGVER_ZERO then v.set t (tagAt ver0 t)
            else if tagAt tran t = CURSOR then v.set t (tagAt cur t)
            else if tagAt tran t = BOTTOM then v.set t (tagAt bot t)
            else v) ver) t =
          if tagAt tran t = TAGVER_ZERO then tagAt ver0 t
          else if tagAt tran t = CURSOR then tagAt cur t
          else tagAt bot t := by
    intro k
    induction k with
    | zero =>
      intro _
      exact ⟨rfl, fun t ht => by omega⟩
    | succ k ih =>
      intro hk
      obtain ⟨il, it⟩ := ih (by omega)
      rw [List.range_succ, List.foldl_append, List.foldl_cons, List.foldl_nil]
      generalize (List.range k).foldl _ ver = v at il it
      have hkv : k < v.length := by omega
      constructor
      · split_ifs <;> simp [il]
      · intro t ht
        by_cases e : t = k
        · subst e
          rcases halpha t (by omega) with h | h | h
          · simp [h, tagAt_set, hkv]
          · by_cases hz : CURSOR = TAGVER_ZERO
            · simp [h, hz, tagAt_set, hkv]
            · simp [h, hz, tagAt_set, hkv]
          · by_cases hz : BOTTOM = TAGVER_ZERO
            · simp [h, hz, tagAt_set, hkv]
            · have hcb' : ¬ BOTTOM = CURSOR := fun e => hcb e.symm
              simp [h, hz, hcb', tagAt_set, hkv]
        · have := it t (by omega)
          rw [← this]
          split_ifs <;> simp [tagAt_set, e]
  exact key ntag (le_refl _)


theorem apply_items_spec (CURSOR BOTTOM : Int) (cur bot : List Int) (p0 : Tagpool)
    (hcz : CURSOR ≠ TAGVER_ZERO) (hbz : BOTTOM ≠ TAGVER_ZERO) (hcb : CURSOR ≠ BOTTOM)
    (hz : ∀ t, t < p0.ntags → tagAt (p0.lookup ZERO_TAGS) t = TAGVER_ZERO)
    (cs : List clos_t) (p : Tagpool) (hext : PoolExt p0 p)
    (hb3 : p.buffer3.length = p.ntags)
    (hvalid : HandlesValid p0 cs) (halpha : TtranAlphabet CURSOR BOTTOM p0 cs) :
    PoolExt p (apply_items CURSOR BOTTOM cur bot p cs).1 ∧
    List.Forall₂ (MergedItem CURSOR BOTTOM p0 cur bot (apply_items CURSOR BOTTOM cur bot p cs).1)
      cs (apply_items CURSOR BOTTOM cur bot p cs).2 := by
  induction cs generalizing p with
  | nil => exact ⟨poolExt_refl p, List.Forall₂.nil⟩
  | cons c cs ih =>
    have hv' : HandlesValid p0 cs := fun c' hc' => hvalid c' (List.mem_cons_of_mem _ hc')
    have ha' : TtranAlphabet CURSOR BOTTOM p0 cs :=
      fun c' hc' => halpha c' (List.mem_cons_of_mem _ hc')
    obtain ⟨hvt, hvr⟩ := hvalid c (List.mem_cons_self _ _)
    have hac := halpha c (List.mem_cons_self _ _)
    have hn : p.ntags = p0.ntags := hext.1
    rw [apply_items]
    by_cases h : c.ttran = ZERO_TAGS
    · rw [if_pos h]
      obtain ⟨he, hf⟩ := ih p hext hb3 hv' ha'
      refine ⟨he, List.Forall₂.cons ⟨rfl, rfl, rfl, rfl, fun _ => rfl, ?_⟩ hf⟩
      intro t ht
      have hl : (apply_items CURSOR BOTTOM cur bot p cs).1.lookup c.tvers = p0.lookup c.tvers :=
        poolExt_lookup (poolExt_trans hext he) _ hvt
      have hzt := hz t ht
      rw [← h] at hzt
      rw [hl]
      refine ⟨fun _ => rfl, fun hc => ?_, fun hb => ?_⟩
      · rw [hzt] at hc; exact absurd hc.symm hcz
      · rw [hzt] at hb; exact absurd hb.symm hbz
    · rw [if_neg h]
      simp only
      have hlt : p.lookup c.ttran = p0.lookup c.ttran := poolExt_lookup hext _ hvr
      have hlv : p.lookup c.tvers = p0.lookup c.tvers := poolExt_lookup hext _ hvt
      obtain ⟨vl, vt⟩ := apply_tran_spec CURSOR BOTTOM (p.lookup c.ttran) (p.lookup c.tvers)
        cur bot p.ntags p.buffer3 (by omega)
        (by intro t ht; rw [hlt]; exact hac t (by omega)) hcb
      generalize hver : apply_tran CURSOR BOTTOM (p.lookup c.ttran) (p.lookup c.tvers)
        cur bot p.ntags p.buffer3 = ver at vl vt
      obtain ⟨ie, il, ik, ib⟩ := insert_spec ({ p with buffer3 := ver } : Tagpool) ver
      generalize hins : ({ p with buffer3 := ver } : Tagpool).insert ver = ins at ie il ik ib
      have hpe : PoolExt p ins.1 := ⟨ie.1, ie.2⟩
      obtain ⟨he, hf⟩ := ih ins.1 (poolExt_trans hext hpe)
        (by rw [ib, hpe.1]; simp only; omega) hv' ha'
      refine ⟨poolExt_trans hpe he, List.Forall₂.cons ⟨rfl, rfl, rfl, rfl, fun e => absurd e h, ?_⟩
        hf⟩
      intro t ht
      have hl : (apply_items CURSOR BOTTOM cur bot ins.1 cs).1.lookup ins.2 = ins.1.lookup ins.2 :=
        poolExt_lookup he _ il
      simp only [hl, ik]
      rw [tagAt_take _ _ _ (by omega), vt t (by omega), hlt, hlv]
      refine ⟨fun e => ?_, fun e => ?_, fun e => ?_⟩
      · rw [if_pos e]
      · rw [if_neg (by rw [e]; exact hcz), if_pos e]
      · rw [if_neg (by rw [e]; exact hbz), if_neg (by rw [e]; exact fun x => hcb x.symm)]

/-- C8: when the `ttran` vectors only hold `ZERO`, `CURSOR` and `BOTTOM` (three different
values), the handles of the items are handles of the pool, `ZERO_TAGS` is the all-`ZERO`
vector and the scratch vector has length `ntags`: `merge_transition_tags` keeps the items
in order, with `state`, `origin`, `ttran` and `tlook` unchanged; an item with
`ttran = ZERO_TAGS` keeps its `tvers` handle; and slot by slot the new `tvers` is the old
version for `ZERO`, `cur[t]` for `CURSOR` and `bot[t]` for `BOTTOM`. -/
theorem merge_transition_tags_items (CURSOR BOTTOM : Int) (clos : List clos_t)
    (tagpool : Tagpool) (maxver : Int)
    (hcz : CURSOR ≠ TAGVER_ZERO) (hbz : BOTTOM ≠ TAGVER_ZERO) (hcb : CURSOR ≠ BOTTOM)
    (halpha : TtranAlphabet CURSOR BOTTOM tagpool clos)
    (hvalid : HandlesValid tagpool clos)
    (hz : ∀ t, t < tagpool.ntags → tagAt (tagpool.lookup ZERO_TAGS) t = TAGVER_ZERO)
    (hb3 : tagpool.buffer3.length = tagpool.ntags) :
    List.Forall₂
      (MergedItem CURSOR BOTTOM tagpool
        (merge_transition_tags CURSOR BOTTOM clos tagpool maxver).save.cur
        (merge_transition_tags CURSOR BOTTOM clos tagpool maxver).save.bot
        (merge_transition_tags CURSOR BOTTOM clos tagpool maxver).tagpool)
      clos (merge_transition_tags CURSOR BOTTOM clos tagpool maxver).clos := by
  simp only [merge_transition_tags, conv_to_save]
  generalize alloc_versions CURSOR BOTTOM tagpool clos
    ⟨tagpool.buffer1, tagpool.buffer2, maxver⟩ = a
  obtain ⟨-, hf⟩ := apply_items_spec CURSOR BOTTOM a.cur a.bot tagpool hcz hbz hcb hz clos
    ({ tagpool with buffer1 := a.cur, buffer2 := a.bot } : Tagpool) ⟨rfl, [], by simp⟩ hb3
    hvalid halpha
  refine List.Forall₂.imp ?_ hf
  rintro c c' ⟨h1, h2, h3, h4, h5, h6⟩
  refine ⟨h1, h2, h3, h4, h5, ?_⟩
  intro t ht
  rw [tagAt_take _ _ _ ht, tagAt_take _ _ _ ht]
  exact h6 t ht

/-- C8 on two items, one with `ttran = [CURSOR, BOTTOM]` and one with `ZERO_TAGS`. -/
theorem merge_transition_tags_items_witness :
    TtranAlphabet 5 (-5) poolMerge closMerge ∧ HandlesValid poolMerge closMerge ∧
    (merge_transition_tags 5 (-5) closMerge poolMerge 7).save = ⟨[0, -9], [8, 0]⟩ ∧
    ((merge_transition_tags 5 (-5) closMerge poolMerge 7).clos.map
      (fun c => (merge_transition_tags 5 (-5) closMerge poolMerge 7).tagpool.lookup c.tvers))
      = [[8, -9], [3, 2]] ∧
    List.Forall₂
      (MergedItem 5 (-5) poolMerge
        (merge_transition_tags 5 (-5) closMerge poolMerge 7).save.cur
        (merge_transition_tags 5 (-5) closMerge poolMerge 7).save.bot
        (merge_transition_tags 5 (-5) closMerge poolMerge 7).tagpool)
      closMerge (merge_transition_tags 5 (-5) closMerge poolMerge 7).clos :=
  ⟨by decide, by decide, by decide, by decide,
    merge_transition_tags_items 5 (-5) closMerge poolMerge 7 (by decide) (by decide) (by decide)
      (by decide) (by decide) (by decide) (by decide)⟩


theorem max_size_lt : MAX_SIZE < 2 ^ 32 := by decide

theorem all_loop_bound
    (call : List SkeletonState → Nat → Nat → Nat → Option (Nat × List SkeletonState))
    (count len : Nat) (es : List (Nat × List Nat)) (sk : List SkeletonState) (result : Nat)
    (r : Nat × List SkeletonState) (hres : result < MAX_SIZE)
    (h : all_loop call count len es sk result = some r) : r.1 ≤ MAX_SIZE := by
  induction es generalizing sk result with
  | nil =>
    simp only [all_loop, Option.some.injEq] at h
    subst h
    have := max_size_lt
    simp only
    rw [Nat.mod_eq_of_lt (by omega)]
    omega
  | cons e es ih =>
    rw [all_loop] at h
    simp only at h
    split at h
    · cases h
      exact le_refl _
    · split at h
      · cases h
      · split at h
        · cases h
          exact le_refl _
        · rename_i hlt
          exact ih _ _ (by omega) h

theorem cover_loop_bound
    (call : List SkeletonState → Nat → Nat → Nat → Option (Nat × List SkeletonState))
    (go : List (Nat × List Nat)) (s count len : Nat) (rounds idx : Nat) (wrapped : Bool)
    (c : Nat) (sk : List SkeletonState) (result : Nat) (r : Nat × List SkeletonState)
    (hres : result ≤ MAX_SIZE)
    (h : cover_loop call go s count len rounds idx wrapped c sk result = some r) :
    r.1 ≤ MAX_SIZE := by
  induction rounds generalizing idx wrapped c sk result with
  | zero => simp [cover_loop] at h
  | succ rounds ih =>
    rw [cover_loop] at h
    split at h
    · cases h
      have := max_size_lt
      simp only
      rw [Nat.mod_eq_of_lt (by omega)]
      exact hres
    · split at h
      · cases h
      · simp only at h
        split at h
        · cases h
        · split at h
          · cases h
            exact le_refl _
          · rename_i hlt
            split at h
            · exact ih _ _ _ _ _ (by omega) h
            · exact ih _ _ _ _ _ (by omega) h

theorem estimate_size_all_value (fuel : Nat) (sk : List SkeletonState) (s count len : Nat)
    (st : SkeletonState) (r : Nat × List SkeletonState) (hs : sk[s]? = some st)
    (h : estimate_size_all fuel sk s count len = some r) :
    (st.is_end = false → r.1 ≤ MAX_SIZE) ∧
    (st.is_end = true → r.1 = count * len % 2 ^ 32) := by
  cases fuel with
  | zero => simp [estimate_size_all] at h
  | succ fuel =>
    rw [estimate_size_all] at h
    simp only [hs] at h
    cases he : st.is_end with
    | true =>
      simp only [he, if_true, Option.some.injEq] at h
      subst h
      exact ⟨fun x => (by cases x), fun _ => rfl⟩
    | false =>
      simp only [he, Bool.false_eq_true, if_false] at h
      refine ⟨fun _ => ?_, fun x => (by cases x)⟩
      by_cases hv : st.visited < 2
      · rw [if_pos hv] at h
        simp only [Option.map_eq_some'] at h
        obtain ⟨a, h1, h2⟩ := h
        subst h2
        exact all_loop_bound _ _ _ _ _ _ a (by decide) h1
      · rw [if_neg hv] at h
        cases h
        exact Nat.zero_le _

theorem estimate_size_cover_value (fuel : Nat) (sk : List SkeletonState) (s count len : Nat)
    (st : SkeletonState) (r : Nat × List SkeletonState) (hs : sk[s]? = some st)
    (h : estimate_size_cover fuel sk s count len = some r) :
    (st.path_len = INVALID_PATH_LEN → r.1 ≤ MAX_SIZE) ∧
    (st.path_len ≠ INVALID_PATH_LEN →
      r.1 = count * ((len + st.path_len) % 2 ^ 32) % 2 ^ 32) := by
  cases fuel with
  | zero => simp [estimate_size_cover] at h
  | succ fuel =>
    rw [estimate_size_cover] at h
    simp only [hs] at h
    by_cases hp : st.path_len ≠ INVALID_PATH_LEN
    · rw [if_pos hp] at h
      cases h
      exact ⟨fun x => absurd x hp, fun _ => rfl⟩
    · rw [if_neg hp] at h
      refine ⟨fun _ => ?_, fun x => absurd x hp⟩
      by_cases hv : st.visited < 2
      · rw [if_pos hv] at h
        simp only [Option.map_eq_some'] at h
        obtain ⟨a, h1, h2⟩ := h
        subst h2
        exact cover_loop_bound _ _ _ _ _ _ _ _ _ _ _ a (by decide) h1
      · rw [if_neg hv] at h
        cases h
        exact Nat.zero_le _


theorem total_chars_append (a b : List Path) :
    total_chars (a ++ b) = total_chars a + total_chars b := by
  simp [total_chars]

theorem path_update_chars (p : Path) (rule : Nat) : (p.update rule).chars = p.chars := by
  unfold Path.update
  split_ifs <;> rfl

theorem total_chars_update (prefixes : List Path) (rule : Nat) :
    total_chars (prefixes.map (fun p => p.update rule)) = total_chars prefixes := by
  induction prefixes with
  | nil => rfl
  | cons p ps ih =>
    simp only [total_chars, List.map_cons, List.sum_cons] at ih ⊢
    rw [ih, path_update_chars]

theorem extend_row (rule : Nat) (p : Path) (chars : List Nat) :
    (chars.map (fun c => p.extend rule c)).length = chars.length ∧
    total_chars (chars.map (fun c => p.extend rule c)) = chars.length * (p.chars.length + 1) := by
  induction chars with
  | nil => simp [total_chars]
  | cons c cs ih =>
    obtain ⟨-, h2⟩ := ih
    refine ⟨by simp, ?_⟩
    simp only [total_chars, List.map_cons, List.sum_cons, List.length_cons] at h2 ⊢
    rw [h2]
    simp only [Path.extend, path_update_chars, List.length_append, List.length_singleton]
    ring

theorem extend_all_size (rule : Nat) (prefixes : List Path) (chars : List Nat) :
    (extend_all rule prefixes chars).length = prefixes.length * chars.length ∧
    total_chars (extend_all rule prefixes chars) =
      chars.length * (total_chars prefixes + prefixes.length) := by
  induction prefixes with
  | nil => simp [extend_all, total_chars]
  | cons p ps ih =>
    obtain ⟨h1, h2⟩ := ih
    obtain ⟨r1, r2⟩ := extend_row rule p chars
    unfold extend_all at h1 h2 ⊢
    rw [List.flatMap_cons, List.length_append, total_chars_append, h1, h2, r1, r2]
    constructor
    · simp only [List.length_cons]; ring
    · simp only [total_chars, List.map_cons, List.sum_cons, List.length_cons]; ring

theorem gen_all_loop_size
    (gcall : List SkeletonState → Nat → List Path → List Path →
      Option (List Path × List SkeletonState))
    (scall : List SkeletonState → Nat → Nat → Nat → Option (Nat × List SkeletonState))
    (hcall : ∀ sk s prefixes results,
      (gcall sk s prefixes results).map (fun r => (total_chars r.1, r.2)) =
        (scall sk s prefixes.length (total_chars prefixes)).map
          (fun r => (total_chars results + r.1, r.2)))
    (rule : Nat) (prefixes : List Path) (es : List (Nat × List Nat)) (sk : List SkeletonState)
    (results : List Path) (acc : Nat) :
    (gen_all_loop gcall rule prefixes es sk results).map (fun r => (total_chars r.1, r.2)) =
      (gen_size_loop scall prefixes.length (total_chars prefixes) es sk acc).map
        (fun r => (total_chars results + (r.1 - acc), r.2)) ∧
    ∀ r, gen_size_loop scall prefixes.length (total_chars prefixes) es sk acc = some r →
      acc ≤ r.1 := by
  induction es generalizing sk results acc with
  | nil => simp [gen_all_loop, gen_size_loop]
  | cons e es ih =>
    obtain ⟨l1, l2⟩ := extend_all_size rule prefixes e.2
    have hc := hcall sk e.1 (extend_all rule prefixes e.2) results
    rw [l1, l2] at hc
    rw [gen_all_loop, gen_size_loop]
    cases hg : gcall sk e.1 (extend_all rule prefixes e.2) results with
    | none =>
      rw [hg] at hc
      cases hs : scall sk e.1 (prefixes.length * e.2.length)
          (e.2.length * (total_chars prefixes + prefixes.length)) with
      | none => simp
      | some x => rw [hs] at hc; simp at hc
    | some g =>
      rw [hg] at hc
      cases hs : scall sk e.1 (prefixes.length * e.2.length)
          (e.2.length * (total_chars prefixes + prefixes.length)) with
      | none => rw [hs] at hc; simp at hc
      | some x =>
        rw [hs] at hc
        simp only [Option.map_some', Option.some.injEq, Prod.mk.injEq] at hc
        obtain ⟨hc1, hc2⟩ := hc
        simp only
        obtain ⟨i1, i2⟩ := ih g.2 g.1 (acc + x.1)
        rw [hc2] at i1 i2 ⊢
        constructor
        · rw [i1, hc1]
          cases hl : gen_size_loop scall prefixes.length (total_chars prefixes) es x.2
              (acc + x.1) with
          | none => rfl
          | some y =>
            have := i2 y hl
            simp only [Option.map_some', Option.some.injEq, Prod.mk.injEq, and_true]
            omega
        · intro r hr
          have := i2 r hr
          omega

/-- The characters emitted by `generate_paths_all` are counted by `gen_size`. -/
theorem generate_paths_all_size (fuel : Nat) (sk : List SkeletonState) (s : Nat)
    (prefixes results : List Path) :
    (generate_paths_all fuel sk s prefixes results).map (fun r => (total_chars r.1, r.2)) =
      (gen_size fuel sk s prefixes.length (total_chars prefixes)).map
        (fun r => (total_chars results + r.1, r.2)) := by
  induction fuel generalizing sk s prefixes results with
  | zero => simp [generate_paths_all, gen_size]
  | succ fuel ih =>
    rw [generate_paths_all, gen_size]
    cases hs : sk[s]? with
    | none => simp
    | some st =>
      simp only
      by_cases he : st.is_end = true
      · simp [he, total_chars_append, total_chars_update]
      · simp only [he, if_false]
        by_cases hv : st.visited < 2
        · simp only [hv, if_true, Option.map_map]
          obtain ⟨h1, -⟩ := gen_all_loop_size (generate_paths_all fuel) (gen_size fuel) ih
            st.rule prefixes st.go (visit_inc sk s) results 0
          cases hg : gen_all_loop (generate_paths_all fuel) st.rule prefixes st.go
              (visit_inc sk s) results with
          | none =>
            rw [hg] at h1
            cases hl : gen_size_loop (gen_size fuel) prefixes.length (total_chars prefixes) st.go
                (visit_inc sk s) 0 with
            | none => simp
            | some y => rw [hl] at h1; simp at h1
          | some g =>
            rw [hg] at h1
            cases hl : gen_size_loop (gen_size fuel) prefixes.length (total_chars prefixes) st.go
                (visit_inc sk s) 0 with
            | none => rw [hl] at h1; simp at h1
            | some y =>
              rw [hl] at h1
              simp only [Option.map_some', Option.some.injEq, Prod.mk.injEq, Nat.sub_zero] at h1
              simp [h1.1, h1.2]
        · simp [hv]


theorem visit_inc_length (sk : List SkeletonState) (s : Nat) :
    (visit_inc sk s).length = sk.length := by
  unfold visit_inc
  cases h : sk[s]? <;> simp

theorem visit_dec_inc (sk : List SkeletonState) (s : Nat) :
    visit_dec (visit_inc sk s) s = sk := by
  induction sk generalizing s with
  | nil => simp [visit_inc, visit_dec]
  | cons a rest ih =>
    cases s with
    | zero => simp [visit_inc, visit_dec]
    | succ n =>
      have := ih n
      unfold visit_inc visit_dec at this ⊢
      simp only [List.getElem?_cons_succ]
      cases h : rest[n]? with
      | none => simp [h]
      | some s' =>
        simp only [h] at this
        simp only [List.set_cons_succ, List.getElem?_cons_succ]
        cases h2 : (rest.set n { s' with visited := s'.visited + 1 })[n]? with
        | none => simp [h2] at this ⊢; exact this
        | some s'' => simp [h2] at this ⊢; exact this

theorem visit_slack_inc (sk : List SkeletonState) (s : Nat) (st : SkeletonState)
    (h : sk[s]? = some st) (hv : st.visited < 2) :
    visit_slack (visit_inc sk s) + 1 = visit_slack sk := by
  induction sk generalizing s with
  | nil => simp at h
  | cons a rest ih =>
    cases s with
    | zero =>
      simp at h
      subst h
      simp [visit_inc, visit_slack]
      omega
    | succ n =>
      simp only [List.getElem?_cons_succ] at h
      have := ih n h
      unfold visit_inc at this ⊢
      simp only [List.getElem?_cons_succ, h] at this ⊢
      simp only [List.set_cons_succ, visit_slack]
      omega

theorem visit_inc_go (sk : List SkeletonState) (s : Nat) :
    (visit_inc sk s).map (fun st => st.go) = sk.map (fun st => st.go) := by
  induction sk generalizing s with
  | nil => simp [visit_inc]
  | cons a rest ih =>
    cases s with
    | zero => simp [visit_inc]
    | succ n =>
      have := ih n
      unfold visit_inc at this ⊢
      simp only [List.getElem?_cons_succ]
      cases h : rest[n]? with
      | none => simp
      | some s' => simp only [h] at this; simp [this]

theorem skClosed_iff_go (sk : List SkeletonState) :
    SkClosed sk ↔ ∀ g ∈ sk.map (fun st => st.go), ∀ e ∈ g, e.1 < sk.length := by
  simp [SkClosed]

theorem skClosed_visit_inc (sk : List SkeletonState) (s : Nat) (h : SkClosed sk) :
    SkClosed (visit_inc sk s) := by
  rw [skClosed_iff_go] at *
  rw [visit_inc_go, visit_inc_length]
  exact h

theorem all_loop_total
    (call : List SkeletonState → Nat → Nat → Nat → Option (Nat × List SkeletonState))
    (sk : List SkeletonState)
    (hcall : ∀ p c l, p < sk.length → ∃ r, call sk p c l = some r ∧ r.2 = sk)
    (count len : Nat) (es : List (Nat × List Nat)) (hes : ∀ e ∈ es, e.1 < sk.length)
    (result : Nat) :
    ∃ r, all_loop call count len es sk result = some r ∧ r.2 = sk := by
  induction es generalizing result with
  | nil => exact ⟨_, rfl, rfl⟩
  | cons e es ih =>
    rw [all_loop]
    simp only
    split
    · exact ⟨_, rfl, rfl⟩
    · obtain ⟨r1, h1, h2⟩ := hcall e.1 (e.2.length * count % 2 ^ 64 % 2 ^ 32) ((len + 1) % 2 ^ 32)
        (hes e (List.mem_cons_self _ _))
      simp only [h1]
      split
      · exact ⟨_, rfl, h2⟩
      · rw [h2]
        exact ih (fun e' he' => hes e' (List.mem_cons_of_mem _ he')) _

/-- With more fuel than the `visited` counters leave room for, `estimate_size_all`
returns, and the counters are as before the call. -/
theorem estimate_size_all_total (fuel : Nat) (sk : List SkeletonState) (s count len : Nat)
    (hc : SkClosed sk) (hs : s < sk.length) (hf : visit_slack sk < fuel) :
    ∃ r, estimate_size_all fuel sk s count len = some r ∧ r.2 = sk := by
  induction fuel generalizing sk s count len with
  | zero => omega
  | succ fuel ih =>
    obtain ⟨st, hst⟩ : ∃ st, sk[s]? = some st := ⟨sk[s], List.getElem?_eq_getElem hs⟩
    rw [estimate_size_all]
    simp only [hst]
    split
    · exact ⟨_, rfl, rfl⟩
    · split
      · rename_i hv
        have hsl := visit_slack_inc sk s st hst hv
        have hc1 := skClosed_visit_inc sk s hc
        have hlen := visit_inc_length sk s
        have hgo : ∀ e ∈ st.go, e.1 < (visit_inc sk s).length := by
          intro e he
          rw [hlen]
          exact hc st (List.getElem?_mem hst) e he
        obtain ⟨r, h1, h2⟩ := all_loop_total (estimate_size_all fuel) (visit_inc sk s)
          (fun p c l hp => ih (visit_inc sk s) p c l hc1 hp (by omega)) count len st.go hgo 0
        simp only [h1, Option.map_some']
        exact ⟨_, rfl, by simp only [h2, visit_dec_inc]⟩
      · exact ⟨_, rfl, rfl⟩


theorem frame_refl (sk : List SkeletonState) : List.Forall₂ Frame sk sk := by
  induction sk with
  | nil => exact List.Forall₂.nil
  | cons a rest ih => exact List.Forall₂.cons ⟨rfl, rfl, rfl, rfl, fun _ => rfl⟩ ih

theorem frame_trans {x y z : List SkeletonState} (h1 : List.Forall₂ Frame x y)
    (h2 : List.Forall₂ Frame y z) : List.Forall₂ Frame x z := by
  induction h1 generalizing z with
  | nil => cases h2; exact List.Forall₂.nil
  | cons hab _ ih =>
    cases h2 with
    | cons hbc hrest =>
      refine List.Forall₂.cons ?_ (ih hrest)
      obtain ⟨a1, a2, a3, a4, a5⟩ := hab
      obtain ⟨b1, b2, b3, b4, b5⟩ := hbc
      refine ⟨b1.trans a1, b2.trans a2, b3.trans a3, b4.trans a4, fun h => ?_⟩
      have := a5 h
      rw [b5 (by rw [this]; exact h), this]

theorem frame_set (sk : List SkeletonState) (s : Nat) (st st' : SkeletonState)
    (hs : sk[s]? = some st) (hf : Frame st st') : List.Forall₂ Frame sk (sk.set s st') := by
  induction sk generalizing s with
  | nil => simp at hs
  | cons a rest ih =>
    cases s with
    | zero =>
      simp at hs
      subst hs
      exact List.Forall₂.cons hf (frame_refl rest)
    | succ n =>
      simp only [List.getElem?_cons_succ] at hs
      exact List.Forall₂.cons ⟨rfl, rfl, rfl, rfl, fun _ => rfl⟩ (ih n hs)

theorem set_path_len_frame (sk : List SkeletonState) (s p n : Nat) :
    List.Forall₂ Frame sk (set_path_len sk s p n) := by
  unfold set_path_len
  split
  · rename_i st pt hs hp
    split
    · rename_i hc
      exact frame_set sk s st _ hs ⟨rfl, rfl, rfl, rfl, fun h => absurd hc.2 h⟩
    · exact frame_refl sk
  · exact frame_refl sk

/-- Undoing the guard: what is framed against the skeleton with the counter of `s`
raised is, after the counter is lowered again, framed against the skeleton itself. -/
theorem frame_visit_dec (sk x : List SkeletonState) (s : Nat)
    (h : List.Forall₂ Frame (visit_inc sk s) x) : List.Forall₂ Frame sk (visit_dec x s) := by
  induction sk generalizing x s with
  | nil =>
    simp only [visit_inc, List.getElem?_nil] at h
    cases h
    exact List.Forall₂.nil
  | cons a rest ih =>
    cases s with
    | zero =>
      simp only [visit_inc, List.getElem?_cons_zero, List.set_cons_zero] at h
      cases h with
      | cons hab hrest =>
        rename_i b l
        simp only [visit_dec, List.getElem?_cons_zero, List.set_cons_zero]
        refine List.Forall₂.cons ?_ hrest
        obtain ⟨h1, h2, h3, h4, h5⟩ := hab
        exact ⟨h1, h2, by simp only at h3 ⊢; omega, h4, h5⟩
    | succ n =>
      have hinc : visit_inc (a :: rest) (n + 1) = a :: visit_inc rest n := by
        unfold visit_inc
        simp only [List.getElem?_cons_succ]
        cases rest[n]? <;> simp
      rw [hinc] at h
      cases h with
      | cons hab hrest =>
        rename_i b l
        have hdec : visit_dec (b :: l) (n + 1) = b :: visit_dec l n := by
          unfold visit_dec
          simp only [List.getElem?_cons_succ]
          cases l[n]? <;> simp
        rw [hdec]
        exact List.Forall₂.cons hab (ih l n hrest)

theorem cover_loop_frame
    (call : List SkeletonState → Nat → Nat → Nat → Option (Nat × List SkeletonState))
    (hcall : ∀ sk p c l r, call sk p c l = some r → List.Forall₂ Frame sk r.2)
    (go : List (Nat × List Nat)) (s count len : Nat) (rounds idx : Nat) (wrapped : Bool)
    (c : Nat) (sk : List SkeletonState) (result : Nat) (r : Nat × List SkeletonState)
    (h : cover_loop call go s count len rounds idx wrapped c sk result = some r) :
    List.Forall₂ Frame sk r.2 := by
  induction rounds generalizing idx wrapped c sk result with
  | zero => simp [cover_loop] at h
  | succ rounds ih =>
    rw [cover_loop] at h
    split at h
    · cases h
      exact frame_refl sk
    · split at h
      · cases h
      · simp only at h
        split at h
        · cases h
        · rename_i e _ _ r1 hc
          have f1 := hcall _ _ _ _ _ hc
          have f2 := frame_trans f1 (set_path_len_frame r1.2 s e.1 r1.1)
          split at h
          · cases h
            exact f2
          · split at h
            · exact frame_trans f2 (ih _ _ _ _ _ h)
            · exact frame_trans f2 (ih _ _ _ _ _ h)

/-- Whenever `estimate_size_cover` returns, every state has its `go`, `rule`, `visited` and
`path` as before the call, and a `path_len` that was valid is unchanged. -/
theorem estimate_size_cover_frame (fuel : Nat) (sk : List SkeletonState) (s count len : Nat)
    (r : Nat × List SkeletonState) (h : estimate_size_cover fuel sk s count len = some r) :
    List.Forall₂ Frame sk r.2 := by
  induction fuel generalizing sk s count len r with
  | zero => simp [estimate_size_cover] at h
  | succ fuel ih =>
    rw [estimate_size_cover] at h
    split at h
    · cases h
    · split at h
      · cases h
        exact frame_refl sk
      · split at h
        · simp only [Option.map_eq_some'] at h
          obtain ⟨a, h1, h2⟩ := h
          subst h2
          exact frame_visit_dec sk a.2 s
            (cover_loop_frame _ (fun sk' p c l r' hr => ih sk' p c l r' hr) _ _ _ _ _ _ _ _ _ _ a
              h1)
        · cases h
          exact frame_refl sk


theorem frame_mem {x y : List SkeletonState} (h : List.Forall₂ Frame x y) :
    ∀ b ∈ y, ∃ a ∈ x, Frame a b := by
  induction h with
  | nil => intro b hb; cases hb
  | cons hab _ ih =>
    intro b hb
    rcases List.mem_cons.1 hb with e | e
    · subst e; exact ⟨_, List.mem_cons_self _ _, hab⟩
    · obtain ⟨a, ha, hf⟩ := ih b e
      exact ⟨a, List.mem_cons_of_mem _ ha, hf⟩

theorem frame_slack {x y : List SkeletonState} (h : List.Forall₂ Frame x y) :
    visit_slack y = visit_slack x := by
  induction h with
  | nil => rfl
  | cons hab _ ih =>
    simp only [visit_slack, ih, hab.2.2.1]

theorem coverWF_frame (A G : Nat) {x y : List SkeletonState} (h : List.Forall₂ Frame x y)
    (hw : CoverWF A G x) : CoverWF A G y := by
  obtain ⟨h1, h2, h3⟩ := hw
  have hl := h.length_eq
  refine ⟨?_, ?_, ?_⟩
  · intro b hb e he
    obtain ⟨a, ha, hf⟩ := frame_mem h b hb
    rw [hf.1] at he
    rw [← hl]
    exact h1 a ha e he
  · intro b hb
    obtain ⟨a, ha, hf⟩ := frame_mem h b hb
    rw [hf.1]
    exact h2 a ha
  · intro b hb hp
    obtain ⟨a, ha, hf⟩ := frame_mem h b hb
    rw [hf.1]
    apply h3 a ha
    by_contra hne
    rw [hf.2.2.2.2 hne] at hp
    exact hne hp

theorem visit_inc_mem (sk : List SkeletonState) (s : Nat) :
    ∀ b ∈ visit_inc sk s, ∃ a ∈ sk, b.go = a.go ∧ b.path_len = a.path_len := by
  intro b hb
  unfold visit_inc at hb
  cases h : sk[s]? with
  | none =>
    rw [h] at hb
    exact ⟨b, hb, rfl, rfl⟩
  | some st =>
    rw [h] at hb
    simp only at hb
    rcases List.mem_or_eq_of_mem_set hb with e | e
    · exact ⟨b, e, rfl, rfl⟩
    · subst e
      exact ⟨st, List.getElem?_mem h, rfl, rfl⟩

theorem coverWF_visit_inc (A G : Nat) (sk : List SkeletonState) (s : Nat)
    (hw : CoverWF A G sk) : CoverWF A G (visit_inc sk s) := by
  obtain ⟨h1, h2, h3⟩ := hw
  refine ⟨skClosed_visit_inc sk s h1, ?_, ?_⟩
  · intro b hb
    obtain ⟨a, ha, hg, -⟩ := visit_inc_mem sk s b hb
    rw [hg]
    exact h2 a ha
  · intro b hb hp
    obtain ⟨a, ha, hg, hpl⟩ := visit_inc_mem sk s b hb
    rw [hg]
    exact h3 a ha (by rw [← hpl]; exact hp)

theorem cover_loop_total
    (call : List SkeletonState → Nat → Nat → Nat → Option (Nat × List SkeletonState))
    (A N : Nat) (Inv : List SkeletonState → Prop)
    (hInv : ∀ sk sk', Inv sk → List.Forall₂ Frame sk sk' → Inv sk')
    (hframe : ∀ sk p c l r, call sk p c l = some r → List.Forall₂ Frame sk r.2)
    (hcall : ∀ sk p c l, Inv sk → p < N → c ≤ A → ∃ r, call sk p c l = some r)
    (go : List (Nat × List Nat)) (s count len : Nat)
    (hgoA : ∀ e ∈ go, 1 ≤ e.2.length ∧ e.2.length ≤ A) (hgoN : ∀ e ∈ go, e.1 < N)
    (hGA : go.length * A < 2 ^ 32) (hcA : count + A ≤ 2 ^ 32)
    (rounds idx : Nat) (wrapped : Bool) (c : Nat) (sk : List SkeletonState) (result : Nat)
    (hI : Inv sk) (hidx : idx < go.length) (hc : wrapped = false → c ≤ idx * A)
    (hr : (if wrapped then 0 else go.length - idx) + (count - c) < rounds) :
    ∃ r, cover_loop call go s count len rounds idx wrapped c sk result = some r := by
  induction rounds generalizing idx wrapped c sk result with
  | zero => omega
  | succ rounds ih =>
    rw [cover_loop]
    split
    · exact ⟨_, rfl⟩
    · rename_i hcont
      have hge : go[idx]? = some go[idx] := List.getElem?_eq_getElem hidx
      have hmem : go[idx] ∈ go := List.getElem_mem hidx
      obtain ⟨ha1, ha2⟩ := hgoA _ hmem
      have hAlt : A < 2 ^ 32 := by
        have : 1 * A ≤ go.length * A := Nat.mul_le_mul_right A (by omega)
        omega
      have harr : go[idx].2.length % 2 ^ 32 = go[idx].2.length := Nat.mod_eq_of_lt (by omega)
      simp only [hge]
      obtain ⟨r1, h1⟩ := hcall sk go[idx].1 (go[idx].2.length % 2 ^ 32) ((len + 1) % 2 ^ 32) hI
        (hgoN _ hmem) (by rw [harr]; exact ha2)
      simp only [h1]
      have hI1 : Inv (set_path_len r1.2 s go[idx].1 r1.1) :=
        hInv _ _ hI (frame_trans (hframe _ _ _ _ _ h1) (set_path_len_frame _ _ _ _))
      have hmul : (idx + 1) * A = idx * A + A := Nat.succ_mul idx A
      have hmul2 : (idx + 1) * A ≤ go.length * A := Nat.mul_le_mul_right A (by omega)
      have hnowrap : (c + go[idx].2.length % 2 ^ 32) % 2 ^ 32 = c + go[idx].2.length := by
        rw [harr]
        apply Nat.mod_eq_of_lt
        cases hw : wrapped with
        | false =>
          have := hc hw
          omega
        | true =>
          have : c < count := by
            by_contra hcc
            exact hcont ⟨hw, hcc⟩
          omega
      rw [hnowrap]
      split
      · exact ⟨_, rfl⟩
      · split
        · apply ih 0 true _ _ _ hI1 (by omega) (fun h => by cases h)
          simp only [if_true]
          cases hw : wrapped with
          | false =>
            rw [hw] at hr
            simp only [Bool.false_eq_true, if_false] at hr
            omega
          | true =>
            rw [hw] at hr
            simp only [if_true] at hr
            have : c < count := by
              by_contra hcc
              exact hcont ⟨hw, hcc⟩
            omega
        · rename_i hne
          apply ih (idx + 1) wrapped _ _ _ hI1 (by omega)
          · intro hw
            have := hc hw
            omega
          · cases hw : wrapped with
            | false =>
              rw [hw] at hr
              simp only [Bool.false_eq_true, if_false] at hr ⊢
              omega
            | true =>
              rw [hw] at hr
              simp only [if_true] at hr ⊢
              have : c < count := by
                by_contra hcc
                exact hcont ⟨hw, hcc⟩
              omega

/-- On a skeleton as `SkeletonState::init` builds it, with edge sizes and counts that
keep the arrow counter below `2^32`, `estimate_size_cover` returns once the bound
exceeds the room the `visited` counters leave plus the length of the longest edge loop. -/
theorem estimate_size_cover_total (A G : Nat) (hA : 2 * A ≤ 2 ^ 32) (hGA : G * A < 2 ^ 32)
    (fuel : Nat) (sk : List SkeletonState) (s count len : Nat)
    (hw : CoverWF A G sk) (hs : s < sk.length) (hcA : count + A ≤ 2 ^ 32)
    (hf : visit_slack sk + G + max count A < fuel) :
    ∃ r, estimate_size_cover fuel sk s count len = some r := by
  induction fuel generalizing sk s count len with
  | zero => omega
  | succ fuel ih =>
    obtain ⟨st, hst⟩ : ∃ st, sk[s]? = some st := ⟨sk[s], List.getElem?_eq_getElem hs⟩
    have hmem : st ∈ sk := List.getElem?_mem hst
    rw [estimate_size_cover]
    simp only [hst]
    split
    · exact ⟨_, rfl⟩
    · rename_i hp
      split
      · rename_i hv
        have hsl := visit_slack_inc sk s st hst hv
        have hw1 := coverWF_visit_inc A G sk s hw
        have hlen := visit_inc_length sk s
        obtain ⟨hg1, hg2⟩ := hw.2.1 st hmem
        have hne : st.go ≠ [] := hw.2.2 st hmem (by simpa using hp)
        have hpos : 0 < st.go.length := List.length_pos.2 hne
        obtain ⟨r, h1⟩ := cover_loop_total (estimate_size_cover fuel) A sk.length
          (fun sk' => CoverWF A G sk' ∧ sk'.length = sk.length ∧
            visit_slack sk' = visit_slack (visit_inc sk s))
          (fun x y hx hxy => ⟨coverWF_frame A G hxy hx.1, by rw [← hxy.length_eq]; exact hx.2.1,
            by rw [frame_slack hxy]; exact hx.2.2⟩)
          (fun sk' p c l r hr => estimate_size_cover_frame fuel sk' p c l r hr)
          (fun sk' p c l hI hp' hc' => ih sk' p c l hI.1 (by rw [hI.2.1]; exact hp')
            (by omega) (by rw [hI.2.2, Nat.max_eq_right hc']; omega))
          st.go s count len hg2 (fun e he => hw.1 st hmem e he)
          (lt_of_le_of_lt (Nat.mul_le_mul_right A hg1) hGA) hcA
          fuel 0 false 0 (visit_inc sk s) 0 ⟨hw1, hlen, rfl⟩ hpos (fun _ => by omega)
          (by
            simp only [Bool.false_eq_true, if_false]
            have : count ≤ max count A := Nat.le_max_left _ _
            omega)
        simp only [h1, Option.map_some']
        exact ⟨_, rfl⟩
      · exact ⟨_, rfl⟩


/-- C9 (amended): `estimate_size_all` is at most `MAX_SIZE` on a state that is not final
and is the `uint32_t` product `count * len` on a final state; `estimate_size_cover` is at
most `MAX_SIZE` on a state whose `path_len` is `INVALID_PATH_LEN` and is the `uint32_t`
product `count * (len + path_len)` otherwise.  The exhaustive estimator returns on every
closed skeleton; the cover estimator returns on every closed skeleton whose edges carry
between 1 and `A` characters, whose states without edges have a valid `path_len`, and
whose sizes keep the `uint32_t` arrow counter from wrapping. -/
theorem estimate_size_bounded (sk : List SkeletonState) (s count len : Nat)
    (st : SkeletonState) (hs : sk[s]? = some st) :
    (∀ fuel r, estimate_size_all fuel sk s count len = some r →
      (st.is_end = false → r.1 ≤ MAX_SIZE) ∧
      (st.is_end = true → r.1 = count * len % 2 ^ 32)) ∧
    (∀ fuel r, estimate_size_cover fuel sk s count len = some r →
      (st.path_len = INVALID_PATH_LEN → r.1 ≤ MAX_SIZE) ∧
      (st.path_len ≠ INVALID_PATH_LEN →
        r.1 = count * ((len + st.path_len) % 2 ^ 32) % 2 ^ 32)) ∧
    (SkClosed sk → ∃ fuel r, estimate_size_all fuel sk s count len = some r) ∧
    (∀ A G, 2 * A ≤ 2 ^ 32 → G * A < 2 ^ 32 → CoverWF A G sk → count + A ≤ 2 ^ 32 →
      ∃ fuel r, estimate_size_cover fuel sk s count len = some r) := by
  have hlt : s < sk.length := (List.getElem?_eq_some.1 hs).1
  refine ⟨fun fuel r h => estimate_size_all_value fuel sk s count len st r hs h,
    fun fuel r h => estimate_size_cover_value fuel sk s count len st r hs h, ?_, ?_⟩
  · intro hc
    obtain ⟨r, h, -⟩ := estimate_size_all_total (visit_slack sk + 1) sk s count len hc hlt
      (Nat.lt_succ_self _)
    exact ⟨_, r, h⟩
  · intro A G hA hGA hw hcA
    obtain ⟨r, h⟩ := estimate_size_cover_total A G hA hGA
      (visit_slack sk + G + max count A + 1) sk s count len hw hlt hcA (Nat.lt_succ_self _)
    exact ⟨_, r, h⟩

/-- C9 (amended) on a state with one edge of two characters to a final state. -/
theorem estimate_size_bounded_witness :
    skEdge[0]? = some ⟨[(1, [97, 98])], RULE_NONE, 0, none, INVALID_PATH_LEN⟩ ∧
    SkClosed skEdge ∧ CoverWF 2 1 skEdge ∧
    estimate_size_all 3 skEdge 0 1 0 = some (2, skEdge) ∧
    (estimate_size_cover 5 skEdge 0 5 0).map (fun r => r.1) = some 6 ∧
    (2 : Nat) ≤ MAX_SIZE ∧
    (∃ fuel r, estimate_size_cover fuel skEdge 0 5 0 = some r) :=
  ⟨by decide, by decide, by decide, by decide, by decide,
    ((estimate_size_bounded skEdge 0 1 0 ⟨[(1, [97, 98])], RULE_NONE, 0, none, INVALID_PATH_LEN⟩
      (by decide)).1 3 (2, skEdge) (by decide)).1 (by decide),
    (estimate_size_bounded skEdge 0 5 0 ⟨[(1, [97, 98])], RULE_NONE, 0, none, INVALID_PATH_LEN⟩
      (by decide)).2.2.2 2 1 (by decide) (by decide) (by decide) (by decide)⟩

/-- C9 as stated fails on a final state: with `count = 2` and `len = 2^30` both
estimators return `2^31`, which exceeds `MAX_SIZE`. -/
theorem estimate_size_final_counterexample :
    estimate_size_all 1 skFinal 0 2 (2 ^ 30) = some (2 ^ 31, skFinal) ∧
    estimate_size_cover 1 skFinal 0 2 (2 ^ 30) = some (2 ^ 31, skFinal) ∧
    ¬ (2 ^ 31 ≤ MAX_SIZE) ∧ 2 < 2 ^ 32 ∧ 2 ^ 30 < 2 ^ 32 := by
  decide


theorem all_loop_mono
    (call call' : List SkeletonState → Nat → Nat → Nat → Option (Nat × List SkeletonState))
    (hcall : ∀ sk p c l r, call sk p c l = some r → call' sk p c l = some r)
    (count len : Nat) (es : List (Nat × List Nat)) (sk : List SkeletonState) (result : Nat)
    (r : Nat × List SkeletonState) (h : all_loop call count len es sk result = some r) :
    all_loop call' count len es sk result = some r := by
  induction es generalizing sk result with
  | nil => simpa [all_loop] using h
  | cons e es ih =>
    rw [all_loop] at h ⊢
    simp only at h ⊢
    split at h
    · rename_i hge
      rw [if_pos hge]
      exact h
    · rename_i hge
      rw [if_neg hge]
      split at h
      · cases h
      · rename_i r1 hc
        rw [hcall _ _ _ _ _ hc]
        simp only
        split at h
        · rename_i h2
          rw [if_pos h2]
          exact h
        · rename_i h2
          rw [if_neg h2]
          exact ih _ _ h

/-- A larger recursion bound does not change a result of `estimate_size_all`. -/
theorem estimate_size_all_mono (fuel : Nat) (sk : List SkeletonState) (s count len : Nat)
    (r : Nat × List SkeletonState) (h : estimate_size_all fuel sk s count len = some r) :
    estimate_size_all (fuel + 1) sk s count len = some r := by
  induction fuel generalizing sk s count len r with
  | zero => simp [estimate_size_all] at h
  | succ fuel ih =>
    rw [estimate_size_all] at h ⊢
    split at h
    · cases h
    · rename_i st hst
      split at h
      · rename_i he
        rw [if_pos he]
        exact h
      · rename_i he
        rw [if_neg he]
        split at h
        · rename_i hv
          rw [if_pos hv]
          simp only [Option.map_eq_some'] at h ⊢
          obtain ⟨a, h1, h2⟩ := h
          exact ⟨a, all_loop_mono _ _ (fun sk' p c l r' hr => ih sk' p c l r' hr) _ _ _ _ _ _ h1,
            h2⟩
        · rename_i hv
          rw [if_neg hv]
          exact h

theorem estimate_size_all_mono_le (fuel fuel' : Nat) (hle : fuel ≤ fuel')
    (sk : List SkeletonState) (s count len : Nat) (r : Nat × List SkeletonState)
    (h : estimate_size_all fuel sk s count len = some r) :
    estimate_size_all fuel' sk s count len = some r := by
  induction fuel' with
  | zero =>
    have : fuel = 0 := by omega
    subst this
    exact h
  | succ k ih =>
    by_cases e : fuel = k + 1
    · subst e; exact h
    · exact estimate_size_all_mono k sk s count len r (ih (by omega))

theorem gen_size_loop_mono
    (call call' : List SkeletonState → Nat → Nat → Nat → Option (Nat × List SkeletonState))
    (hcall : ∀ sk p c l r, call sk p c l = some r → call' sk p c l = some r)
    (n total : Nat) (es : List (Nat × List Nat)) (sk : List SkeletonState) (acc : Nat)
    (r : Nat × List SkeletonState) (h : gen_size_loop call n total es sk acc = some r) :
    gen_size_loop call' n total es sk acc = some r := by
  induction es generalizing sk acc with
  | nil => simpa [gen_size_loop] using h
  | cons e es ih =>
    rw [gen_size_loop] at h ⊢
    split at h
    · cases h
    · rename_i r1 hc
      rw [hcall _ _ _ _ _ hc]
      exact ih _ _ h

/-- A larger recursion bound does not change a result of `gen_size`. -/
theorem gen_size_mono (fuel : Nat) (sk : List SkeletonState) (s n total : Nat)
    (r : Nat × List SkeletonState) (h : gen_size fuel sk s n total = some r) :
    gen_size (fuel + 1) sk s n total = some r := by
  induction fuel generalizing sk s n total r with
  | zero => simp [gen_size] at h
  | succ fuel ih =>
    rw [gen_size] at h ⊢
    split at h
    · cases h
    · rename_i st hst
      split at h
      · rename_i he
        rw [if_pos he]
        exact h
      · rename_i he
        rw [if_neg he]
        split at h
        · rename_i hv
          rw [if_pos hv]
          simp only [Option.map_eq_some'] at h ⊢
          obtain ⟨a, h1, h2⟩ := h
          exact ⟨a, gen_size_loop_mono _ _ (fun sk' p c l r' hr => ih sk' p c l r' hr) _ _ _ _ _
            _ h1, h2⟩
        · rename_i hv
          rw [if_neg hv]
          exact h

theorem gen_size_mono_le (fuel fuel' : Nat) (hle : fuel ≤ fuel')
    (sk : List SkeletonState) (s n total : Nat) (r : Nat × List SkeletonState)
    (h : gen_size fuel sk s n total = some r) :
    gen_size fuel' sk s n total = some r := by
  induction fuel' with
  | zero =>
    have : fuel = 0 := by omega
    subst this
    exact h
  | succ k ih =>
    by_cases e : fuel = k + 1
    · subst e; exact h
    · exact gen_size_mono k sk s n total r (ih (by omega))


set_option maxRecDepth 100000 in
/-- C10 at the failing input: on the skeleton of the rule `"abc" [^]{29}`, with all
`visited` counters 0, `estimate_size_all(root, 1, 0)` returns 24: the `2^29` prefixes of
length 32 that reach the accepting state are counted as `2^29 * 32 mod 2^32 = 0`, and
only the 24 characters of the paths into the null state remain.  That is below
`MAX_SIZE`, while `generate_paths_all` from the empty path emits `2^34 + 24 = 17179869208`
characters; both for every recursion bound with which the functions return. -/
theorem estimate_size_all_wraps :
    (∀ st ∈ skAbcAny, st.visited = 0) ∧ SkClosed skAbcAny ∧
    estimate_size_all 34 skAbcAny 0 1 0 = some (24, skAbcAny) ∧
    (∀ fuel r, estimate_size_all fuel skAbcAny 0 1 0 = some r → r.1 = 24) ∧
    24 < MAX_SIZE ∧
    (generate_paths_all 34 skAbcAny 0 [empty_path] []).map (fun r => (total_chars r.1, r.2)) =
      some (17179869208, skAbcAny) ∧
    (∀ fuel r, generate_paths_all fuel skAbcAny 0 [empty_path] [] = some r →
      total_chars r.1 = 17179869208) := by
  have he : estimate_size_all 34 skAbcAny 0 1 0 = some (24, skAbcAny) := by decide
  have hg : gen_size 34 skAbcAny 0 1 0 = some (17179869208, skAbcAny) := by decide
  have hsz : ∀ fuel, (generate_paths_all fuel skAbcAny 0 [empty_path] []).map
      (fun r => (total_chars r.1, r.2)) =
      (gen_size fuel skAbcAny 0 1 0).map (fun r => (r.1, r.2)) := by
    intro fuel
    rw [generate_paths_all_size]
    simp [total_chars, empty_path]
  refine ⟨by decide, by decide, he, ?_, by decide, ?_, ?_⟩
  · intro fuel r h
    rcases Nat.le_total fuel 34 with hle | hle
    · have := estimate_size_all_mono_le fuel 34 hle _ _ _ _ r h
      rw [he] at this
      cases this
      rfl
    · have := estimate_size_all_mono_le 34 fuel hle _ _ _ _ _ he
      rw [h] at this
      cases this
      rfl
  · rw [hsz 34, hg]
    rfl
  · intro fuel r h
    have h1 := hsz fuel
    rw [h] at h1
    cases hx : gen_size fuel skAbcAny 0 1 0 with
    | none => rw [hx] at h1; simp at h1
    | some x =>
      rw [hx] at h1
      simp only [Option.map_some', Option.some.injEq, Prod.mk.injEq] at h1
      rw [h1.1]
      rcases Nat.le_total fuel 34 with hle | hle
      · have := gen_size_mono_le fuel 34 hle _ _ _ _ x hx
        rw [hg] at this
        cases this
        rfl
      · have := gen_size_mono_le 34 fuel hle _ _ _ _ _ hg
        rw [hx] at this
        cases this
        rfl


/-- Whenever `closure_one` returns, the NFA arena (and with it every `loop` counter) is
as it was before the call, whatever the counters were. -/
theorem closure_one_nfa (CURSOR BOTTOM : Int) (fuel : Nat) (st : closure_st) (n : Nat)
    (st' : closure_st) (h : closure_one CURSOR BOTTOM fuel st n = some st') :
    st'.nfa = st.nfa := by
  induction fuel generalizing st n st' with
  | zero => simp [closure_one] at h
  | succ fuel ih =>
    rw [closure_one] at h
    cases hs : st.nfa[n]? with
    | none => simp [hs] at h
    | some s =>
      simp only [hs] at h
      by_cases hl : s.loop > 1
      · rw [if_pos hl] at h
        cases h; rfl
      rw [if_neg hl] at h
      cases hty : s.type with
      | NIL out =>
        simp only [hty, Option.map_eq_some'] at h
        obtain ⟨a, h1, h2⟩ := h
        subst h2
        have := ih _ _ a h1
        simp only at this ⊢
        rw [this, loop_dec_inc]
      | ALT out1 out2 =>
        simp only [hty, Option.map_eq_some', Option.bind_eq_some] at h
        obtain ⟨a, ⟨b, h1, h3⟩, h2⟩ := h
        subst h2
        have e1 := ih _ _ b h1
        have e2 := ih _ _ a h3
        simp only at e1 e2 ⊢
        rw [e2, e1, loop_dec_inc]
      | TAG out t bottom =>
        simp only [hty, Option.map_eq_some'] at h
        obtain ⟨a, ⟨b, h1, h3⟩, h2⟩ := h
        subst h2 h3
        have e1 := ih _ _ b h1
        simp only at e1 ⊢
        rw [e1, loop_dec_inc]
      | RAN out =>
        simp only [hty, Option.map_some', Option.some.injEq] at h
        subst h
        simp only
        rw [loop_dec_inc]
      | FIN =>
        simp only [hty, Option.map_some', Option.some.injEq] at h
        subst h
        simp only
        rw [loop_dec_inc]

/-- The edge loop of `estimate_size_all` hands back the skeleton it was given when every
call does, on each of its three exits. -/
theorem all_loop_frame
    (call : List SkeletonState → Nat → Nat → Nat → Option (Nat × List SkeletonState))
    (hcall : ∀ sk p c l r, call sk p c l = some r → r.2 = sk)
    (count len : Nat) (es : List (Nat × List Nat)) (sk : List SkeletonState) (result : Nat)
    (r : Nat × List SkeletonState) (h : all_loop call count len es sk result = some r) :
    r.2 = sk := by
  induction es generalizing sk result with
  | nil =>
    simp only [all_loop, Option.some.injEq] at h
    subst h; rfl
  | cons e es ih =>
    rw [all_loop] at h
    simp only at h
    split at h
    · cases h; rfl
    · split at h
      · cases h
      · rename_i r1 hc
        have e1 := hcall _ _ _ _ _ hc
        split at h
        · cases h; exact e1
        · rw [ih _ _ h, e1]

/-- Whenever `estimate_size_all` returns, the skeleton (and with it every `visited`
counter) is as it was before the call. -/
theorem estimate_size_all_frame (fuel : Nat) (sk : List SkeletonState) (s count len : Nat)
    (r : Nat × List SkeletonState) (h : estimate_size_all fuel sk s count len = some r) :
    r.2 = sk := by
  induction fuel generalizing sk s count len r with
  | zero => simp [estimate_size_all] at h
  | succ fuel ih =>
    rw [estimate_size_all] at h
    split at h
    · cases h
    · split at h
      · cases h; rfl
      · split at h
        · simp only [Option.map_eq_some'] at h
          obtain ⟨a, h1, h2⟩ := h
          subst h2
          have := all_loop_frame _ (fun sk p c l r hr => ih sk p c l r hr) _ _ _ _ _ _ h1
          simp only
          rw [this, visit_dec_inc]
        · cases h; rfl

/-- Two skeletons related by `Frame` state by state carry the same `visited` counters. -/
theorem frame_visited (sk sk' : List SkeletonState) (h : List.Forall₂ Frame sk sk') :
    sk'.map (fun st => st.visited) = sk.map (fun st => st.visited) := by
  induction h with
  | nil => rfl
  | cons hab _ ih =>
    simp only [List.map_cons, ih, hab.2.2.1]

/-- C13: counter balance.  Whenever `closure_one` returns, every NFA state (so every
`loop` counter) is as before the call, for every arena and every initial assignment of
the counters; whenever `estimate_size_all` returns, the skeleton (so every `visited`
counter) is as before the call, and whenever `estimate_size_cover` returns, every
`visited` counter is as before the call, on every exit of the edge loops.  The three
functions do return: `closure_one` on every closed arena, `estimate_size_all` on every
closed skeleton, `estimate_size_cover` on every closed skeleton whose edges carry
between 1 and `A` characters and whose states without edges have a valid `path_len`,
once the recursion bound exceeds what the counters admit. -/
theorem counter_balance (CURSOR BOTTOM : Int) :
    (∀ fuel st n st', closure_one CURSOR BOTTOM fuel st n = some st' → st'.nfa = st.nfa) ∧
    (∀ fuel st n, NfaClosed st.nfa → n < st.nfa.length → slack st.nfa < fuel →
      ∃ st', closure_one CURSOR BOTTOM fuel st n = some st') ∧
    (∀ fuel sk s count len r, estimate_size_all fuel sk s count len = some r → r.2 = sk) ∧
    (∀ fuel sk s count len, SkClosed sk → s < sk.length → visit_slack sk < fuel →
      ∃ r, estimate_size_all fuel sk s count len = some r) ∧
    (∀ fuel sk s count len r, estimate_size_cover fuel sk s count len = some r →
      r.2.map (fun st => st.visited) = sk.map (fun st => st.visited)) ∧
    (∀ A G fuel sk s count len, 2 * A ≤ 2 ^ 32 → G * A < 2 ^ 32 → CoverWF A G sk →
      s < sk.length → count + A ≤ 2 ^ 32 → visit_slack sk + G + max count A < fuel →
      ∃ r, estimate_size_cover fuel sk s count len = some r) := by
  refine ⟨closure_one_nfa CURSOR BOTTOM, ?_, estimate_size_all_frame, ?_, ?_, ?_⟩
  · intro fuel st n hc hn hf
    obtain ⟨st', h, -⟩ := closure_one_total CURSOR BOTTOM fuel st n hc hn hf
    exact ⟨st', h⟩
  · intro fuel sk s count len hc hs hf
    obtain ⟨r, h, -⟩ := estimate_size_all_total fuel sk s count len hc hs hf
    exact ⟨r, h⟩
  · intro fuel sk s count len r h
    exact frame_visited _ _ (estimate_size_cover_frame fuel sk s count len r h)
  · intro A G fuel sk s count len hA hGA hw hs hcA hf
    exact estimate_size_cover_total A G hA hGA fuel sk s count len hw hs hcA hf

/-- C13 on concrete inputs: the epsilon-cycle `nfaLoop` with the counter of state 1 preset
to 1 and that of state 2 preset to 5, and the two-state skeleton `skEdge`, once on the
plain exit and once on the early `MAX_SIZE` exit of the edge loop. -/
theorem counter_balance_witness :
    (∃ st', closure_one 2147483647 (-2147483648) 9
      ⟨[], poolOneTag, ⟨0, 0, 0, 0, 0⟩, [0],
        [⟨nfa_kind.ALT 1 2, 0, 0⟩, ⟨nfa_kind.TAG 3 0 false, 0, 1⟩, ⟨nfa_kind.NIL 0, 0, 5⟩,
         ⟨nfa_kind.FIN, 0, 0⟩]⟩ 0 = some st' ∧
      st'.nfa = [⟨nfa_kind.ALT 1 2, 0, 0⟩, ⟨nfa_kind.TAG 3 0 false, 0, 1⟩,
        ⟨nfa_kind.NIL 0, 0, 5⟩, ⟨nfa_kind.FIN, 0, 0⟩]) ∧
    estimate_size_all 3 skEdge 0 1 0 = some (2, skEdge) ∧
    estimate_size_all 3 skEdge 0 MAX_SIZE 0 = some (MAX_SIZE, skEdge) ∧
    (∃ r, estimate_size_cover 11 skEdge 0 5 0 = some r ∧
      r.2.map (fun st => st.visited) = [0, 0]) := by
  obtain ⟨st', h⟩ := (counter_balance 2147483647 (-2147483648)).2.1 9
    ⟨[], poolOneTag, ⟨0, 0, 0, 0, 0⟩, [0],
      [⟨nfa_kind.ALT 1 2, 0, 0⟩, ⟨nfa_kind.TAG 3 0 false, 0, 1⟩, ⟨nfa_kind.NIL 0, 0, 5⟩,
       ⟨nfa_kind.FIN, 0, 0⟩]⟩ 0 (by decide) (by decide) (by decide)
  obtain ⟨r, hr⟩ := (counter_balance 2147483647 (-2147483648)).2.2.2.2.2 2 1 11 skEdge 0 5 0
    (by decide) (by decide) (by decide) (by decide) (by decide) (by decide)
  exact ⟨⟨st', h, (counter_balance 2147483647 (-2147483648)).1 _ _ _ _ h⟩, by decide, by decide,
    r, hr, (counter_balance 2147483647 (-2147483648)).2.2.2.2.1 _ _ _ _ _ _ hr⟩

theorem cover_loop_mono
    (call call' : List SkeletonState → Nat → Nat → Nat → Option (Nat × List SkeletonState))
    (hcall : ∀ sk p c l r, call sk p c l = some r → call' sk p c l = some r)
    (go : List (Nat × List Nat)) (s count len : Nat) (rounds rounds' : Nat)
    (hle : rounds ≤ rounds') (idx : Nat) (wrapped : Bool) (c : Nat)
    (sk : List SkeletonState) (result : Nat) (r : Nat × List SkeletonState)
    (h : cover_loop call go s count len rounds idx wrapped c sk result = some r) :
    cover_loop call' go s count len rounds' idx wrapped c sk result = some r := by
  induction rounds generalizing rounds' idx wrapped c sk result with
  | zero => simp [cover_loop] at h
  | succ rounds ih =>
    obtain ⟨k, rfl⟩ : ∃ k, rounds' = k + 1 := ⟨rounds' - 1, by omega⟩
    rw [cover_loop] at h ⊢
    split at h
    · rename_i hw
      rw [if_pos hw]
      exact h
    · rename_i hw
      rw [if_neg hw]
      split at h
      · cases h
      · rename_i e he
        simp only at h ⊢
        split at h
        · cases h
        · rename_i r1 hc
          rw [hcall _ _ _ _ _ hc]
          simp only
          split at h
          · rename_i h2
            rw [if_pos h2]
            exact h
          · rename_i h2
            rw [if_neg h2]
            split at h
            · rename_i h3
              rw [if_pos h3]
              exact ih _ (by omega) _ _ _ _ _ h
            · rename_i h3
              rw [if_neg h3]
              exact ih _ (by omega) _ _ _ _ _ h

/-- A larger recursion bound does not change a result of `estimate_size_cover`. -/
theorem estimate_size_cover_mono (fuel : Nat) (sk : List SkeletonState) (s count len : Nat)
    (r : Nat × List SkeletonState) (h : estimate_size_cover fuel sk s count len = some r) :
    estimate_size_cover (fuel + 1) sk s count len = some r := by
  induction fuel generalizing sk s count len r with
  | zero => simp [estimate_size_cover] at h
  | succ fuel ih =>
    rw [estimate_size_cover] at h ⊢
    split at h
    · cases h
    · rename_i st hst
      split at h
      · rename_i he
        rw [if_pos he]
        exact h
      · rename_i he
        rw [if_neg he]
        split at h
        · rename_i hv
          rw [if_pos hv]
          simp only [Option.map_eq_some'] at h ⊢
          obtain ⟨a, h1, h2⟩ := h
          exact ⟨a, cover_loop_mono _ _ (fun sk' p c l r' hr => ih sk' p c l r' hr) _ _ _ _ _ _
            (Nat.le_succ _) _ _ _ _ _ _ h1, h2⟩
        · rename_i hv
          rw [if_neg hv]
          exact h

theorem estimate_size_cover_mono_le (fuel fuel' : Nat) (hle : fuel ≤ fuel')
    (sk : List SkeletonState) (s count len : Nat) (r : Nat × List SkeletonState)
    (h : estimate_size_cover fuel sk s count len = some r) :
    estimate_size_cover fuel' sk s count len = some r := by
  induction fuel' with
  | zero =>
    have : fuel = 0 := by omega
    subst this
    exact h
  | succ k ih =>
    by_cases e : fuel = k + 1
    · subst e; exact h
    · exact estimate_size_cover_mono k sk s count len r (ih (by omega))

/-- Two results of `estimate_size_all` under different recursion bounds agree. -/
theorem estimate_size_all_unique (fuel fuel' : Nat) (sk : List SkeletonState)
    (s count len : Nat) (r r' : Nat × List SkeletonState)
    (h : estimate_size_all fuel sk s count len = some r)
    (h' : estimate_size_all fuel' sk s count len = some r') : r = r' := by
  rcases Nat.le_total fuel fuel' with hle | hle
  · have := estimate_size_all_mono_le fuel fuel' hle _ _ _ _ r h
    rw [h'] at this
    cases this; rfl
  · have := estimate_size_all_mono_le fuel' fuel hle _ _ _ _ r' h'
    rw [h] at this
    cases this; rfl

/-- Two results of `estimate_size_cover` under different recursion bounds agree. -/
theorem estimate_size_cover_unique (fuel fuel' : Nat) (sk : List SkeletonState)
    (s count len : Nat) (r r' : Nat × List SkeletonState)
    (h : estimate_size_cover fuel sk s count len = some r)
    (h' : estimate_size_cover fuel' sk s count len = some r') : r = r' := by
  rcases Nat.le_total fuel fuel' with hle | hle
  · have := estimate_size_cover_mono_le fuel fuel' hle _ _ _ _ r h
    rw [h'] at this
    cases this; rfl
  · have := estimate_size_cover_mono_le fuel' fuel hle _ _ _ _ r' h'
    rw [h] at this
    cases this; rfl

/-- C16 (amended), scenario S4: on the skeleton of the DFA with one accepting state that
loops on `a`, with all `visited` counters 0 and `path_len` set on the final state only,
`estimate_size_all(root, 1, 0)` returns 12 and `estimate_size_cover(root, 1, 0)` returns
12, both strictly below `MAX_SIZE`, for every recursion bound with which they return.
The third entry into the root finds `visited = 2` and counts 0, so the loop is walked
twice and not further. -/
theorem estimate_size_self_loop :
    (∀ st ∈ skLoop, st.visited = 0) ∧
    (∀ st ∈ skLoop, st.path_len ≠ INVALID_PATH_LEN ↔ st.go = []) ∧
    estimate_size_all 4 skLoop 0 1 0 = some (12, skLoop) ∧
    (∀ fuel r, estimate_size_all fuel skLoop 0 1 0 = some r → r.1 = 12) ∧
    (estimate_size_cover 5 skLoop 0 1 0).map (fun r => r.1) = some 12 ∧
    (∀ fuel r, estimate_size_cover fuel skLoop 0 1 0 = some r → r.1 = 12) ∧
    12 < MAX_SIZE := by
  refine ⟨by decide, by decide, by decide, ?_, by decide, ?_, by decide⟩
  · intro fuel r h
    have := estimate_size_all_unique fuel 4 skLoop 0 1 0 r (12, skLoop) h (by decide)
    rw [this]
  · intro fuel r h
    cases h5 : estimate_size_cover 5 skLoop 0 1 0 with
    | none => exact absurd h5 (by decide)
    | some r5 =>
      have h12 : r5.1 = 12 := by
        have : (estimate_size_cover 5 skLoop 0 1 0).map (fun r => r.1) = some 12 := by decide
        rw [h5] at this
        simpa using this
      have := estimate_size_cover_unique fuel 5 skLoop 0 1 0 r r5 h h5
      rw [this, h12]

/-- C16 as stated fails: on the S4 skeleton `estimate_size_all(root, 1, 0)` returns 12,
which is not `MAX_SIZE`. -/
theorem estimate_size_all_self_loop_counterexample :
    estimate_size_all 4 skLoop 0 1 0 = some (12, skLoop) ∧ 12 ≠ MAX_SIZE := by
  decide

/-- The expansion step of scenario S6: from an item on the outer tag node, `closure_one`
reaches the final state with `tags[0] = CURSOR` and restores the scratch vector. -/
theorem closure_expand_tag_chain (CURSOR BOTTOM : Int) (hC : CURSOR ≠ 0) (o l k : Nat) :
    closure_expand CURSOR BOTTOM (k + 4) [⟨o, 0, ZERO_TAGS, ZERO_TAGS, l⟩]
      ⟨[], poolOneTag, ⟨0, 0, 0, 0, 0⟩, [0], nfaS6⟩ =
    some ([⟨o, 2, 0, 0, 1⟩],
      ⟨[⟨o, 2, 0, 0, 1⟩], { poolOneTag with vecs := [[0], [CURSOR]] }, ⟨o, 2, 0, 0, 1⟩, [0],
        nfaS6⟩) := by
  have hC' : ¬ ([0] = [CURSOR]) := by simpa using hC.symm
  simp [closure_expand, closure_one, nfaS6, loop_inc, loop_dec, tagAt, Tagpool.insert, find_vec,
    poolOneTag, closure_put, ZERO_TAGS, hC']

/-- C15 (amended), scenario S6: for the chain TAG(0, bottom) -> TAG(0, cursor) -> FIN with
one tag, `closure` on the one-item closure whose state is the outer tag node and whose
`tvers` and `ttran` are `ZERO_TAGS` returns; it leaves `badtags[0]` as it was, yields
exactly one item, which sits on the final state and whose `tlook` has slot 0 = `CURSOR`,
and `merge_transition_tags` allocates no version: `maxver` is unchanged and the slots of
tag 0 in the save record are both `ZERO`, because the item's `ttran` is `ZERO_TAGS` (the
cursor sits in `tlook`, which the allocation loop does not read).  For every conforming
implementation of the standard algorithms and all reserved values `CURSOR`, `BOTTOM`
different from `ZERO`. -/
theorem closure_tag_chain (lib : StdAlgo) (hlib : lib.Conforming) (CURSOR BOTTOM : Int)
    (hC : CURSOR ≠ 0) (hB : BOTTOM ≠ 0) (o l k : Nat) (rule0 : Rule) (rs : List Rule)
    (b : Bool) (maxver : Int) :
    ∃ r item, closure lib CURSOR BOTTOM (k + 4) nfaS6 [⟨o, 0, ZERO_TAGS, ZERO_TAGS, l⟩]
        poolOneTag (rule0 :: rs) [b] maxver = some r ∧
      r.badtags = [b] ∧ r.clos2 = [item] ∧
      (r.nfa[item.state]?).map (fun s => s.type) = some nfa_kind.FIN ∧
      r.tagpool.lookup item.tlook = [CURSOR] ∧ item.ttran = ZERO_TAGS ∧
      r.maxver = maxver ∧ r.save.cur = [0] ∧ r.save.bot = [0] := by
  have h := closure_expand_tag_chain CURSOR BOTTOM hC o l k
  simp only [poolOneTag] at h
  have hfin : finals_of nfaS6 [⟨o, 2, 0, 0, 1⟩] = [⟨o, 2, 0, 0, 1⟩] := by
    simp [finals_of, is_fin, not_fin, nfaS6]
  have hnon : List.filter (not_fin nfaS6) [⟨o, 2, 0, 0, 1⟩] = [] := by
    simp [not_fin, nfaS6]
  have hpr : prune_final_items lib nfaS6 [⟨o, 2, 0, 0, 1⟩] (rule0 :: rs) =
      ([⟨o, 2, 0, 0, 1⟩], rule0 :: rs) := by
    rcases prune_final_items_shape lib hlib nfaS6 [⟨o, 2, 0, 0, 1⟩] (rule0 :: rs) with
      ⟨h1, -, -⟩ | ⟨f, rest, nonfin, h1, h2, h3, h4⟩
    · rw [hfin] at h1
      cases h1
    · rw [hfin] at h1
      rw [hnon] at h2
      have e1 := List.perm_singleton.1 h1
      have e2 := List.Perm.eq_nil h2
      simp only [List.cons.injEq] at e1
      obtain ⟨e1, e3⟩ := e1
      subst e1 e2 e3
      apply Prod.ext
      · simpa using h3
      · simpa using h4
  have hsort : lib.sort (compare_by_rule nfaS6) [⟨o, 2, 0, 0, 1⟩] = [⟨o, 2, 0, 0, 1⟩] :=
    List.perm_singleton.1 (hlib.sort_perm _ _)
  have hcl : closure lib CURSOR BOTTOM (k + 4) nfaS6 [⟨o, 0, ZERO_TAGS, ZERO_TAGS, l⟩]
      poolOneTag (rule0 :: rs) [b] maxver =
      some ⟨[⟨o, 2, 0, 0, 1⟩], [⟨o, 2, 0, 0, 1⟩], ⟨1, [[0], [CURSOR]], [0], [0], [0]⟩,
        rule0 :: rs, [b], maxver, nfaS6, ⟨[0], [0]⟩⟩ := by
    simp only [closure, poolOneTag, TAGVER_ZERO]
    simp only [List.replicate, List.drop, List.append_nil, List.cons_append, List.nil_append]
    rw [h]
    simp only [hpr, hsort]
    simp [check_nondeterminism, check_nondeterminism_from, merge_transition_tags,
      alloc_versions, alloc_step, has_ttran, apply_items, conv_to_save, ZERO_TAGS,
      Tagpool.lookup, tagAt, hC.symm, hB.symm,
      (by decide : List.range 1 = [0]), TAGVER_ZERO]
  refine ⟨_, ⟨o, 2, 0, 0, 1⟩, hcl, ?_⟩
  simp [nfaS6, Tagpool.lookup, ZERO_TAGS]

/-- C15 (amended) with the reserved values of a 32-bit `tagver_t` and `maxver = 7`. -/
theorem closure_tag_chain_witness :
    ∃ r item, closure plainStd 2147483647 (-2147483648) 4 nfaS6
        [⟨0, 0, ZERO_TAGS, ZERO_TAGS, 0⟩] poolOneTag [⟨0, 1, 1, []⟩] [false] 7 = some r ∧
      r.badtags = [false] ∧ r.clos2 = [item] ∧
      (r.nfa[item.state]?).map (fun s => s.type) = some nfa_kind.FIN ∧
      r.tagpool.lookup item.tlook = [2147483647] ∧ item.ttran = ZERO_TAGS ∧
      r.maxver = 7 ∧ r.save.cur = [0] ∧ r.save.bot = [0] :=
  closure_tag_chain plainStd plainStd_conforming 2147483647 (-2147483648) (by decide)
    (by decide) 0 0 0 ⟨0, 1, 1, []⟩ [] false 7

/-- C15 as stated fails in its last part: on scenario S6 with `maxver = 7` before the call,
`maxver` is 7 afterwards and the cursor slot of tag 0 in the save record is `ZERO`; no
positive version is allocated. -/
theorem tag_chain_allocates_nothing_counterexample :
    (closure plainStd 2147483647 (-2147483648) 4 nfaS6 [⟨0, 0, ZERO_TAGS, ZERO_TAGS, 0⟩]
        poolOneTag [⟨0, 1, 1, []⟩] [false] 7).map (fun r => (r.maxver, r.save.cur, r.clos2)) =
      some (7, [0], [⟨0, 2, 0, 0, 1⟩]) := by
  decide

/-- The ghost record does not influence the run: dropping it gives `closure_one`. -/
theorem closure_one_ghost_erase (CURSOR BOTTOM : Int) (fuel : Nat) (g : ghost_t)
    (st : closure_st) (n : Nat) :
    (closure_one_ghost CURSOR BOTTOM fuel g st n).map (fun r => r.1) =
      closure_one CURSOR BOTTOM fuel st n := by
  induction fuel generalizing g st n with
  | zero => rfl
  | succ fuel ih =>
    rw [closure_one_ghost, closure_one]
    cases hs : st.nfa[n]? with
    | none => rfl
    | some s =>
      simp only
      by_cases hl : s.loop > 1
      · rw [if_pos hl, if_pos hl]; rfl
      rw [if_neg hl, if_neg hl]
      cases hty : s.type with
      | NIL out =>
        simp only [Option.map_map]
        rw [← ih _ _ out, Option.map_map]
        rfl
      | ALT out1 out2 =>
        simp only [Option.map_map]
        rw [← ih _ _ out1]
        cases h1 : closure_one_ghost CURSOR BOTTOM fuel
            { g with active := n :: g.active, peak := max g.peak ((n :: g.active).count n) }
            { st with nfa := loop_inc st.nfa n } out1 with
        | none => rfl
        | some r1 =>
          simp only [Option.map_some', Option.some_bind]
          rw [← ih r1.2 r1.1 out2, Option.map_map]
          rfl
      | TAG out t bottom =>
        simp only [Option.map_map]
        rw [← ih _ _ out, Option.map_map]
        rfl
      | RAN out => rfl
      | FIN => rfl

/-- Dropping the ghost record from the expansion loop gives `closure_expand`. -/
theorem closure_expand_ghost_erase (CURSOR BOTTOM : Int) (fuel : Nat) (clos1 : List clos_t)
    (g : ghost_t) (st : closure_st) :
    (closure_expand_ghost CURSOR BOTTOM fuel clos1 g st).map (fun r => r.1) =
      closure_expand CURSOR BOTTOM fuel clos1 st := by
  induction clos1 generalizing g st with
  | nil => rfl
  | cons c cs ih =>
    rw [closure_expand_ghost, closure_expand]
    rw [← closure_one_ghost_erase CURSOR BOTTOM fuel g { st with c0 := c } c.state]
    cases h1 : closure_one_ghost CURSOR BOTTOM fuel g { st with c0 := c } c.state with
    | none => rfl
    | some r1 =>
      simp only [Option.map_some']
      rw [← ih r1.2 r1.1]
      cases h2 : closure_expand_ghost CURSOR BOTTOM fuel cs r1.2 r1.1 with
      | none => rfl
      | some r => rfl

theorem closure_one_ghost_nfa (CURSOR BOTTOM : Int) (fuel : Nat) (g : ghost_t)
    (st : closure_st) (n : Nat) (r : closure_st × ghost_t)
    (h : closure_one_ghost CURSOR BOTTOM fuel g st n = some r) : r.1.nfa = st.nfa := by
  have e := closure_one_ghost_erase CURSOR BOTTOM fuel g st n
  rw [h] at e
  exact closure_one_nfa CURSOR BOTTOM fuel st n r.1 e.symm

theorem loopInv_inc (nfa : List nfa_state_t) (active : List Nat) (n : Nat) (s : nfa_state_t)
    (hs : nfa[n]? = some s) (h : LoopInv nfa active) :
    LoopInv (loop_inc nfa n) (n :: active) := by
  intro m s' hm
  unfold loop_inc at hm
  rw [hs] at hm
  simp only at hm
  by_cases e : n = m
  · subst e
    have hlt : n < nfa.length := (List.getElem?_eq_some.1 hs).1
    rw [List.getElem?_set_self hlt] at hm
    cases hm
    simp only [List.count_cons_self]
    rw [h n s hs]
  · rw [List.getElem?_set_ne e] at hm
    rw [List.count_cons_of_ne (fun e' => e e'.symm)]
    exact h m s' hm

/-- Along a run of `closure_one` from counters that agree with the recursion path, no
state is ever active more than twice, and the path is restored on return. -/
theorem closure_one_ghost_peak (CURSOR BOTTOM : Int) (fuel : Nat) (g : ghost_t)
    (st : closure_st) (n : Nat) (r : closure_st × ghost_t)
    (h : closure_one_ghost CURSOR BOTTOM fuel g st n = some r)
    (hI : LoopInv st.nfa g.active) (hp : g.peak ≤ 2) :
    r.2.active = g.active ∧ r.2.peak ≤ 2 := by
  induction fuel generalizing g st n r with
  | zero => simp [closure_one_ghost] at h
  | succ fuel ih =>
    rw [closure_one_ghost] at h
    cases hs : st.nfa[n]? with
    | none => simp [hs] at h
    | some s =>
      simp only [hs] at h
      by_cases hl : s.loop > 1
      · rw [if_pos hl] at h
        cases h; exact ⟨rfl, hp⟩
      rw [if_neg hl] at h
      have hI1 := loopInv_inc st.nfa g.active n s hs hI
      have hp1 : max g.peak ((n :: g.active).count n) ≤ 2 := by
        have := hI n s hs
        simp only [List.count_cons_self]
        omega
      cases hty : s.type with
      | NIL out =>
        simp only [hty, Option.map_eq_some'] at h
        obtain ⟨a, h1, h2⟩ := h
        subst h2
        obtain ⟨e1, e2⟩ := ih _ _ _ a h1 hI1 hp1
        simp only at e1 ⊢
        rw [e1]
        exact ⟨rfl, e2⟩
      | ALT out1 out2 =>
        simp only [hty, Option.map_eq_some', Option.bind_eq_some] at h
        obtain ⟨a, ⟨b, h1, h3⟩, h2⟩ := h
        subst h2
        obtain ⟨e1, e2⟩ := ih _ _ _ b h1 hI1 hp1
        have en := closure_one_ghost_nfa CURSOR BOTTOM fuel _ _ _ b h1
        simp only at e1 en
        obtain ⟨e3, e4⟩ := ih _ _ _ a h3 (by rw [en, e1]; exact hI1) e2
        simp only at e3 ⊢
        rw [e3, e1]
        exact ⟨rfl, e4⟩
      | TAG out t bottom =>
        simp only [hty, Option.map_eq_some'] at h
        obtain ⟨a, ⟨b, h1, h3⟩, h2⟩ := h
        subst h2 h3
        obtain ⟨e1, e2⟩ := ih _ _ _ b h1 hI1 hp1
        simp only at e1 ⊢
        rw [e1]
        exact ⟨rfl, e2⟩
      | RAN out =>
        simp only [hty, Option.map_some', Option.some.injEq] at h
        subst h
        exact ⟨rfl, hp1⟩
      | FIN =>
        simp only [hty, Option.map_some', Option.some.injEq] at h
        subst h
        exact ⟨rfl, hp1⟩

theorem slack_zero (nfa : List nfa_state_t) (h : ∀ s ∈ nfa, s.loop = 0) :
    slack nfa = 2 * nfa.length := by
  induction nfa with
  | nil => rfl
  | cons a rest ih =>
    have h0 := h a (List.mem_cons_self _ _)
    have := ih (fun s hs => h s (List.mem_cons_of_mem _ hs))
    simp only [slack, List.length_cons, h0]
    omega

/-- C14: for every finite NFA (every epsilon-successor is a state of the arena), cycles
included, with all `loop` counters 0, `closure_one` returns as soon as the recursion bound
exceeds twice the number of states; the run is the run of the instrumented function, along
which no state is active on the recursion path more than twice (a state is entered only
while its counter, which equals the number of its activations, is at most 1); the
recursion path is empty again on return. -/
theorem closure_one_terminates (CURSOR BOTTOM : Int) (fuel : Nat) (st : closure_st) (n : Nat)
    (hc : NfaClosed st.nfa) (h0 : ∀ s ∈ st.nfa, s.loop = 0) (hn : n < st.nfa.length)
    (hf : 2 * st.nfa.length < fuel) :
    ∃ st' g, closure_one CURSOR BOTTOM fuel st n = some st' ∧
      closure_one_ghost CURSOR BOTTOM fuel ⟨[], 0, []⟩ st n = some (st', g) ∧
      g.peak ≤ 2 ∧ g.active = [] := by
  have hsl := slack_zero st.nfa h0
  obtain ⟨st', h1, -⟩ := closure_one_total CURSOR BOTTOM fuel st n hc hn (by omega)
  have e := closure_one_ghost_erase CURSOR BOTTOM fuel ⟨[], 0, []⟩ st n
  rw [h1] at e
  cases hg : closure_one_ghost CURSOR BOTTOM fuel ⟨[], 0, []⟩ st n with
  | none => rw [hg] at e; cases e
  | some r =>
    rw [hg] at e
    simp only [Option.map_some', Option.some.injEq] at e
    have hI : LoopInv st.nfa [] := by
      intro m s hm
      simp only [List.count_nil]
      exact h0 s (List.getElem?_mem hm)
    obtain ⟨e1, e2⟩ := closure_one_ghost_peak CURSOR BOTTOM fuel _ st n r hg hI (Nat.zero_le 2)
    refine ⟨st', r.2, h1, ?_, e2, e1⟩
    rw [← e]

/-- C14 on the epsilon-cycle `nfaLoop`: the run returns, and state 0 is active twice at
some point, so the bound 2 is reached. -/
theorem closure_one_terminates_witness :
    (∃ st' g, closure_one 2147483647 (-2147483648) 9
        ⟨[], poolOneTag, ⟨0, 0, 0, 0, 0⟩, [0], nfaLoop⟩ 0 = some st' ∧
      closure_one_ghost 2147483647 (-2147483648) 9 ⟨[], 0, []⟩
        ⟨[], poolOneTag, ⟨0, 0, 0, 0, 0⟩, [0], nfaLoop⟩ 0 = some (st', g) ∧
      g.peak ≤ 2 ∧ g.active = []) ∧
    (closure_one_ghost 2147483647 (-2147483648) 9 ⟨[], 0, []⟩
        ⟨[], poolOneTag, ⟨0, 0, 0, 0, 0⟩, [0], nfaLoop⟩ 0).map (fun r => r.2.peak) = some 2 :=
  ⟨closure_one_terminates 2147483647 (-2147483648) 9
    ⟨[], poolOneTag, ⟨0, 0, 0, 0, 0⟩, [0], nfaLoop⟩ 0 (by decide) (by decide) (by decide)
    (by decide), by decide⟩

theorem LexLt.trichotomy (f g : Nat → Int) (m : Nat) :
    LexLt f g m ∨ LexLt g f m ∨ ∀ j, j < m → f j = g j := by
  induction m with
  | zero => exact Or.inr (Or.inr (fun j hj => by omega))
  | succ m ih =>
    rcases ih with ⟨k, hk, e, l⟩ | ⟨k, hk, e, l⟩ | he
    · exact Or.inl ⟨k, by omega, e, l⟩
    · exact Or.inr (Or.inl ⟨k, by omega, e, l⟩)
    · rcases lt_trichotomy (f m) (g m) with hlt | heq | hgt
      · exact Or.inl ⟨m, by omega, he, hlt⟩
      · refine Or.inr (Or.inr (fun j hj => ?_))
        by_cases e : j = m
        · subst e; exact heq
        · exact he j (by omega)
      · exact Or.inr (Or.inl ⟨m, by omega, fun j hj => (he j hj).symm, hgt⟩)

theorem is_better_irrefl (c : clos_t) (tagpool : Tagpool) : is_better c c tagpool = false := by
  simp [is_better]

/-- If `b` beats `a` and `c` does not beat `a`, then `c` does not beat `b`. -/
theorem is_better_not_above (a b c : clos_t) (tagpool : Tagpool)
    (h1 : is_better a b tagpool = true) (h2 : is_better a c tagpool = false) :
    is_better b c tagpool = false := by
  cases h : is_better b c tagpool with
  | false => rfl
  | true =>
    have := LexLt.trans ((is_better_iff_lex a b tagpool).1 h1) ((is_better_iff_lex b c tagpool).1 h)
    rw [(is_better_iff_lex a c tagpool).2 this] at h2
    cases h2

/-- Two items neither of which beats the other carry the same tag vectors. -/
theorem sameVectors_of_not_better (c c' : clos_t) (tagpool : Tagpool)
    (h1 : is_better c c' tagpool = false) (h2 : is_better c' c tagpool = false) :
    SameVectors tagpool c c' := by
  have n1 : ¬ LexLt (scanValue tagpool c) (scanValue tagpool c') (3 * tagpool.ntags) :=
    fun h => by rw [(is_better_iff_lex c c' tagpool).2 h] at h1; cases h1
  have n2 : ¬ LexLt (scanValue tagpool c') (scanValue tagpool c) (3 * tagpool.ntags) :=
    fun h => by rw [(is_better_iff_lex c' c tagpool).2 h] at h2; cases h2
  rcases LexLt.trichotomy (scanValue tagpool c) (scanValue tagpool c') (3 * tagpool.ntags) with
    h | h | h
  · exact absurd h n1
  · exact absurd h n2
  · intro t ht
    have a0 := h (3 * (tagpool.ntags - 1 - t)) (by omega)
    have a1 := h (3 * (tagpool.ntags - 1 - t) + 1) (by omega)
    have a2 := h (3 * (tagpool.ntags - 1 - t) + 2) (by omega)
    have d0 : 3 * (tagpool.ntags - 1 - t) / 3 = tagpool.ntags - 1 - t := by omega
    have d1 : (3 * (tagpool.ntags - 1 - t) + 1) / 3 = tagpool.ntags - 1 - t := by omega
    have d2 : (3 * (tagpool.ntags - 1 - t) + 2) / 3 = tagpool.ntags - 1 - t := by omega
    have m0 : 3 * (tagpool.ntags - 1 - t) % 3 = 0 := by omega
    have m1 : (3 * (tagpool.ntags - 1 - t) + 1) % 3 = 1 := by omega
    have m2 : (3 * (tagpool.ntags - 1 - t) + 2) % 3 = 2 := by omega
    have et : tagpool.ntags - 1 - (tagpool.ntags - 1 - t) = t := by omega
    simp only [scanValue, d0, m0, et, if_true] at a0
    simp only [scanValue, d1, m1, et, if_true, one_ne_zero, if_false] at a1
    simp only [scanValue, d2, m2, et] at a2
    norm_num at a2
    exact ⟨a0, a1, a2⟩

/-- A pool that keeps the old vectors gives the same comparison of items whose handles
are handles of the old pool. -/
theorem is_better_poolExt {p q : Tagpool} (h : PoolExt p q) (c c' : clos_t)
    (h1 : HandleOK p c) (h2 : HandleOK p c') : is_better c c' q = is_better c c' p := by
  unfold is_better
  rw [poolExt_lookup h _ h1.1, poolExt_lookup h _ h1.2.1, poolExt_lookup h _ h1.2.2,
    poolExt_lookup h _ h2.1, poolExt_lookup h _ h2.2.1, poolExt_lookup h _ h2.2.2, h.1]

theorem handleOK_poolExt {p q : Tagpool} (h : PoolExt p q) (c : clos_t) (h1 : HandleOK p c) :
    HandleOK q c := by
  have := poolExt_length h
  exact ⟨by have := h1.1; omega, by have := h1.2.1; omega, by have := h1.2.2; omega⟩

theorem candInv_ext {p q : Tagpool} (h : PoolExt p q) (clos cands : List clos_t)
    (hI : CandInv p clos cands) : CandInv q clos cands := by
  obtain ⟨i1, i2, i3, i4, i5⟩ := hI
  refine ⟨i1, i2, i3, fun c' hc' => handleOK_poolExt h c' (i4 c' hc'), ?_⟩
  intro c hc c' hc' hs
  rw [is_better_poolExt h c c' (i4 c (i2 c hc)) (i4 c' hc')]
  exact i5 c hc c' hc' hs

/-- What `closure_put` leaves in a closure with pairwise different states: an old item,
which the new one does not beat if it has its state, or the new item, which then beats
every old item on its state. -/
theorem mem_closure_put (tagpool : Tagpool) (c0 : clos_t) (clos : List clos_t)
    (hn : (states_of clos).Nodup) (x : clos_t) (hx : x ∈ closure_put tagpool c0 clos) :
    (x ∈ clos ∧ (x.state = c0.state → is_better x c0 tagpool = false)) ∨
    (x = c0 ∧ ∀ c ∈ clos, c.state = c0.state → is_better c c0 tagpool = true) := by
  induction clos with
  | nil =>
    simp only [closure_put, List.mem_singleton] at hx
    exact Or.inr ⟨hx, fun c hc => by cases hc⟩
  | cons c rest ih =>
    simp only [states_of, List.map_cons, List.nodup_cons, List.mem_map, not_exists,
      not_and] at hn
    obtain ⟨hn1, hn2⟩ := hn
    unfold closure_put at hx
    by_cases hs : c.state = c0.state
    · rw [if_pos hs] at hx
      by_cases hb : is_better c c0 tagpool = true
      · rw [if_pos hb] at hx
        rcases List.mem_cons.1 hx with e | e
        · refine Or.inr ⟨e, fun c' hc' hs' => ?_⟩
          rcases List.mem_cons.1 hc' with e' | e'
          · rw [e']; exact hb
          · exact absurd (hs'.trans hs.symm) (hn1 c' e')
        · exact Or.inl ⟨List.mem_cons_of_mem _ e, fun hs' =>
            absurd (hs'.trans hs.symm) (hn1 x e)⟩
      · rw [if_neg hb] at hx
        rcases List.mem_cons.1 hx with e | e
        · subst e
          exact Or.inl ⟨List.mem_cons_self _ _, fun _ => by simpa using hb⟩
        · exact Or.inl ⟨List.mem_cons_of_mem _ e, fun hs' =>
            absurd (hs'.trans hs.symm) (hn1 x e)⟩
    · rw [if_neg hs] at hx
      rcases List.mem_cons.1 hx with e | e
      · subst e
        exact Or.inl ⟨List.mem_cons_self _ _, fun hs' => absurd hs' hs⟩
      · rcases ih hn2 e with ⟨h1, h2⟩ | ⟨h1, h2⟩
        · exact Or.inl ⟨List.mem_cons_of_mem _ h1, h2⟩
        · refine Or.inr ⟨h1, fun c' hc' hs' => ?_⟩
          rcases List.mem_cons.1 hc' with e' | e'
          · rw [e'] at hs'; exact absurd hs' hs
          · exact h2 c' e' hs'

/-- One insertion keeps the invariant of the expansion loop, with the inserted item as a
further candidate. -/
theorem candInv_put (tagpool : Tagpool) (c0 : clos_t) (clos cands : List clos_t)
    (hI : CandInv tagpool clos cands) (h0 : HandleOK tagpool c0) :
    CandInv tagpool (closure_put tagpool c0 clos) (cands ++ [c0]) := by
  obtain ⟨i1, i2, i3, i4, i5⟩ := hI
  have hst := states_of_closure_put tagpool c0 clos
  refine ⟨nodup_closure_put tagpool c0 clos i1, ?_, ?_, ?_, ?_⟩
  · intro x hx
    rcases mem_closure_put tagpool c0 clos i1 x hx with ⟨h1, -⟩ | ⟨h1, -⟩
    · exact List.mem_append_left _ (i2 x h1)
    · rw [h1]; simp
  · intro c' hc'
    rw [hst]
    rcases List.mem_append.1 hc' with h | h
    · have := i3 c' h
      split
      · exact this
      · exact List.mem_append_left _ this
    · simp only [List.mem_singleton] at h
      rw [h]
      split
      · assumption
      · simp
  · intro c' hc'
    rcases List.mem_append.1 hc' with h | h
    · exact i4 c' h
    · simp only [List.mem_singleton] at h
      rw [h]; exact h0
  · intro x hx c' hc' hs
    rcases mem_closure_put tagpool c0 clos i1 x hx with ⟨h1, h2⟩ | ⟨h1, h2⟩
    · rcases List.mem_append.1 hc' with h | h
      · exact i5 x h1 c' h hs
      · simp only [List.mem_singleton] at h
        rw [h] at hs ⊢
        exact h2 hs.symm
    · subst h1
      rcases List.mem_append.1 hc' with h | h
      · have hm := i3 c' h
        simp only [states_of, List.mem_map] at hm
        obtain ⟨c, hc, hcs⟩ := hm
        have hb := h2 c hc (hcs.trans hs)
        exact is_better_not_above c x c' tagpool hb (i5 c hc c' h hcs.symm)
      · simp only [List.mem_singleton] at h
        rw [h]; exact is_better_irrefl x tagpool

/-- The function `closure_one` keeps the invariant of the expansion loop; `N` is the number of
vectors in the pool when the loop was entered. -/
theorem closure_one_ghost_cand (CURSOR BOTTOM : Int) (N : Nat) (fuel : Nat) (g : ghost_t)
    (st : closure_st) (n : Nat) (r : closure_st × ghost_t)
    (h : closure_one_ghost CURSOR BOTTOM fuel g st n = some r)
    (hI : CandInv st.tagpool st.clos g.cands) (hN : N ≤ st.tagpool.vecs.length)
    (h0 : st.c0.ttran < N ∧ st.c0.tvers < N) :
    CandInv r.1.tagpool r.1.clos r.2.cands ∧ N ≤ r.1.tagpool.vecs.length ∧
      (r.1.c0.ttran < N ∧ r.1.c0.tvers < N) := by
  induction fuel generalizing g st n r with
  | zero => simp [closure_one_ghost] at h
  | succ fuel ih =>
    rw [closure_one_ghost] at h
    cases hs : st.nfa[n]? with
    | none => simp [hs] at h
    | some s =>
      simp only [hs] at h
      by_cases hl : s.loop > 1
      · rw [if_pos hl] at h
        cases h; exact ⟨hI, hN, h0⟩
      rw [if_neg hl] at h
      have hkernel : ∀ r' : closure_st × ghost_t,
          r' = (⟨closure_put (st.tagpool.insert st.tags).1
                    ⟨st.c0.origin, n, st.c0.tvers, st.c0.ttran, (st.tagpool.insert st.tags).2⟩
                    st.clos,
                  (st.tagpool.insert st.tags).1,
                  ⟨st.c0.origin, n, st.c0.tvers, st.c0.ttran, (st.tagpool.insert st.tags).2⟩,
                  st.tags, loop_dec (loop_inc st.nfa n) n⟩,
                ⟨(n :: g.active).tail, max g.peak ((n :: g.active).count n),
                  g.cands ++
                    [⟨st.c0.origin, n, st.c0.tvers, st.c0.ttran,
                      (st.tagpool.insert st.tags).2⟩]⟩) →
          CandInv r'.1.tagpool r'.1.clos r'.2.cands ∧ N ≤ r'.1.tagpool.vecs.length ∧
            (r'.1.c0.ttran < N ∧ r'.1.c0.tvers < N) := by
        intro r' hr'
        subst hr'
        obtain ⟨hext, hlt, -, -⟩ := insert_spec st.tagpool st.tags
        have hlen := poolExt_length hext
        refine ⟨candInv_put _ _ _ _ (candInv_ext hext _ _ hI) ⟨hlt, ?_, ?_⟩, ?_, h0⟩
        · have := h0.1; simp only; omega
        · have := h0.2; simp only; omega
        · simp only; omega
      cases hty : s.type with
      | NIL out =>
        simp only [hty, Option.map_eq_some'] at h
        obtain ⟨a, h1, h2⟩ := h
        subst h2
        exact ih _ _ _ a h1 hI hN h0
      | ALT out1 out2 =>
        simp only [hty, Option.map_eq_some', Option.bind_eq_some] at h
        obtain ⟨a, ⟨b, h1, h3⟩, h2⟩ := h
        subst h2
        obtain ⟨e1, e2, e3⟩ := ih _ _ _ b h1 hI hN h0
        exact ih _ _ _ a h3 e1 e2 e3
      | TAG out t bottom =>
        simp only [hty, Option.map_eq_some'] at h
        obtain ⟨a, ⟨b, h1, h3⟩, h2⟩ := h
        subst h2 h3
        exact ih _ _ _ b h1 hI hN h0
      | RAN out =>
        simp only [hty, Option.map_some', Option.some.injEq] at h
        exact hkernel r h.symm
      | FIN =>
        simp only [hty, Option.map_some', Option.some.injEq] at h
        exact hkernel r h.symm

theorem closure_expand_ghost_cand (CURSOR BOTTOM : Int) (N : Nat) (fuel : Nat)
    (clos1 : List clos_t) (g : ghost_t) (st : closure_st)
    (r : (List clos_t × closure_st) × ghost_t)
    (h : closure_expand_ghost CURSOR BOTTOM fuel clos1 g st = some r)
    (hI : CandInv st.tagpool st.clos g.cands) (hN : N ≤ st.tagpool.vecs.length)
    (h0 : ∀ c ∈ clos1, c.tvers < N ∧ c.ttran < N) :
    CandInv r.1.2.tagpool r.1.2.clos r.2.cands := by
  induction clos1 generalizing g st r with
  | nil =>
    simp only [closure_expand_ghost, Option.some.injEq] at h
    subst h; exact hI
  | cons c cs ih =>
    rw [closure_expand_ghost] at h
    split at h
    · cases h
    · rename_i r1 h1
      split at h
      · cases h
      · rename_i r2 h2
        cases h
        have hc := h0 c (List.mem_cons_self _ _)
        obtain ⟨e1, e2, -⟩ := closure_one_ghost_cand CURSOR BOTTOM N fuel g _ _ r1 h1 hI hN
          ⟨hc.2, hc.1⟩
        exact ih _ _ r2 h2 e1 e2 (fun c' hc' => h0 c' (List.mem_cons_of_mem _ hc'))

/-- C19: after the expansion loop of `closure` (all `closure_one` calls, started on an
empty output closure), every retained item is one of the candidates that reached the
kernel-state branch, every candidate has a retained item on its state, and no candidate
for the same state is better than the retained item: `is_better(retained, c')` is false,
evaluated in the pool as the loop leaves it.  Consequently the retained item carries the
same `tlook`, `ttran` and `tvers` vectors as every candidate for its state that is itself
such an extremum, so the vectors are fixed by the set of candidates and not by the order
of discovery.  The input items' `tvers` and `ttran` are handles of the pool.  The loop
returns on every closed arena once the recursion bound exceeds what the counters admit. -/
theorem closure_retains_extremum (CURSOR BOTTOM : Int) (fuel : Nat) (nfa : List nfa_state_t)
    (clos1 : List clos_t) (tagpool : Tagpool) (c00 : clos_t) (tags : List Int)
    (hv : HandlesValid tagpool clos1) :
    (∀ r, closure_expand CURSOR BOTTOM fuel clos1 ⟨[], tagpool, c00, tags, nfa⟩ = some r →
      ∃ g, closure_expand_ghost CURSOR BOTTOM fuel clos1 ⟨[], 0, []⟩
          ⟨[], tagpool, c00, tags, nfa⟩ = some (r, g) ∧
        (∀ c ∈ r.2.clos, c ∈ g.cands) ∧
        (∀ c' ∈ g.cands, ∃ c ∈ r.2.clos, c.state = c'.state) ∧
        (∀ c ∈ r.2.clos, ∀ c' ∈ g.cands, c'.state = c.state →
          is_better c c' r.2.tagpool = false) ∧
        (∀ c ∈ r.2.clos, ∀ c' ∈ g.cands, c'.state = c.state →
          (∀ c'' ∈ g.cands, c''.state = c.state → is_better c' c'' r.2.tagpool = false) →
          SameVectors r.2.tagpool c c')) ∧
    (NfaClosed nfa → (∀ c ∈ clos1, c.state < nfa.length) → slack nfa < fuel →
      ∃ r, closure_expand CURSOR BOTTOM fuel clos1 ⟨[], tagpool, c00, tags, nfa⟩ = some r) := by
  constructor
  · intro r h
    have e := closure_expand_ghost_erase CURSOR BOTTOM fuel clos1 ⟨[], 0, []⟩
      ⟨[], tagpool, c00, tags, nfa⟩
    rw [h] at e
    cases hg : closure_expand_ghost CURSOR BOTTOM fuel clos1 ⟨[], 0, []⟩
        ⟨[], tagpool, c00, tags, nfa⟩ with
    | none => rw [hg] at e; cases e
    | some rg =>
      rw [hg] at e
      simp only [Option.map_some', Option.some.injEq] at e
      have hI0 : CandInv tagpool [] [] :=
        ⟨List.nodup_nil, fun c hc => absurd hc (List.not_mem_nil c),
          fun c hc => absurd hc (List.not_mem_nil c),
          fun c hc => absurd hc (List.not_mem_nil c),
          fun c hc => absurd hc (List.not_mem_nil c)⟩
      obtain ⟨i1, i2, i3, i4, i5⟩ := closure_expand_ghost_cand CURSOR BOTTOM
        tagpool.vecs.length fuel clos1 _ _ rg hg hI0 (Nat.le_refl _) hv
      subst e
      refine ⟨rg.2, rfl, i2, ?_, i5, ?_⟩
      · intro c' hc'
        have := i3 c' hc'
        simp only [states_of, List.mem_map] at this
        exact this
      · intro c hc c' hc' hs hmax
        exact sameVectors_of_not_better c c' _ (i5 c hc c' hc' hs) (hmax c (i2 c hc) rfl)
  · intro hc hn hf
    obtain ⟨r, h, -⟩ := closure_expand_total CURSOR BOTTOM fuel clos1
      ⟨[], tagpool, c00, tags, nfa⟩ hc hn hf
    exact ⟨r, h⟩

/-- C19 on `nfaTwoPaths`: the final state is reached with the lookahead vectors `[CURSOR]`
and `[0]`; the item with `[CURSOR]` is retained, and it is retained as well when the
alternatives are explored in the other order (`nfaTwoPathsSwapped`). -/
theorem closure_retains_extremum_witness :
    (∃ g, closure_expand_ghost 2147483647 (-2147483648) 9 [⟨0, 0, 0, 0, 0⟩] ⟨[], 0, []⟩
        ⟨[], poolOneTag, ⟨0, 0, 0, 0, 0⟩, [0], nfaTwoPaths⟩ =
        some (([⟨0, 3, 0, 0, 0⟩],
          ⟨[⟨0, 3, 0, 0, 1⟩], ⟨1, [[0], [2147483647]], [0], [0], [0]⟩, ⟨0, 3, 0, 0, 0⟩, [0],
            nfaTwoPaths⟩), g) ∧
        (∀ c' ∈ g.cands, c'.state = 3 →
          is_better ⟨0, 3, 0, 0, 1⟩ c' ⟨1, [[0], [2147483647]], [0], [0], [0]⟩ = false)) ∧
    ((closure_expand_ghost 2147483647 (-2147483648) 9 [⟨0, 0, 0, 0, 0⟩] ⟨[], 0, []⟩
        ⟨[], poolOneTag, ⟨0, 0, 0, 0, 0⟩, [0], nfaTwoPaths⟩).map (fun r => r.2.cands) =
      some [⟨0, 3, 0, 0, 1⟩, ⟨0, 3, 0, 0, 0⟩]) ∧
    ((closure_expand_ghost 2147483647 (-2147483648) 9 [⟨0, 0, 0, 0, 0⟩] ⟨[], 0, []⟩
        ⟨[], poolOneTag, ⟨0, 0, 0, 0, 0⟩, [0], nfaTwoPathsSwapped⟩).map
          (fun r => (r.2.cands, r.1.2.clos.map (fun c => r.1.2.tagpool.lookup c.tlook))) =
      some ([⟨0, 3, 0, 0, 0⟩, ⟨0, 3, 0, 0, 1⟩], [[2147483647]])) := by
  refine ⟨?_, by decide, by decide⟩
  obtain ⟨g, h1, -, -, h4, -⟩ := (closure_retains_extremum 2147483647 (-2147483648) 9
    nfaTwoPaths [⟨0, 0, 0, 0, 0⟩] poolOneTag ⟨0, 0, 0, 0, 0⟩ [0] (by decide)).1
    ([⟨0, 3, 0, 0, 0⟩],
      ⟨[⟨0, 3, 0, 0, 1⟩], ⟨1, [[0], [2147483647]], [0], [0], [0]⟩, ⟨0, 3, 0, 0, 0⟩, [0],
        nfaTwoPaths⟩) (by decide)
  exact ⟨g, h1, fun c' hc' hs => h4 ⟨0, 3, 0, 0, 1⟩ (by simp) c' hc' hs⟩

theorem go_find_lt (go : List (Nat × List Nat)) (p : Nat)
    (h : ∀ e ∈ go, p < e.1) : go_find go p = [] := by
  induction go with
  | nil => rfl
  | cons e rest ih =>
    obtain ⟨q, cs⟩ := e
    have hq := h (q, cs) (List.mem_cons_self _ _)
    simp only at hq
    rw [go_find, if_neg (by omega)]
    exact ih (fun e he => h e (List.mem_cons_of_mem _ he))

/-- The keys of the map stay in strictly increasing order under `push_back`, and the
entry of `p` grows by the character while every other entry is untouched. -/
theorem go_push_spec (go : List (Nat × List Nat)) (p c : Nat)
    (hs : (go.map (fun e => e.1)).Pairwise (fun a b => a < b)) :
    ((go_push go p c).map (fun e => e.1)).Pairwise (fun a b => a < b) ∧
    (∀ k ∈ (go_push go p c).map (fun e => e.1), k = p ∨ k ∈ go.map (fun e => e.1)) ∧
    (∀ q, go_find (go_push go p c) q = if q = p then go_find go p ++ [c] else go_find go q) := by
  induction go with
  | nil =>
    refine ⟨by simp [go_push], by simp [go_push], fun q => ?_⟩
    simp only [go_push, go_find]
    by_cases e : p = q
    · rw [if_pos e, if_pos e.symm]; rfl
    · rw [if_neg e, if_neg (fun e' => e e'.symm)]
  | cons e rest ih =>
    obtain ⟨q0, cs⟩ := e
    simp only [List.map_cons, List.pairwise_cons] at hs
    obtain ⟨hs1, hs2⟩ := hs
    obtain ⟨i1, i2, i3⟩ := ih hs2
    unfold go_push
    by_cases e1 : q0 = p
    · rw [if_pos e1]
      refine ⟨?_, ?_, fun q => ?_⟩
      · simp only [List.map_cons, List.pairwise_cons]
        exact ⟨hs1, hs2⟩
      · intro k hk
        exact Or.inr hk
      · subst e1
        simp only [go_find, if_true]
        by_cases e2 : q0 = q
        · rw [if_pos e2, if_pos e2.symm]
        · rw [if_neg e2, if_neg (fun e' => e2 e'.symm), if_neg e2]
    · rw [if_neg e1]
      by_cases e3 : p < q0
      · rw [if_pos e3]
        refine ⟨?_, ?_, fun q => ?_⟩
        · simp only [List.map_cons, List.pairwise_cons]
          refine ⟨?_, hs1, hs2⟩
          intro a ha
          rcases List.mem_cons.1 ha with h | h
          · omega
          · have := hs1 a h; omega
        · intro k hk
          simp only [List.map_cons, List.mem_cons] at hk ⊢
          rcases hk with h | h | h
          · exact Or.inl h
          · exact Or.inr (Or.inl h)
          · exact Or.inr (Or.inr h)
        · have hnil : go_find rest p = [] :=
            go_find_lt rest p (fun e he => by
              have := hs1 e.1 (List.mem_map_of_mem _ he); omega)
          simp only [go_find, if_neg e1, hnil, List.nil_append]
          by_cases e2 : p = q
          · rw [if_pos e2, if_pos e2.symm]
          · rw [if_neg e2, if_neg (fun e' : q = p => e2 e'.symm)]
      · rw [if_neg e3]
        refine ⟨?_, ?_, fun q => ?_⟩
        · simp only [List.map_cons, List.pairwise_cons]
          refine ⟨?_, i1⟩
          intro a ha
          rcases i2 a ha with h | h
          · omega
          · exact hs1 a h
        · intro k hk
          simp only [List.map_cons, List.mem_cons] at hk ⊢
          rcases hk with h | h
          · exact Or.inr (Or.inl h)
          · rcases i2 k h with h' | h'
            · exact Or.inl h'
            · exact Or.inr (Or.inr h')
        · simp only [go_find, if_neg e1]
          by_cases e2 : q0 = q
          · rw [if_pos e2, if_neg (fun e' : q = p => e1 (e2.trans e')), if_pos e2]
          · rw [if_neg e2, i3 q, if_neg e2]

/-- The span loop appends to the entry of each successor `p` the characters of the spans
that lead to `p`, in span order. -/
theorem init_spans_spec (m : Option Nat → Nat) (spans : List Span) (lb : Nat)
    (go : List (Nat × List Nat))
    (hs : (go.map (fun e => e.1)).Pairwise (fun a b => a < b)) :
    ((init_spans m spans lb go).map (fun e => e.1)).Pairwise (fun a b => a < b) ∧
    (∀ p, go_find (init_spans m spans lb go) p =
      go_find go p ++ ((with_lb lb spans).filter (fun x => decide (m x.2.to_state = p))).flatMap
        (fun x => span_chars x.1 x.2.ub)) := by
  induction spans generalizing lb go with
  | nil => exact ⟨hs, fun p => by simp [init_spans, with_lb]⟩
  | cons sp rest ih =>
    obtain ⟨a1, -, a3⟩ := go_push_spec go (m sp.to_state) lb hs
    obtain ⟨b1, -, b3⟩ := go_push_spec (go_push go (m sp.to_state) lb) (m sp.to_state)
      ((sp.ub + 2 ^ 32 - 1) % 2 ^ 32) a1
    rw [init_spans, with_lb]
    generalize hU : (sp.ub + 2 ^ 32 - 1) % 2 ^ 32 = U at a3 b1 b3 ⊢
    have hsc : span_chars lb sp.ub = if lb ≠ U then [lb, U] else [lb] := by
      rw [span_chars, hU]
    have key : ∀ p, go_find (if lb ≠ U then go_push (go_push go (m sp.to_state) lb)
          (m sp.to_state) U else go_push go (m sp.to_state) lb) p =
        go_find go p ++ (if m sp.to_state = p then span_chars lb sp.ub else []) := by
      intro p
      rw [hsc]
      by_cases e : lb ≠ U
      · rw [if_pos e, if_pos e, b3 p, a3 p]
        by_cases ep : p = m sp.to_state
        · rw [if_pos ep, if_pos ep.symm, a3, if_pos rfl, ep, List.append_assoc]
          rfl
        · rw [if_neg ep, if_neg ep, if_neg (fun h => ep h.symm), List.append_nil]
      · rw [if_neg e, if_neg e, a3 p]
        by_cases ep : p = m sp.to_state
        · rw [if_pos ep, if_pos ep.symm, ep]
        · rw [if_neg ep, if_neg (fun h => ep h.symm), List.append_nil]
    have s2 : ((if lb ≠ U then go_push (go_push go (m sp.to_state) lb)
          (m sp.to_state) U else go_push go (m sp.to_state) lb).map
          (fun e => e.1)).Pairwise (fun a b => a < b) := by
      by_cases e : lb ≠ U
      · rw [if_pos e]; exact b1
      · rw [if_neg e]; exact a1
    obtain ⟨c1, c3⟩ := ih sp.ub _ s2
    refine ⟨c1, fun p => ?_⟩
    rw [c3 p, key p, List.filter_cons]
    by_cases ep : m sp.to_state = p
    · simp only [ep, decide_True, if_true, List.flatMap_cons, List.append_assoc]
    · simp only [ep, decide_False, if_false, List.append_nil]
      rfl

theorem with_lb_lt (spans : List Span) (lb : Nat)
    (h : (lb :: spans.map (fun sp => sp.ub)).Chain' (fun a b => a < b)) :
    ∀ x ∈ with_lb lb spans, x.1 < x.2.ub := by
  induction spans generalizing lb with
  | nil => intro x hx; cases hx
  | cons sp rest ih =>
    simp only [List.map_cons, List.chain'_cons] at h
    intro x hx
    rw [with_lb] at hx
    rcases List.mem_cons.1 hx with e | e
    · rw [e]; exact h.1
    · exact ih sp.ub h.2 x e

theorem span_chars_cases (lb ub : Nat) (hub : ub < 2 ^ 32) :
    ((ub : Int) - 1 = lb → span_chars lb ub = [lb]) ∧
    ((ub : Int) - 1 > lb → span_chars lb ub = [lb, ub - 1]) ∧
    (span_chars lb ub).length ≤ 2 := by
  unfold span_chars
  refine ⟨fun h => ?_, fun h => ?_, ?_⟩
  · have e : (ub + 2 ^ 32 - 1) % 2 ^ 32 = lb := by omega
    rw [e]
    simp
  · have e : (ub + 2 ^ 32 - 1) % 2 ^ 32 = ub - 1 := by omega
    rw [e, if_pos (by omega)]
  · split <;> simp

theorem init_is_final (st : State) :
    (decide (st.span.length = 1) && decide ((st.span.map Span.to_state)[0]? = some none)) = true ↔
      ∃ sp, st.span = [sp] ∧ sp.to_state = none := by
  constructor
  · intro h
    simp only [Bool.and_eq_true, decide_eq_true_eq] at h
    obtain ⟨h1, h2⟩ := h
    match hsp : st.span, h1, h2 with
    | [sp], _, h2 =>
      refine ⟨sp, rfl, ?_⟩
      simpa using h2
  · rintro ⟨sp, h1, h2⟩
    simp [h1, h2]

/-- C18: what `SkeletonState::init` makes of a DFA state.  A state that is the null state,
or that has exactly one span and that span leads to the null state, gets an empty `go`
map, `path_len = 0` and a cached path without characters.  Every other state keeps no
cached path and an invalid `path_len`; its `go` map has its keys in increasing order, and
for each successor `p` the entry `go[p]` is the concatenation, in span order over the
spans that lead to `p`, of the characters of the span, where the span `[lb, ub)` (with
`lb_0 = 0` and `lb_j = ub_(j-1)`) gives `[lb]` when `ub - 1 = lb` and `[lb, ub - 1]` when
`ub - 1 > lb`, never more than two characters; with strictly increasing bounds one of the
two cases holds for every span. -/
theorem init_go_map (s : Option State) (m : Option Nat → Nat) :
    ((s = none ∨ ∃ st sp, s = some st ∧ st.span = [sp] ∧ sp.to_state = none) →
      (default_state.init s m).go = [] ∧ (default_state.init s m).path_len = 0 ∧
      ∃ π, (default_state.init s m).path = some π ∧ π.chars = []) ∧
    (∀ st, s = some st → (¬ ∃ sp, st.span = [sp] ∧ sp.to_state = none) →
      (default_state.init s m).path = none ∧
      (default_state.init s m).path_len = INVALID_PATH_LEN ∧
      (((default_state.init s m).go.map (fun e => e.1)).Pairwise (fun a b => a < b)) ∧
      (∀ p, go_find (default_state.init s m).go p =
        ((with_lb 0 st.span).filter (fun x => decide (m x.2.to_state = p))).flatMap
          (fun x => span_chars x.1 x.2.ub)) ∧
      (∀ x ∈ with_lb 0 st.span, x.2.ub < 2 ^ 32 →
        ((x.2.ub : Int) - 1 = x.1 → span_chars x.1 x.2.ub = [x.1]) ∧
        ((x.2.ub : Int) - 1 > x.1 → span_chars x.1 x.2.ub = [x.1, x.2.ub - 1]) ∧
        (span_chars x.1 x.2.ub).length ≤ 2) ∧
      ((0 :: st.span.map (fun sp => sp.ub)).Chain' (fun a b => a < b) →
        ∀ x ∈ with_lb 0 st.span, (x.2.ub : Int) - 1 = x.1 ∨ (x.2.ub : Int) - 1 > x.1)) := by
  constructor
  · rintro (h | ⟨st, sp, h1, h2, h3⟩)
    · subst h
      exact ⟨rfl, rfl, _, rfl, rfl⟩
    · subst h1
      cases hr : st.rule with
      | none => simp [SkeletonState.init, hr, default_state, h2, h3]
      | some a => simp [SkeletonState.init, hr, default_state, h2, h3]
  · intro st hs hnf
    subst hs
    have hf : (decide (st.span.length = 1) &&
        decide ((st.span.map Span.to_state)[0]? = some none)) = false := by
      cases h : (decide (st.span.length = 1) &&
        decide ((st.span.map Span.to_state)[0]? = some none)) with
      | false => rfl
      | true => exact absurd ((init_is_final st).1 h) hnf
    obtain ⟨k1, k2⟩ := init_spans_spec m st.span 0 [] List.Pairwise.nil
    have hgo : (default_state.init (some st) m).go = init_spans m st.span 0 [] := by
      unfold SkeletonState.init
      simp only [hf]
      cases st.rule with
      | none => rfl
      | some a => rfl
    have hp : (default_state.init (some st) m).path = none ∧
        (default_state.init (some st) m).path_len = INVALID_PATH_LEN := by
      unfold SkeletonState.init
      simp only [hf]
      cases st.rule with
      | none => exact ⟨rfl, rfl⟩
      | some a => exact ⟨rfl, rfl⟩
    refine ⟨hp.1, hp.2, ?_, ?_, ?_, ?_⟩
    · rw [hgo]; exact k1
    · intro p
      rw [hgo, k2 p]
      rfl
    · intro x _ hub
      exact span_chars_cases x.1 x.2.ub hub
    · intro hch x hx
      have := with_lb_lt st.span 0 hch x hx
      omega

/-- C18 on the DFA state of scenario S4 (spans `[0, 97)` to null, `[97, 98)` to itself,
`[98, 256)` to null) and on the null state. -/
theorem init_go_map_witness :
    (default_state.init (some ⟨[⟨97, none⟩, ⟨98, some 0⟩, ⟨256, none⟩], some 0⟩)
      (fun t => t.getD 1)).go = [(0, [97]), (1, [0, 96, 98, 255])] ∧
    go_find (default_state.init (some ⟨[⟨97, none⟩, ⟨98, some 0⟩, ⟨256, none⟩], some 0⟩)
      (fun t => t.getD 1)).go 1 = [0, 96] ++ [98, 255] ∧
    (default_state.init none (fun t => t.getD 1)).path_len = 0 ∧
    Skeleton dfaLoop = skLoop := by
  refine ⟨by decide, ?_, ?_, by decide⟩
  · rw [((init_go_map (some ⟨[⟨97, none⟩, ⟨98, some 0⟩, ⟨256, none⟩], some 0⟩)
      (fun t => t.getD 1)).2 _ rfl (by rintro ⟨sp, h, -⟩; simp at h)).2.2.2.1 1]
    decide
  · exact ((init_go_map none (fun t => t.getD 1)).1 (Or.inl rfl)).2.1

theorem frame_getElem {x y : List SkeletonState} (h : List.Forall₂ Frame x y) (i : Nat)
    (a : SkeletonState) (ha : x[i]? = some a) : ∃ b, y[i]? = some b ∧ Frame a b := by
  induction h generalizing i with
  | nil => simp at ha
  | cons hab _ ih =>
    cases i with
    | zero =>
      simp only [List.getElem?_cons_zero, Option.some.injEq] at ha
      subst ha
      exact ⟨_, by simp, hab⟩
    | succ i =>
      simp only [List.getElem?_cons_succ] at ha ⊢
      exact ih i ha

/-- Two skeletons with the same `go` maps and `path_len` fields satisfy the invariant
together. -/
theorem pathLenInv_congr (sk sk' : List SkeletonState)
    (h : sk'.map (fun st => (st.go, st.path_len)) = sk.map (fun st => (st.go, st.path_len)))
    (hI : PathLenInv sk) : PathLenInv sk' := by
  have hget : ∀ (i : Nat) (st' : SkeletonState), sk'[i]? = some st' →
      ∃ st, sk[i]? = some st ∧ st.go = st'.go ∧ st.path_len = st'.path_len := by
    intro i st' hi
    have e := congrArg (fun l => l[i]?) h
    simp only [List.getElem?_map, hi, Option.map_some'] at e
    cases hs : sk[i]? with
    | none => rw [hs] at e; cases e
    | some st =>
      rw [hs] at e
      simp only [Option.map_some', Option.some.injEq, Prod.mk.injEq] at e
      exact ⟨st, rfl, e.1.symm, e.2.symm⟩
  have hget' : ∀ (i : Nat) (st : SkeletonState), sk[i]? = some st →
      ∃ st', sk'[i]? = some st' ∧ st'.go = st.go ∧ st'.path_len = st.path_len := by
    intro i st hi
    have e := congrArg (fun l => l[i]?) h
    simp only [List.getElem?_map, hi, Option.map_some'] at e
    cases hs : sk'[i]? with
    | none => rw [hs] at e; cases e
    | some st' =>
      rw [hs] at e
      simp only [Option.map_some', Option.some.injEq, Prod.mk.injEq] at e
      exact ⟨st', rfl, e.1, e.2⟩
  have hcount : sk'.countP valid_len = sk.countP valid_len := by
    have e := congrArg (fun l => l.countP (fun x => decide (x.2 ≠ INVALID_PATH_LEN))) h
    simp only [List.countP_map] at e
    exact e
  obtain ⟨i1, i2⟩ := hI
  constructor
  · intro s st' hs hv
    obtain ⟨st, h1, h2, h3⟩ := hget s st' hs
    rcases i1 s st h1 (by rw [h3]; exact hv) with ⟨a, b⟩ | ⟨e, he, pt, hp, hpv, hpl⟩
    · exact Or.inl ⟨by rw [← h2]; exact a, by rw [← h3]; exact b⟩
    · obtain ⟨pt', k1, k2, k3⟩ := hget' e.1 pt hp
      exact Or.inr ⟨e, by rw [← h2]; exact he, pt', k1, by rw [k3]; exact hpv, by
        rw [← h3, k3]; exact hpl⟩
  · intro st' hst' hv
    obtain ⟨i, hi⟩ := List.getElem?_of_mem hst'
    obtain ⟨st, h1, h2, h3⟩ := hget i st' hi
    rw [hcount, ← h3]
    exact i2 st (List.getElem?_mem h1) (by rw [h3]; exact hv)

theorem visit_inc_proj (sk : List SkeletonState) (s : Nat) :
    (visit_inc sk s).map (fun st => (st.go, st.path_len)) =
      sk.map (fun st => (st.go, st.path_len)) := by
  induction sk generalizing s with
  | nil => simp [visit_inc]
  | cons a rest ih =>
    cases s with
    | zero => simp [visit_inc]
    | succ n =>
      have := ih n
      unfold visit_inc at this ⊢
      simp only [List.getElem?_cons_succ]
      cases h : rest[n]? with
      | none => simp
      | some s' => simp only [h] at this; simp [this]

theorem visit_dec_proj (sk : List SkeletonState) (s : Nat) :
    (visit_dec sk s).map (fun st => (st.go, st.path_len)) =
      sk.map (fun st => (st.go, st.path_len)) := by
  induction sk generalizing s with
  | nil => simp [visit_dec]
  | cons a rest ih =>
    cases s with
    | zero => simp [visit_dec]
    | succ n =>
      have := ih n
      unfold visit_dec at this ⊢
      simp only [List.getElem?_cons_succ]
      cases h : rest[n]? with
      | none => simp
      | some s' => simp only [h] at this; simp [this]

theorem countP_set_new (sk : List SkeletonState) (s : Nat) (st st1 : SkeletonState)
    (hs : sk[s]? = some st) (h0 : valid_len st = false) (h1 : valid_len st1 = true) :
    (sk.set s st1).countP valid_len = sk.countP valid_len + 1 := by
  induction sk generalizing s with
  | nil => simp at hs
  | cons a rest ih =>
    cases s with
    | zero =>
      simp only [List.getElem?_cons_zero, Option.some.injEq] at hs
      subst hs
      simp [List.countP_cons, h0, h1]
    | succ n =>
      simp only [List.getElem?_cons_succ] at hs
      simp only [List.set_cons_succ, List.countP_cons, ih n hs]
      omega

/-- A fresh skeleton satisfies the invariant. -/
theorem fresh_pathLenInv (sk : List SkeletonState) (h : Fresh sk) : PathLenInv sk := by
  constructor
  · intro s st hs hv
    have hm := List.getElem?_mem hs
    by_cases hg : st.go = []
    · exact Or.inl ⟨hg, (h st hm).1 hg⟩
    · exact absurd ((h st hm).2 hg) hv
  · intro st hm hv
    have hg : st.go = [] := by
      by_cases hg : st.go = []
      · exact hg
      · exact absurd ((h st hm).2 hg) hv
    rw [(h st hm).1 hg]
    exact List.countP_pos_iff.2 ⟨st, hm, by simp [valid_len, hv]⟩

/-- Under the invariant a valid `path_len` is the length of a path to a final state. -/
theorem pathLenInv_reach (sk : List SkeletonState) (hI : PathLenInv sk) (n : Nat) :
    ∀ (s : Nat) (st : SkeletonState), sk[s]? = some st → st.path_len ≠ INVALID_PATH_LEN →
      st.path_len = n →
      reach_final sk n s = true := by
  induction n with
  | zero =>
    intro s st hs hv h0
    rcases hI.1 s st hs hv with ⟨a, -⟩ | ⟨e, -, pt, -, -, hpl⟩
    · simp [reach_final, hs, a]
    · omega
  | succ n ih =>
    intro s st hs hv hn
    rcases hI.1 s st hs hv with ⟨-, b⟩ | ⟨e, he, pt, hp, hpv, hpl⟩
    · omega
    · have := ih e.1 pt hp hpv (by omega)
      simp only [reach_final, hs, List.any_eq_true]
      exact ⟨e, he, this⟩

/-- The assignment `s->path_len = i->first->path_len + 1` keeps the invariant when it reads
a valid `path_len`, which it does whenever the call on the successor returned a non-zero
value; the value written is a length again, and `s` is valid afterwards. -/
theorem set_path_len_inv (sk : List SkeletonState) (s p n : Nat) (hI : PathLenInv sk)
    (hlen : sk.length < 2 ^ 32 - 2)
    (hedge : ∀ st, sk[s]? = some st → ∃ e ∈ st.go, e.1 = p)
    (hp : n ≠ 0 → ∃ pt, sk[p]? = some pt ∧ pt.path_len ≠ INVALID_PATH_LEN) :
    PathLenInv (set_path_len sk s p n) ∧
    (n ≠ 0 → ∀ st', (set_path_len sk s p n)[s]? = some st' →
      st'.path_len ≠ INVALID_PATH_LEN) := by
  unfold set_path_len
  split
  · rename_i st pt hs hpt
    by_cases hc : n ≠ 0 ∧ st.path_len = INVALID_PATH_LEN
    · rw [if_pos hc]
      obtain ⟨pt', hpt', hpv⟩ := hp hc.1
      rw [hpt] at hpt'
      cases hpt'
      have hslt : s < sk.length := (List.getElem?_eq_some.1 hs).1
      have hbound : pt.path_len < sk.countP valid_len := hI.2 pt (List.getElem?_mem hpt) hpv
      have hcl : sk.countP valid_len ≤ sk.length := List.countP_le_length _
      have hmod : (pt.path_len + 1) % 2 ^ 32 = pt.path_len + 1 := by
        apply Nat.mod_eq_of_lt; omega
      have hv1 : pt.path_len + 1 ≠ INVALID_PATH_LEN := by
        simp only [INVALID_PATH_LEN]; omega
      have hps : p ≠ s := by
        intro e
        rw [e, hs] at hpt
        cases hpt
        exact hpv hc.2
      have hcount := countP_set_new sk s st { st with path_len := (pt.path_len + 1) % 2 ^ 32 }
        hs (by simp [valid_len, hc.2]) (by simp only [valid_len, hmod]; simpa using hv1)
      refine ⟨⟨?_, ?_⟩, ?_⟩
      · intro t x ht hx
        by_cases ets : s = t
        · subst ets
          rw [List.getElem?_set_self hslt] at ht
          cases ht
          obtain ⟨e, he, hep⟩ := hedge st hs
          refine Or.inr ⟨e, he, pt, ?_, hpv, hmod⟩
          rw [hep, List.getElem?_set_ne (fun e' => hps e'.symm)]
          exact hpt
        · rw [List.getElem?_set_ne ets] at ht
          rcases hI.1 t x ht hx with h1 | ⟨e, he, y, hy, hyv, hyl⟩
          · exact Or.inl h1
          · refine Or.inr ⟨e, he, y, ?_, hyv, hyl⟩
            have : s ≠ e.1 := by
              intro e'
              rw [← e', hs] at hy
              cases hy
              exact hyv hc.2
            rw [List.getElem?_set_ne this]
            exact hy
      · intro x hx hxv
        rw [hcount]
        rcases List.mem_or_eq_of_mem_set hx with h1 | h1
        · have := hI.2 x h1 hxv
          omega
        · rw [h1]
          simp only [hmod]
          omega
      · intro _ st' hst'
        rw [List.getElem?_set_self hslt] at hst'
        cases hst'
        simp only [hmod]
        exact hv1
    · rw [if_neg hc]
      refine ⟨hI, fun hn st' hst' => ?_⟩
      rw [hs] at hst'
      cases hst'
      intro hinv
      exact hc ⟨hn, hinv⟩
  · rename_i hnone
    refine ⟨hI, fun hn st' hst' => ?_⟩
    obtain ⟨pt, hpt, -⟩ := hp hn
    exact absurd hpt (hnone st' pt hst')

theorem frame_valid_at {x y : List SkeletonState} (h : List.Forall₂ Frame x y) (s : Nat)
    (hv : ∃ st, x[s]? = some st ∧ st.path_len ≠ INVALID_PATH_LEN) :
    ∃ st, y[s]? = some st ∧ st.path_len ≠ INVALID_PATH_LEN := by
  obtain ⟨st, hs, hv⟩ := hv
  obtain ⟨b, hb, hf⟩ := frame_getElem h s st hs
  exact ⟨b, hb, by rw [hf.2.2.2.2 hv]; exact hv⟩

theorem frame_go_at {x y : List SkeletonState} (h : List.Forall₂ Frame x y) (s : Nat)
    (go : List (Nat × List Nat)) (hg : ∃ st, x[s]? = some st ∧ st.go = go) :
    ∃ st, y[s]? = some st ∧ st.go = go := by
  obtain ⟨st, hs, hg⟩ := hg
  obtain ⟨b, hb, hf⟩ := frame_getElem h s st hs
  exact ⟨b, hb, by rw [hf.1]; exact hg⟩

/-- The edge loop of `estimate_size_cover` keeps the invariant, and when it returns a
non-zero value the state `s` has a valid `path_len`. -/
theorem cover_loop_inv
    (call : List SkeletonState → Nat → Nat → Nat → Option (Nat × List SkeletonState))
    (hframe : ∀ sk p c l r, call sk p c l = some r → List.Forall₂ Frame sk r.2)
    (hcall : ∀ sk p c l r, call sk p c l = some r → PathLenInv sk → sk.length < 2 ^ 32 - 2 →
      PathLenInv r.2 ∧
      (r.1 ≠ 0 → ∃ pt, r.2[p]? = some pt ∧ pt.path_len ≠ INVALID_PATH_LEN))
    (go : List (Nat × List Nat)) (s count len : Nat) (rounds idx : Nat) (wrapped : Bool)
    (c : Nat) (sk : List SkeletonState) (result : Nat) (r : Nat × List SkeletonState)
    (h : cover_loop call go s count len rounds idx wrapped c sk result = some r)
    (hI : PathLenInv sk) (hlen : sk.length < 2 ^ 32 - 2)
    (hgo : ∃ st, sk[s]? = some st ∧ st.go = go)
    (hres : result ≠ 0 → ∃ st, sk[s]? = some st ∧ st.path_len ≠ INVALID_PATH_LEN) :
    PathLenInv r.2 ∧
    (r.1 ≠ 0 → ∃ st, r.2[s]? = some st ∧ st.path_len ≠ INVALID_PATH_LEN) := by
  induction rounds generalizing idx wrapped c sk result with
  | zero => simp [cover_loop] at h
  | succ rounds ih =>
    rw [cover_loop] at h
    split at h
    · cases h
      refine ⟨hI, fun hr => hres ?_⟩
      intro h0
      rw [h0] at hr
      exact hr rfl
    · split at h
      · cases h
      · simp only at h
        split at h
        · cases h
        · rename_i e he _ r1 hc
          have f1 := hframe _ _ _ _ _ hc
          have f2 := set_path_len_frame r1.2 s e.1 r1.1
          obtain ⟨hI1, hp1⟩ := hcall _ _ _ _ _ hc hI hlen
          have hlen1 : r1.2.length < 2 ^ 32 - 2 := by rw [← f1.length_eq]; exact hlen
          have hgo1 := frame_go_at f1 s go hgo
          have hmem : e ∈ go := List.getElem?_mem he
          obtain ⟨hI2, hp2⟩ := set_path_len_inv r1.2 s e.1 r1.1 hI1 hlen1
            (fun st hst => by
              obtain ⟨st', hst', hg'⟩ := hgo1
              rw [hst] at hst'
              cases hst'
              exact ⟨e, by rw [hg']; exact hmem, rfl⟩) hp1
          have hlen2 : (set_path_len r1.2 s e.1 r1.1).length < 2 ^ 32 - 2 := by
            rw [← f2.length_eq]; exact hlen1
          have hgo2 := frame_go_at f2 s go hgo1
          have hres2 : (result + r1.1) % 2 ^ 64 ≠ 0 →
              ∃ st, (set_path_len r1.2 s e.1 r1.1)[s]? = some st ∧
                st.path_len ≠ INVALID_PATH_LEN := by
            intro hne
            by_cases hr0 : result ≠ 0
            · exact frame_valid_at f2 s (frame_valid_at f1 s (hres hr0))
            · have hr1 : r1.1 ≠ 0 := by
                intro h0
                simp only [not_not] at hr0
                rw [hr0, h0] at hne
                exact hne rfl
              obtain ⟨st2, hst2, -⟩ := hgo2
              exact ⟨st2, hst2, hp2 hr1 st2 hst2⟩
          split at h
          · rename_i hgt
            cases h
            refine ⟨hI2, fun _ => hres2 ?_⟩
            intro h0
            rw [h0] at hgt
            exact absurd hgt (by decide)
          · split at h
            · exact ih _ _ _ _ _ h hI2 hlen2 hgo2 hres2
            · exact ih _ _ _ _ _ h hI2 hlen2 hgo2 hres2

/-- Every call of `estimate_size_cover` keeps the invariant, and when it returns a non-zero
value the state it was called on has a valid `path_len` afterwards. -/
theorem estimate_size_cover_inv (fuel : Nat) (sk : List SkeletonState) (s count len : Nat)
    (r : Nat × List SkeletonState) (h : estimate_size_cover fuel sk s count len = some r)
    (hI : PathLenInv sk) (hlen : sk.length < 2 ^ 32 - 2) :
    PathLenInv r.2 ∧
    (r.1 ≠ 0 → ∃ st, r.2[s]? = some st ∧ st.path_len ≠ INVALID_PATH_LEN) := by
  induction fuel generalizing sk s count len r with
  | zero => simp [estimate_size_cover] at h
  | succ fuel ih =>
    rw [estimate_size_cover] at h
    split at h
    · cases h
    · rename_i st hst
      split at h
      · rename_i hv
        cases h
        exact ⟨hI, fun _ => ⟨st, hst, hv⟩⟩
      · split at h
        · simp only [Option.map_eq_some'] at h
          obtain ⟨a, h1, h2⟩ := h
          subst h2
          have hinc := visit_inc_proj sk s
          have hI1 := pathLenInv_congr sk (visit_inc sk s) hinc hI
          have hgo1 : ∃ st', (visit_inc sk s)[s]? = some st' ∧ st'.go = st.go := by
            have hlt : s < sk.length := (List.getElem?_eq_some.1 hst).1
            unfold visit_inc
            rw [hst]
            exact ⟨_, List.getElem?_set_self hlt, rfl⟩
          obtain ⟨k1, k2⟩ := cover_loop_inv _
            (fun sk' p c l r' hr => estimate_size_cover_frame fuel sk' p c l r' hr)
            (fun sk' p c l r' hr hI' hl' => ih sk' p c l r' hr hI' hl')
            _ _ _ _ _ _ _ _ _ _ a h1 hI1 (by rw [visit_inc_length]; exact hlen) hgo1
            (fun h0 => absurd rfl h0)
          refine ⟨pathLenInv_congr a.2 (visit_dec a.2 s) (visit_dec_proj a.2 s) k1, fun hr => ?_⟩
          obtain ⟨st', hs', hv'⟩ := k2 hr
          have e := congrArg (fun l => l[s]?) (visit_dec_proj a.2 s)
          simp only [List.getElem?_map, hs', Option.map_some'] at e
          cases hd : (visit_dec a.2 s)[s]? with
          | none => rw [hd] at e; cases e
          | some st'' =>
            rw [hd] at e
            simp only [Option.map_some', Option.some.injEq, Prod.mk.injEq] at e
            exact ⟨st'', rfl, by rw [e.2]; exact hv'⟩
        · cases h
          exact ⟨hI, fun h0 => absurd rfl h0⟩

theorem reach_final_frame {x y : List SkeletonState} (h : List.Forall₂ Frame x y) (n s : Nat) :
    reach_final y n s = reach_final x n s := by
  induction n generalizing s with
  | zero =>
    simp only [reach_final]
    cases hx : x[s]? with
    | none =>
      have : y[s]? = none := by
        rw [List.getElem?_eq_none_iff] at hx ⊢
        rw [← h.length_eq]; exact hx
      rw [this]
    | some a =>
      obtain ⟨b, hb, hf⟩ := frame_getElem h s a hx
      rw [hb]
      simp only [hf.1]
  | succ n ih =>
    simp only [reach_final]
    cases hx : x[s]? with
    | none =>
      have : y[s]? = none := by
        rw [List.getElem?_eq_none_iff] at hx ⊢
        rw [← h.length_eq]; exact hx
      rw [this]
    | some a =>
      obtain ⟨b, hb, hf⟩ := frame_getElem h s a hx
      rw [hb]
      simp only [hf.1, ih]

/-- C20: in a skeleton with fewer than `2^32 - 2` states the invariant `PathLenInv` holds
for the freshly constructed `path_len` fields and is kept by every call of
`estimate_size_cover` and by every assignment `s->path_len = i->first->path_len + 1` made
after a call that returned a non-zero value.  Under the invariant, a call that returns a
non-zero value leaves the `path_len` of its state valid, so the assignment, which is
guarded by `n != 0`, reads a valid `path_len`; a valid `path_len` plus one neither wraps to
0 nor equals `INVALID_PATH_LEN`; and every valid `path_len` is the length of a path
from its state to a final state. -/
theorem path_len_never_sentinel (sk : List SkeletonState) (hlen : sk.length < 2 ^ 32 - 2) :
    (Fresh sk → PathLenInv sk) ∧
    (PathLenInv sk →
      (∀ (s : Nat) (st : SkeletonState), sk[s]? = some st →
        st.path_len ≠ INVALID_PATH_LEN →
        reach_final sk st.path_len s = true ∧
        (st.path_len + 1) % 2 ^ 32 = st.path_len + 1 ∧
        st.path_len + 1 ≠ INVALID_PATH_LEN) ∧
      (∀ fuel s count len r, estimate_size_cover fuel sk s count len = some r →
        PathLenInv r.2 ∧ r.2.length = sk.length ∧
        (r.1 ≠ 0 → ∃ st, r.2[s]? = some st ∧ st.path_len ≠ INVALID_PATH_LEN)) ∧
      (∀ s p n, (∀ st, sk[s]? = some st → ∃ e ∈ st.go, e.1 = p) →
        (n ≠ 0 → ∃ pt, sk[p]? = some pt ∧ pt.path_len ≠ INVALID_PATH_LEN) →
        PathLenInv (set_path_len sk s p n) ∧
        (n ≠ 0 → ∀ st', (set_path_len sk s p n)[s]? = some st' →
          st'.path_len ≠ INVALID_PATH_LEN))) := by
  refine ⟨fresh_pathLenInv sk, fun hI => ⟨?_, ?_, ?_⟩⟩
  · intro s st hs hv
    have hb := hI.2 st (List.getElem?_mem hs) hv
    have hcl : sk.countP valid_len ≤ sk.length := List.countP_le_length _
    refine ⟨pathLenInv_reach sk hI st.path_len s st hs hv rfl, ?_, ?_⟩
    · apply Nat.mod_eq_of_lt; omega
    · simp only [INVALID_PATH_LEN]; omega
  · intro fuel s count len r h
    obtain ⟨k1, k2⟩ := estimate_size_cover_inv fuel sk s count len r h hI hlen
    exact ⟨k1, (estimate_size_cover_frame fuel sk s count len r h).length_eq.symm, k2⟩
  · intro s p n hedge hp
    exact set_path_len_inv sk s p n hI hlen hedge hp

/-- C20 on the skeleton of the rule `"ab"`: the call on the root returns 14, and the root
has a valid `path_len` afterwards. -/
theorem path_len_never_sentinel_witness :
    Fresh skAb ∧
    ∃ r, estimate_size_cover 7 skAb 0 1 0 = some r ∧ r.1 = 14 ∧
      ∃ st, r.2[0]? = some st ∧ st.path_len ≠ INVALID_PATH_LEN := by
  refine ⟨by decide, ?_⟩
  have hv : (estimate_size_cover 7 skAb 0 1 0).map (fun r => r.1) = some 14 := by decide
  cases h : estimate_size_cover 7 skAb 0 1 0 with
  | none => rw [h] at hv; cases hv
  | some r =>
    rw [h] at hv
    simp only [Option.map_some', Option.some.injEq] at hv
    exact ⟨r, rfl, hv,
      (((path_len_never_sentinel skAb (by decide)).2
        ((path_len_never_sentinel skAb (by decide)).1 (by decide))).2.1 7 0 1 0 r h).2.2
        (by rw [hv]; decide)⟩

/-- C17 (amended): after `estimate_size_cover(s, count, len)` has run from the freshly
constructed state (`path_len = 0` on the final states, `INVALID_PATH_LEN` elsewhere) in a
skeleton with fewer than `2^32 - 2` states, every state whose `path_len` is not
`INVALID_PATH_LEN` has it equal to the length of some path from that state to a final
state: it is 0 on a final state and otherwise one more than the valid `path_len` of one of
its successors.  The estimator returns on every closed skeleton whose edges carry between
1 and `A` characters. -/
theorem path_len_is_path_length (sk : List SkeletonState) (hf : Fresh sk)
    (hlen : sk.length < 2 ^ 32 - 2) (s count len : Nat) :
    (∀ fuel r, estimate_size_cover fuel sk s count len = some r →
      ∀ (t : Nat) (st : SkeletonState), r.2[t]? = some st →
        st.path_len ≠ INVALID_PATH_LEN →
        reach_final sk st.path_len t = true ∧
        ((st.go = [] ∧ st.path_len = 0) ∨
          ∃ e ∈ st.go, ∃ pt, r.2[e.1]? = some pt ∧ pt.path_len ≠ INVALID_PATH_LEN ∧
            st.path_len = pt.path_len + 1)) ∧
    (∀ A G, 2 * A ≤ 2 ^ 32 → G * A < 2 ^ 32 → CoverWF A G sk → s < sk.length →
      count + A ≤ 2 ^ 32 → ∃ fuel r, estimate_size_cover fuel sk s count len = some r) := by
  constructor
  · intro fuel r h t st ht hv
    have hfr := estimate_size_cover_frame fuel sk s count len r h
    obtain ⟨k1, -⟩ := estimate_size_cover_inv fuel sk s count len r h
      (fresh_pathLenInv sk hf) hlen
    refine ⟨?_, k1.1 t st ht hv⟩
    rw [← reach_final_frame hfr]
    exact pathLenInv_reach r.2 k1 st.path_len t st ht hv rfl
  · intro A G hA hGA hw hs hcA
    obtain ⟨r, h⟩ := estimate_size_cover_total A G hA hGA
      (visit_slack sk + G + max count A + 1) sk s count len hw hs hcA (Nat.lt_succ_self _)
    exact ⟨_, r, h⟩

/-- C17 (amended) on the skeleton of the rule `"ab"`. -/
theorem path_len_is_path_length_witness :
    Fresh skAb ∧
    (estimate_size_cover 7 skAb 0 1 0).map (fun r => r.2.map (fun st => st.path_len)) =
      some [2, 1, 0, 0] ∧
    (∃ fuel r, estimate_size_cover fuel skAb 0 1 0 = some r) ∧
    reach_final skAb 2 0 = true :=
  ⟨by decide, by decide,
    (path_len_is_path_length skAb (by decide) (by decide) 0 1 0).2 4 2 (by decide) (by decide)
      (by decide) (by decide) (by decide), by decide⟩

/-- C17 as stated fails on the skeleton of the rule `"ab"`: after
`estimate_size_cover(root, 1, 0)` from the fresh state the root has `path_len = 2` (through
state 1, the successor of its first edge), for every recursion bound with which the call
returns, although the null state, which is final, is one edge away from the root. -/
theorem path_len_not_cheapest_counterexample :
    Fresh skAb ∧
    (estimate_size_cover 7 skAb 0 1 0).map (fun r => r.2.map (fun st => st.path_len)) =
      some [2, 1, 0, 0] ∧
    (∀ fuel r, estimate_size_cover fuel skAb 0 1 0 = some r →
      r.2.map (fun st => st.path_len) = [2, 1, 0, 0]) ∧
    reach_final skAb 1 0 = true ∧ (1 : Nat) < 2 := by
  have hv : (estimate_size_cover 7 skAb 0 1 0).map (fun r => r.2.map (fun st => st.path_len)) =
      some [2, 1, 0, 0] := by decide
  refine ⟨by decide, hv, ?_, by decide, by decide⟩
  intro fuel r hr
  cases h7 : estimate_size_cover 7 skAb 0 1 0 with
  | none => rw [h7] at hv; cases hv
  | some r7 =>
    rw [h7] at hv
    simp only [Option.map_some', Option.some.injEq] at hv
    rw [estimate_size_cover_unique fuel 7 skAb 0 1 0 r r7 hr h7]
    exact hv

theorem erase_len_getElem (sk : List SkeletonState) (s : Nat) :
    (erase_len sk)[s]? = (sk[s]?).map (fun st => { st with path_len := 0 }) := by
  simp [erase_len]

theorem erase_len_set (sk : List SkeletonState) (s : Nat) (st : SkeletonState) :
    erase_len (sk.set s st) = (erase_len sk).set s { st with path_len := 0 } := by
  simp [erase_len, List.map_set]

theorem visit_inc_erase (sk : List SkeletonState) (s : Nat) :
    visit_inc (erase_len sk) s = erase_len (visit_inc sk s) := by
  unfold visit_inc
  rw [erase_len_getElem]
  cases h : sk[s]? with
  | none => rfl
  | some st => simp only [Option.map_some', erase_len_set]

theorem visit_dec_erase (sk : List SkeletonState) (s : Nat) :
    visit_dec (erase_len sk) s = erase_len (visit_dec sk s) := by
  unfold visit_dec
  rw [erase_len_getElem]
  cases h : sk[s]? with
  | none => rfl
  | some st => simp only [Option.map_some', erase_len_set]

theorem set_path_erase (sk : List SkeletonState) (s p : Nat) (chars : List Nat) :
    set_path (erase_len sk) s p chars = (set_path sk s p chars).map erase_len := by
  unfold set_path
  rw [erase_len_getElem, erase_len_getElem]
  cases hs : sk[s]? with
  | none => rfl
  | some st =>
    cases hp : sk[p]? with
    | none => rfl
    | some pt =>
      simp only [Option.map_some']
      cases h1 : st.path with
      | some a => simp [h1]
      | none =>
        cases h2 : pt.path with
        | none => simp [h1, h2]
        | some pp =>
          cases chars with
          | nil => simp [h1, h2]
          | cons c cs => simp [h1, h2, erase_len_set]

theorem gen_cover_loop_erase
    (call call' : List SkeletonState → Nat → List Path → List Path →
      Option (List Path × List SkeletonState))
    (hcall : ∀ sk p zs res, call' (erase_len sk) p zs res =
      (call sk p zs res).map (fun r => (r.1, erase_len r.2)))
    (go : List (Nat × List Nat)) (s rule : Nat) (prefixes : List Path)
    (rounds idx : Nat) (wrapped : Bool) (inn : Nat) (sk : List SkeletonState)
    (results : List Path) :
    gen_cover_loop call' go s rule prefixes rounds idx wrapped inn (erase_len sk) results =
      (gen_cover_loop call go s rule prefixes rounds idx wrapped inn sk results).map
        (fun r => (r.1, erase_len r.2)) := by
  induction rounds generalizing idx wrapped inn sk results with
  | zero => rfl
  | succ rounds ih =>
    rw [gen_cover_loop, gen_cover_loop]
    by_cases hw : wrapped = true ∧ ¬ inn < prefixes.length % 2 ^ 32
    · rw [if_pos hw, if_pos hw]; rfl
    · rw [if_neg hw, if_neg hw]
      cases he : go[idx]? with
      | none => rfl
      | some e =>
        simp only
        cases hz : cover_zs rule prefixes e.2 inn with
        | none => rfl
        | some zs =>
          simp only
          rw [hcall]
          cases hc : call sk e.1 zs results with
          | none => rfl
          | some r =>
            simp only [Option.map_some']
            rw [set_path_erase]
            cases hsp : set_path r.2 s e.1 e.2 with
            | none => rfl
            | some sk1 =>
              simp only [Option.map_some']
              by_cases hi : idx + 1 = go.length
              · rw [if_pos hi, if_pos hi]
                exact ih _ _ _ _ _
              · rw [if_neg hi, if_neg hi]
                exact ih _ _ _ _ _

/-- The function `generate_paths_cover` does not read `path_len`: on the skeleton with the
`path_len` fields erased it emits the same paths. -/
theorem generate_paths_cover_erase (fuel : Nat) (sk : List SkeletonState) (s : Nat)
    (prefixes results : List Path) :
    generate_paths_cover fuel (erase_len sk) s prefixes results =
      (generate_paths_cover fuel sk s prefixes results).map (fun r => (r.1, erase_len r.2)) := by
  induction fuel generalizing sk s prefixes results with
  | zero => rfl
  | succ fuel ih =>
    rw [generate_paths_cover, generate_paths_cover, erase_len_getElem]
    cases hs : sk[s]? with
    | none => rfl
    | some st =>
      simp only [Option.map_some']
      cases hp : st.path with
      | some pp => rfl
      | none =>
        simp only
        by_cases hv : st.visited < 2
        · rw [if_pos hv, if_pos hv, visit_inc_erase,
            gen_cover_loop_erase (generate_paths_cover fuel) (generate_paths_cover fuel)
              (fun sk p zs res => ih sk p zs res)]
          simp only [Option.map_map]
          congr 1
          funext r
          simp only [Function.comp, visit_dec_erase]
        · rw [if_neg hv, if_neg hv]; rfl

theorem frame_erase_len {x y : List SkeletonState} (h : List.Forall₂ Frame x y) :
    erase_len y = erase_len x := by
  induction h with
  | nil => rfl
  | cons hab _ ih =>
    simp only [erase_len, List.map_cons, List.cons.injEq] at ih ⊢
    exact ⟨by rw [hab.1, hab.2.1, hab.2.2.1, hab.2.2.2.1], ih⟩

/-- Skeletons that differ in `path_len` only give the same paths in cover mode. -/
theorem generate_paths_cover_frame_eq (fuel : Nat) {x y : List SkeletonState}
    (h : List.Forall₂ Frame x y) (s : Nat) (prefixes results : List Path) :
    (generate_paths_cover fuel y s prefixes results).map (fun r => r.1) =
      (generate_paths_cover fuel x s prefixes results).map (fun r => r.1) := by
  have e1 := generate_paths_cover_erase fuel x s prefixes results
  have e2 := generate_paths_cover_erase fuel y s prefixes results
  rw [frame_erase_len h, e1] at e2
  have := congrArg (fun o => Option.map (fun r : List Path × List SkeletonState => r.1) o) e2
  simp only [Option.map_map] at this
  exact this.symm

/-- The estimate of the root call `estimate_size_all(root, 1, 0)` never exceeds
`MAX_SIZE`. -/
theorem estimate_size_all_root_le (fuel : Nat) (sk : List SkeletonState)
    (r : Nat × List SkeletonState) (h : estimate_size_all fuel sk 0 1 0 = some r) :
    r.1 ≤ MAX_SIZE := by
  cases hs : sk[0]? with
  | none =>
    cases fuel with
    | zero => simp [estimate_size_all] at h
    | succ fuel =>
      rw [estimate_size_all] at h
      simp [hs] at h
  | some st =>
    obtain ⟨k1, k2⟩ := estimate_size_all_value fuel sk 0 1 0 st r hs h
    cases he : st.is_end with
    | false => exact k1 he
    | true =>
      rw [k2 he]
      decide

/-- C12: `generate_paths` emits exactly what `generate_paths_all(root, [empty path])` emits
when `estimate_size_all(root, 1, 0) < MAX_SIZE`, and exactly what
`generate_paths_cover(root, [empty path])` emits otherwise; the code's test
`estimate_size_all(root, 1, 0) == MAX_SIZE` holds exactly when the estimate is not below
`MAX_SIZE`, because the root estimate never exceeds `MAX_SIZE`.  The estimators leave
nothing behind that the generators read: `estimate_size_all` restores the skeleton and
`estimate_size_cover` changes `path_len` only. -/
theorem generate_paths_selects (fuel : Nat) (sk : List SkeletonState) (results : List Path)
    (r1 : Nat × List SkeletonState) (h1 : estimate_size_all fuel sk 0 1 0 = some r1) :
    (r1.1 = MAX_SIZE ↔ ¬ r1.1 < MAX_SIZE) ∧
    (r1.1 < MAX_SIZE →
      (generate_paths fuel sk results).map (fun r => r.results) =
        (generate_paths_all fuel sk 0 [empty_path] results).map (fun r => r.1)) ∧
    (¬ r1.1 < MAX_SIZE → ∀ r2, estimate_size_cover fuel sk 0 1 0 = some r2 →
      (generate_paths fuel sk results).map (fun r => r.results) =
        (generate_paths_cover fuel sk 0 [empty_path] results).map (fun r => r.1)) := by
  have hle := estimate_size_all_root_le fuel sk r1 h1
  have hsk := estimate_size_all_frame fuel sk 0 1 0 r1 h1
  refine ⟨by omega, ?_, ?_⟩
  · intro hlt
    unfold generate_paths
    simp only [h1, if_neg (Nat.ne_of_lt hlt), hsk, Option.map_map]
    rfl
  · intro hge r2 h2
    have he : r1.1 = MAX_SIZE := by omega
    unfold generate_paths
    simp only [h1, if_pos he, hsk, h2, Option.map_map]
    exact generate_paths_cover_frame_eq fuel
      (estimate_size_cover_frame fuel sk 0 1 0 r2 h2) 0 [empty_path] results

set_option maxRecDepth 100000 in
/-- C12 on the skeleton of the rule `"ab"`, where the estimate is 14 and all paths are
generated, and on a chain of 30 states with two characters each, where the estimate is
`MAX_SIZE` and cover mode is taken. -/
theorem generate_paths_selects_witness :
    (generate_paths 8 skAb []).map (fun r => r.results) =
      (generate_paths_all 8 skAb 0 [empty_path] []).map (fun r => r.1) ∧
    (generate_paths 8 skAb []).map (fun r => r.results.map (fun p => p.chars)) =
      some [[97, 98], [97, 0], [97, 97], [97, 99], [97, 255], [0], [96], [98], [255]] ∧
    (generate_paths 40 skWide []).map (fun r => r.results) =
      (generate_paths_cover 40 skWide 0 [empty_path] []).map (fun r => r.1) ∧
    (generate_paths 40 skWide []).map (fun r => r.results.length) = some 2 := by
  have a1 : estimate_size_all 8 skAb 0 1 0 = some (14, skAb) := by decide
  have a2 : estimate_size_all 40 skWide 0 1 0 = some (MAX_SIZE, skWide) := by decide
  have a3 : ∃ r2, estimate_size_cover 40 skWide 0 1 0 = some r2 := by
    cases h : estimate_size_cover 40 skWide 0 1 0 with
    | none => exact absurd h (by decide)
    | some r2 => exact ⟨r2, rfl⟩
  obtain ⟨r2, h2⟩ := a3
  exact ⟨(generate_paths_selects 8 skAb [] (14, skAb) a1).2.1 (by decide), by decide,
    (generate_paths_selects 40 skWide [] (MAX_SIZE, skWide) a2).2.2 (by decide) r2 h2,
    by decide⟩

theorem walk_edge (sk : List SkeletonState) (s : Nat) (st : SkeletonState)
    (hs : sk[s]? = some st) (e : Nat × List Nat) (he : e ∈ st.go) (a : Nat) (ha : a ∈ e.2)
    (w : List Nat) (t : Nat) (hw : walk sk w e.1 t = true) : walk sk (a :: w) s t = true := by
  simp only [walk, hs, List.any_eq_true, Bool.and_eq_true, List.contains_iff_exists_mem_beq]
  exact ⟨e, he, ⟨a, ha, by simp⟩, hw⟩

theorem walk_cons_iff (sk : List SkeletonState) (s t a : Nat) (w : List Nat) :
    walk sk (a :: w) s t = true ↔
      ∃ st, sk[s]? = some st ∧ ∃ e ∈ st.go, a ∈ e.2 ∧ walk sk w e.1 t = true := by
  constructor
  · intro h
    rw [walk] at h
    cases hs : sk[s]? with
    | none => rw [hs] at h; cases h
    | some st =>
      rw [hs] at h
      simp only [List.any_eq_true, Bool.and_eq_true, List.contains_iff_exists_mem_beq] at h
      obtain ⟨e, he, ⟨a', ha', hb⟩, hw⟩ := h
      have : a = a' := by simpa using hb
      subst this
      exact ⟨st, rfl, e, he, ha', hw⟩
  · rintro ⟨st, hs, e, he, ha, hw⟩
    exact walk_edge sk s st hs e he a ha w t hw

theorem walk_append (sk : List SkeletonState) (w1 w2 : List Nat) (s t u : Nat)
    (h1 : walk sk w1 s t = true) (h2 : walk sk w2 t u = true) :
    walk sk (w1 ++ w2) s u = true := by
  induction w1 generalizing s with
  | nil =>
    simp only [walk, decide_eq_true_eq] at h1
    subst h1
    exact h2
  | cons a w ih =>
    obtain ⟨st, hs, e, he, ha, hw⟩ := (walk_cons_iff sk s t a w).1 h1
    exact walk_edge sk s st hs e he a ha _ u (ih e.1 hw)

theorem walk_nil (sk : List SkeletonState) (s : Nat) : walk sk [] s s = true := by
  simp [walk]

theorem pathFrame_refl (sk : List SkeletonState) : List.Forall₂ PathFrame sk sk := by
  induction sk with
  | nil => exact List.Forall₂.nil
  | cons a rest ih => exact List.Forall₂.cons ⟨rfl, rfl, rfl, rfl, fun _ => rfl⟩ ih

theorem pathFrame_trans {x y z : List SkeletonState} (h1 : List.Forall₂ PathFrame x y)
    (h2 : List.Forall₂ PathFrame y z) : List.Forall₂ PathFrame x z := by
  induction h1 generalizing z with
  | nil => cases h2; exact List.Forall₂.nil
  | cons hab _ ih =>
    cases h2 with
    | cons hbc hrest =>
      refine List.Forall₂.cons ?_ (ih hrest)
      refine ⟨hbc.1.trans hab.1, hbc.2.1.trans hab.2.1, hbc.2.2.1.trans hab.2.2.1,
        hbc.2.2.2.1.trans hab.2.2.2.1, fun hp => ?_⟩
      have e1 := hab.2.2.2.2 hp
      rw [hbc.2.2.2.2 (by rw [e1]; exact hp), e1]

theorem pathFrame_getElem {x y : List SkeletonState} (h : List.Forall₂ PathFrame x y)
    (i : Nat) (a : SkeletonState) (ha : x[i]? = some a) :
    ∃ b, y[i]? = some b ∧ PathFrame a b := by
  induction h generalizing i with
  | nil => simp at ha
  | cons hab _ ih =>
    cases i with
    | zero =>
      simp only [List.getElem?_cons_zero, Option.some.injEq] at ha
      subst ha
      exact ⟨_, by simp, hab⟩
    | succ i =>
      simp only [List.getElem?_cons_succ] at ha ⊢
      exact ih i ha

theorem pathFrame_getElem_rev {x y : List SkeletonState} (h : List.Forall₂ PathFrame x y)
    (i : Nat) (b : SkeletonState) (hb : y[i]? = some b) :
    ∃ a, x[i]? = some a ∧ PathFrame a b := by
  induction h generalizing i with
  | nil => simp at hb
  | cons hab _ ih =>
    cases i with
    | zero =>
      simp only [List.getElem?_cons_zero, Option.some.injEq] at hb
      subst hb
      exact ⟨_, by simp, hab⟩
    | succ i =>
      simp only [List.getElem?_cons_succ] at hb ⊢
      exact ih i hb

theorem pathFrame_set (sk : List SkeletonState) (s : Nat) (st st' : SkeletonState)
    (hs : sk[s]? = some st) (hf : PathFrame st st') :
    List.Forall₂ PathFrame sk (sk.set s st') := by
  induction sk generalizing s with
  | nil => simp at hs
  | cons a rest ih =>
    cases s with
    | zero =>
      simp only [List.getElem?_cons_zero, Option.some.injEq] at hs
      subst hs
      exact List.Forall₂.cons hf (pathFrame_refl rest)
    | succ n =>
      simp only [List.getElem?_cons_succ] at hs
      exact List.Forall₂.cons ⟨rfl, rfl, rfl, rfl, fun _ => rfl⟩ (ih n hs)

theorem goEq_pathFrame {sk0 x y : List SkeletonState} (h : List.Forall₂ PathFrame x y)
    (hg : GoEq sk0 x) : GoEq sk0 y := by
  intro t
  rw [← hg t]
  cases hx : x[t]? with
  | none =>
    have : y[t]? = none := by
      rw [List.getElem?_eq_none_iff] at hx ⊢
      rw [← h.length_eq]; exact hx
    rw [this]
  | some a =>
    obtain ⟨b, hb, hf⟩ := pathFrame_getElem h t a hx
    rw [hb]
    simp only [Option.map_some', hf.1]

theorem goEq_getElem {sk0 sk : List SkeletonState} (hg : GoEq sk0 sk) (t : Nat)
    (st : SkeletonState) (hs : sk[t]? = some st) :
    ∃ st0, sk0[t]? = some st0 ∧ st0.go = st.go := by
  have e := hg t
  rw [hs] at e
  cases h0 : sk0[t]? with
  | none => rw [h0] at e; cases e
  | some st0 =>
    rw [h0] at e
    simp only [Option.map_some', Option.some.injEq] at e
    exact ⟨st0, rfl, e.symm⟩

theorem goEq_lt {sk0 sk : List SkeletonState} (hg : GoEq sk0 sk) (t : Nat)
    (ht : t < sk0.length) : ∃ st, sk[t]? = some st := by
  have e := hg t
  rw [List.getElem?_eq_getElem ht] at e
  cases h : sk[t]? with
  | none => rw [h] at e; cases e
  | some st => exact ⟨st, rfl⟩

theorem visit_inc_getElem (sk : List SkeletonState) (s : Nat) (st : SkeletonState)
    (hs : sk[s]? = some st) (t : Nat) :
    (visit_inc sk s)[t]? =
      if s = t then some { st with visited := st.visited + 1 } else sk[t]? := by
  unfold visit_inc
  rw [hs]
  simp only
  have hlt : s < sk.length := (List.getElem?_eq_some.1 hs).1
  by_cases e : s = t
  · subst e
    rw [if_pos rfl, List.getElem?_set_self hlt]
  · rw [if_neg e, List.getElem?_set_ne e]

theorem visit_dec_getElem (sk : List SkeletonState) (s : Nat) (st : SkeletonState)
    (hs : sk[s]? = some st) (t : Nat) :
    (visit_dec sk s)[t]? =
      if s = t then some { st with visited := st.visited - 1 } else sk[t]? := by
  unfold visit_dec
  rw [hs]
  simp only
  have hlt : s < sk.length := (List.getElem?_eq_some.1 hs).1
  by_cases e : s = t
  · subst e
    rw [if_pos rfl, List.getElem?_set_self hlt]
  · rw [if_neg e, List.getElem?_set_ne e]

theorem path_extend_chars (p : Path) (rule c : Nat) :
    (p.extend rule c).chars = p.chars ++ [c] := by
  unfold Path.extend
  simp only [path_update_chars]

/-- The paths built for one edge: the `j`-th one is the prefix at position
`(in + j) % in_arrows` followed by the `j`-th character of the edge. -/
theorem cover_zs_spec (rule : Nat) (prefixes : List Path) (hne : prefixes ≠ [])
    (hn : prefixes.length < 2 ^ 32) (cs : List Nat) (inn : Nat)
    (hin : inn + cs.length < 2 ^ 32) :
    ∃ zs, cover_zs rule prefixes cs inn = some zs ∧ zs.length = cs.length ∧
      ∀ j c, cs[j]? = some c →
        ∃ q z, prefixes[(inn + j) % prefixes.length]? = some q ∧ z ∈ zs ∧
          z.chars = q.chars ++ [c] := by
  have hpos : 0 < prefixes.length := List.length_pos.2 hne
  have hmod : prefixes.length % 2 ^ 32 = prefixes.length := Nat.mod_eq_of_lt hn
  induction cs generalizing inn with
  | nil => exact ⟨[], rfl, rfl, fun j c h => by simp at h⟩
  | cons c0 cs ih =>
    simp only [List.length_cons] at hin
    have hlt : inn % prefixes.length < prefixes.length := Nat.mod_lt _ hpos
    have hnext : (inn + 1) % 2 ^ 32 = inn + 1 := Nat.mod_eq_of_lt (by omega)
    obtain ⟨zs, h1, h2, h3⟩ := ih (inn + 1) (by omega)
    refine ⟨prefixes[inn % prefixes.length].extend rule c0 :: zs, ?_, ?_, ?_⟩
    · rw [cover_zs, hmod, if_neg (by omega), List.getElem?_eq_getElem hlt]
      simp only [hnext, h1, Option.map_some']
    · simp [h2]
    · intro j c hj
      cases j with
      | zero =>
        simp only [List.getElem?_cons_zero, Option.some.injEq] at hj
        subst hj
        exact ⟨_, _, List.getElem?_eq_getElem hlt, List.mem_cons_self _ _,
          path_extend_chars _ _ _⟩
      | succ j =>
        simp only [List.getElem?_cons_succ] at hj
        obtain ⟨q, z, k1, k2, k3⟩ := h3 j c hj
        refine ⟨q, z, ?_, List.mem_cons_of_mem _ k2, k3⟩
        rw [← k1]
        congr 2
        omega

theorem ranked_getElem (rank : Nat → Nat) (sk : List SkeletonState) (h : Ranked rank sk)
    (s : Nat) (st : SkeletonState) (hs : sk[s]? = some st) :
    ∀ e ∈ st.go, rank e.1 < rank s := by
  have hlt : s < sk.length := (List.getElem?_eq_some.1 hs).1
  have := h s hlt
  rw [List.getD_eq_getElem?_getD, hs] at this
  exact this

theorem pathFrame_visit_dec (sk x : List SkeletonState) (s : Nat)
    (h : List.Forall₂ PathFrame (visit_inc sk s) x) :
    List.Forall₂ PathFrame sk (visit_dec x s) := by
  induction sk generalizing x s with
  | nil =>
    simp only [visit_inc, List.getElem?_nil] at h
    cases h
    exact List.Forall₂.nil
  | cons a rest ih =>
    cases s with
    | zero =>
      simp only [visit_inc, List.getElem?_cons_zero, List.set_cons_zero] at h
      cases h with
      | cons hab hrest =>
        rename_i b l
        simp only [visit_dec, List.getElem?_cons_zero, List.set_cons_zero]
        refine List.Forall₂.cons ?_ hrest
        obtain ⟨h1, h2, h3, h4, h5⟩ := hab
        exact ⟨h1, h2, by simp only at h3 ⊢; omega, h4, h5⟩
    | succ n =>
      have hinc : visit_inc (a :: rest) (n + 1) = a :: visit_inc rest n := by
        unfold visit_inc
        simp only [List.getElem?_cons_succ]
        cases rest[n]? <;> simp
      rw [hinc] at h
      cases h with
      | cons hab hrest =>
        rename_i b l
        have hdec : visit_dec (b :: l) (n + 1) = b :: visit_dec l n := by
          unfold visit_dec
          simp only [List.getElem?_cons_succ]
          cases l[n]? <;> simp
        rw [hdec]
        exact List.Forall₂.cons hab (ih l n hrest)

theorem continued_mono (sk0 : List SkeletonState) (s : Nat) (res res' : List Path)
    (hsub : ∀ π ∈ res, π ∈ res') (q : Path) (h : Continued sk0 s res q) :
    Continued sk0 s res' q := by
  obtain ⟨π, hπ, w, f, h1, h2, h3⟩ := h
  exact ⟨π, hsub π hπ, w, f, h1, h2, h3⟩

/-- What the statement after the recursive call does when the successor has a cached
path: `s` has a cached path afterwards, which is its old one or the first character of the
edge followed by the successor's path; nothing else changes. -/
theorem set_path_spec (sk : List SkeletonState) (s p : Nat) (cs : List Nat)
    (st pt : SkeletonState) (pp : Path) (c : Nat) (cs' : List Nat)
    (hs : sk[s]? = some st) (hp : sk[p]? = some pt) (hpp : pt.path = some pp)
    (hcs : cs = c :: cs') :
    ∃ sk1 st1, set_path sk s p cs = some sk1 ∧ List.Forall₂ PathFrame sk sk1 ∧
      sk1[s]? = some st1 ∧ st1.go = st.go ∧ st1.visited = st.visited ∧
      ((st.path ≠ none ∧ st1.path = st.path) ∨
        (st.path = none ∧ ∃ π, st1.path = some π ∧ π.chars = c :: pp.chars)) ∧
      (∀ t, t ≠ s → sk1[t]? = sk[t]?) := by
  have hlt : s < sk.length := (List.getElem?_eq_some.1 hs).1
  unfold set_path
  simp only [hs, hp, hpp, hcs]
  cases h1 : st.path with
  | some a =>
    exact ⟨sk, st, rfl, pathFrame_refl sk, hs, rfl, rfl,
      Or.inl ⟨by simp, h1⟩, fun _ _ => rfl⟩
  | none =>
    refine ⟨_, _, rfl, pathFrame_set sk s st _ hs ⟨rfl, rfl, rfl, rfl, fun h => absurd h1 h⟩,
      List.getElem?_set_self hlt, rfl, rfl, Or.inr ⟨rfl, _, rfl, ?_⟩, fun t ht => ?_⟩
    · simp [Path.append]
    · exact List.getElem?_set_ne (fun e => ht e.symm)

theorem cover_zs_mem (rule : Nat) (prefixes : List Path) (cs : List Nat) (inn : Nat)
    (zs : List Path) (h : cover_zs rule prefixes cs inn = some zs) :
    ∀ z ∈ zs, ∃ q ∈ prefixes, ∃ c ∈ cs, z.chars = q.chars ++ [c] := by
  induction cs generalizing inn zs with
  | nil =>
    simp only [cover_zs, Option.some.injEq] at h
    subst h
    intro z hz
    cases hz
  | cons c0 cs ih =>
    rw [cover_zs] at h
    split at h
    · cases h
    split at h
    · cases h
    · rename_i p hp
      simp only [Option.map_eq_some'] at h
      obtain ⟨zs', h1, h2⟩ := h
      subst h2
      intro z hz
      rcases List.mem_cons.1 hz with e | e
      · subst e
        exact ⟨p, List.getElem?_mem hp, c0, List.mem_cons_self _ _, path_extend_chars _ _ _⟩
      · obtain ⟨q, hq, c, hc, hz'⟩ := ih _ _ h1 z e
        exact ⟨q, hq, c, List.mem_cons_of_mem _ hc, hz'⟩

/-- One round of the edge loop of `generate_paths_cover` keeps the loop invariant: after
the call on the successor and the statement that caches the path of `s`, the edge at
`idx` is done and the prefixes used for it are continued. -/
theorem cover_loop_step (sk0 : List SkeletonState) (root : Nat) (rank : Nat → Nat)
    (A G : Nat) (hwf : EdgeWF A G sk0)
    (go : List (Nat × List Nat)) (s : Nat) (prefixes : List Path)
    (st0 : SkeletonState) (hs0 : sk0[s]? = some st0) (hgo : st0.go = go)
    (hwalk : ∀ q ∈ prefixes, walk sk0 q.chars root s = true)
    (idx : Nat) (wrapped : Bool) (inn : Nat) (sk : List SkeletonState) (results : List Path)
    (hLI : CoverLoopInv sk0 root rank A go s prefixes idx wrapped inn sk results)
    (e : Nat × List Nat) (he : go[idx]? = some e) (zs : List Path)
    (hzs : ∀ j c, e.2[j]? = some c →
      ∃ q z, prefixes[(inn + j) % prefixes.length]? = some q ∧ z ∈ zs ∧
        z.chars = q.chars ++ [c])
    (r1 : List Path × List SkeletonState) (hpost : CoverPost sk0 root e.1 zs sk results r1) :
    ∃ sk1, set_path r1.2 s e.1 e.2 = some sk1 ∧ List.Forall₂ PathFrame r1.2 sk1 ∧
      ∀ (idx' : Nat) (wrapped' : Bool), idx' < go.length →
        (∀ j, j < go.length → (wrapped' = true ∨ j < idx') →
          (wrapped = true ∨ j < idx ∨ j = idx)) →
        (wrapped' = false → wrapped = false ∧ idx' = idx + 1) →
        CoverLoopInv sk0 root rank A go s prefixes idx' wrapped' (inn + e.2.length) sk1
          r1.1 := by
  obtain ⟨g1, -, -, v1, ⟨st, hst, hvis, -⟩, hproc0, hsurv, -, hinnb⟩ := hLI
  obtain ⟨f1, p2, c2, m1, ⟨pt, hpt, hptp⟩, hcont⟩ := hpost
  obtain ⟨st1, hst1, fr1⟩ := pathFrame_getElem f1 s st hst
  have hemem : e ∈ st0.go := by rw [hgo]; exact List.getElem?_mem he
  have hst0mem : st0 ∈ sk0 := List.getElem?_mem hs0
  obtain ⟨hlen1, hlenA⟩ := (hwf.2 st0 hst0mem).2 e hemem
  obtain ⟨pp, hpp⟩ : ∃ pp, pt.path = some pp := by
    cases h : pt.path with
    | none => exact absurd h hptp
    | some pp => exact ⟨pp, rfl⟩
  obtain ⟨c, cs', hcs⟩ : ∃ c cs', e.2 = c :: cs' := by
    cases h : e.2 with
    | nil => rw [h] at hlen1; simp at hlen1
    | cons c cs' => exact ⟨c, cs', rfl⟩
  obtain ⟨sk1, st2, h1, f2, hst2, hgo2, hvis2, hcase, hother⟩ :=
    set_path_spec r1.2 s e.1 e.2 st1 pt pp c cs' hst1 hpt hpp hcs
  refine ⟨sk1, h1, f2, ?_⟩
  intro idx' wrapped' hidx' hproc hw'
  have hcmem : c ∈ e.2 := by rw [hcs]; exact List.mem_cons_self _ _
  have hst2path : st2.path ≠ none := by
    rcases hcase with ⟨k1, k2⟩ | ⟨-, π, k2, -⟩
    · rw [k2]
      cases hp1 : st1.path with
      | none => exact absurd hp1 k1
      | some x => simp
    · rw [k2]; simp
  have f12 := pathFrame_trans f1 f2
  refine ⟨goEq_pathFrame f2 (goEq_pathFrame f1 g1), ?_, ?_, ?_, ?_, ?_, ?_, hidx', ?_⟩
  · -- cached paths
    intro t x hx
    by_cases hts : t = s
    · subst hts
      rw [hst2] at hx
      cases hx
      refine ⟨fun h => absurd h hst2path, fun π hπ => ?_⟩
      rcases hcase with ⟨-, k2⟩ | ⟨-, π', k2, k3⟩
      · exact (p2 t st1 hst1).2 π (by rw [← k2]; exact hπ)
      · rw [k2] at hπ
        cases hπ
        obtain ⟨f, w1, w2⟩ := (p2 e.1 pt hpt).2 pp hpp
        exact ⟨f, by rw [k3]; exact walk_edge sk0 t st0 hs0 e hemem c hcmem _ f w1, w2⟩
    · rw [hother t hts] at hx
      exact p2 t x hx
  · -- coverage
    intro t x hx hxp hxv e' he'
    by_cases hts : t = s
    · subst hts
      rw [hst2] at hx
      cases hx
      rw [hvis2, fr1.2.2.1] at hxv
      exact absurd hxv hvis
    · rw [hother t hts] at hx
      obtain ⟨⟨pt', k1, k2⟩, k3⟩ := c2 t x hx hxp hxv e' he'
      obtain ⟨b, hb, hfb⟩ := pathFrame_getElem f2 e'.1 pt' k1
      exact ⟨⟨b, hb, by rw [hfb.2.2.2.2 k2]; exact k2⟩, k3⟩
  · -- states below `s` are not being traversed
    intro t x hx hr
    obtain ⟨a, ha, hfa⟩ := pathFrame_getElem_rev f12 t x hx
    rw [hfa.2.2.1]
    exact v1 t a ha hr
  · exact ⟨st2, hst2, by rw [hvis2, fr1.2.2.1]; exact hvis, fun _ => hst2path⟩
  · -- edges that are done
    intro j e' hj hcond
    rcases hproc j (List.getElem?_eq_some.1 hj).1 hcond with hold | hold | hnew
    · obtain ⟨⟨pt', k1, k2⟩, k3⟩ := hproc0 j e' hj (Or.inl hold)
      obtain ⟨b, hb, hfb⟩ := pathFrame_getElem f12 e'.1 pt' k1
      refine ⟨⟨b, hb, by rw [hfb.2.2.2.2 k2]; exact k2⟩, fun a ha => ?_⟩
      obtain ⟨π, hπ, hte⟩ := k3 a ha
      exact ⟨π, m1 π hπ, hte⟩
    · obtain ⟨⟨pt', k1, k2⟩, k3⟩ := hproc0 j e' hj (Or.inr hold)
      obtain ⟨b, hb, hfb⟩ := pathFrame_getElem f12 e'.1 pt' k1
      refine ⟨⟨b, hb, by rw [hfb.2.2.2.2 k2]; exact k2⟩, fun a ha => ?_⟩
      obtain ⟨π, hπ, hte⟩ := k3 a ha
      exact ⟨π, m1 π hπ, hte⟩
    · subst hnew
      rw [he] at hj
      cases hj
      obtain ⟨b, hb, hfb⟩ := pathFrame_getElem f2 e.1 pt hpt
      refine ⟨⟨b, hb, by rw [hfb.2.2.2.2 hptp]; exact hptp⟩, fun a ha => ?_⟩
      obtain ⟨j', hj'⟩ := List.getElem?_of_mem ha
      obtain ⟨q, z, k1, k2, k3⟩ := hzs j' a hj'
      obtain ⟨π, hπ, w, f, hc, hw, hf⟩ := hcont z k2
      refine ⟨π, hπ, q.chars, w, f, ?_, hwalk q (List.getElem?_mem k1), ?_, hw, hf⟩
      · rw [hc, k3, List.append_assoc]; rfl
      · exact walk_edge sk0 s st0 hs0 e hemem a ha [] e.1 (walk_nil sk0 e.1)
  · -- prefixes that are continued
    intro i hi
    by_cases hlt : i < inn
    · obtain ⟨q, k1, k2⟩ := hsurv i hlt
      exact ⟨q, k1, continued_mono sk0 s results r1.1 m1 q k2⟩
    · have hj : i - inn < e.2.length := by omega
      obtain ⟨q, z, k1, k2, k3⟩ := hzs (i - inn) e.2[i - inn] (List.getElem?_eq_getElem hj)
      have hi' : inn + (i - inn) = i := by omega
      rw [hi'] at k1
      obtain ⟨π, hπ, w, f, hc, hw, hf⟩ := hcont z k2
      refine ⟨q, k1, π, hπ, e.2[i - inn] :: w, f, ?_, ?_, hf⟩
      · rw [hc, k3, List.append_assoc]; rfl
      · exact walk_edge sk0 s st0 hs0 e hemem _ (List.getElem_mem hj) w f hw
  · intro hwf'
    obtain ⟨k1, k2⟩ := hw' hwf'
    have := hinnb k1
    rw [k2, Nat.succ_mul]
    omega

/-- The edge loop of `generate_paths_cover` on a state of a skeleton without cycles: when
the calls on the successors meet their contract, the loop returns; at that point the
iterator has wrapped, all edges are done and all prefixes are continued. -/
theorem gen_cover_loop_spec (sk0 : List SkeletonState) (root : Nat) (rank : Nat → Nat)
    (A G : Nat) (hwf : EdgeWF A G sk0) (hGA : G * A < 2 ^ 32) (hA2 : 2 * A ≤ 2 ^ 32)
    (call : List SkeletonState → Nat → List Path → List Path →
      Option (List Path × List SkeletonState))
    (go : List (Nat × List Nat)) (s rule : Nat) (prefixes : List Path)
    (st0 : SkeletonState) (hs0 : sk0[s]? = some st0) (hgo : st0.go = go)
    (hrank : ∀ e ∈ go, rank e.1 < rank s)
    (hwalk : ∀ q ∈ prefixes, walk sk0 q.chars root s = true)
    (hne : prefixes ≠ []) (hnA : prefixes.length ≤ A)
    (hcall : ∀ sk p zs res, rank p < rank s → CoverPre sk0 root rank A p zs sk res →
      ∃ r, call sk p zs res = some r ∧ CoverPost sk0 root p zs sk res r)
    (rounds idx : Nat) (wrapped : Bool) (inn : Nat) (sk : List SkeletonState)
    (results : List Path)
    (hLI : CoverLoopInv sk0 root rank A go s prefixes idx wrapped inn sk results)
    (hr : (if wrapped then 0 else go.length - idx) + (prefixes.length - inn) < rounds) :
    ∃ r idx' inn',
      gen_cover_loop call go s rule prefixes rounds idx wrapped inn sk results = some r ∧
      List.Forall₂ PathFrame sk r.2 ∧ (∀ π ∈ results, π ∈ r.1) ∧
      CoverLoopInv sk0 root rank A go s prefixes idx' true inn' r.2 r.1 ∧
      prefixes.length ≤ inn' := by
  have hst0mem : st0 ∈ sk0 := List.getElem?_mem hs0
  have hG : go.length ≤ G := by rw [← hgo]; exact (hwf.2 st0 hst0mem).1
  have hnlt : prefixes.length < 2 ^ 32 := by omega
  have hnmod : prefixes.length % 2 ^ 32 = prefixes.length := Nat.mod_eq_of_lt hnlt
  induction rounds generalizing idx wrapped inn sk results with
  | zero => omega
  | succ rounds ih =>
    rw [gen_cover_loop]
    split
    · rename_i hex
      rw [hnmod] at hex
      have hwt : wrapped = true := hex.1
      subst hwt
      exact ⟨_, idx, inn, rfl, pathFrame_refl sk, fun π hπ => hπ, hLI, by omega⟩
    · rename_i hcont
      rw [hnmod] at hcont
      have hidx : idx < go.length := hLI.2.2.2.2.2.2.2.1
      have hinnb := hLI.2.2.2.2.2.2.2.2
      have hge : go[idx]? = some go[idx] := List.getElem?_eq_getElem hidx
      have hmem : go[idx] ∈ go := List.getElem_mem hidx
      have hmem0 : go[idx] ∈ st0.go := by rw [hgo]; exact hmem
      obtain ⟨ha1, ha2⟩ := (hwf.2 st0 hst0mem).2 _ hmem0
      have hmul : (idx + 1) * A = idx * A + A := Nat.succ_mul idx A
      have hmul2 : (idx + 1) * A ≤ go.length * A := Nat.mul_le_mul_right A (by omega)
      have hmul3 : go.length * A ≤ G * A := Nat.mul_le_mul_right A hG
      have hinlt : inn + go[idx].2.length < 2 ^ 32 := by
        cases hw : wrapped with
        | false =>
          have := hinnb hw
          omega
        | true =>
          have : inn < prefixes.length := by
            by_contra hcc
            exact hcont ⟨hw, hcc⟩
          omega
      obtain ⟨zs, hz1, hz2, hz3⟩ := cover_zs_spec rule prefixes hne hnlt go[idx].2 inn hinlt
      have hpre : CoverPre sk0 root rank A go[idx].1 zs sk results := by
        obtain ⟨g1, p1, c1, v1, -, -, -, -, -⟩ := hLI
        refine ⟨g1, p1, c1, fun t x hx hrk => v1 t x hx ?_, hwf.1 st0 hst0mem _ hmem0, ?_, ?_,
          ?_⟩
        · have := hrank _ hmem
          omega
        · intro h0
          rw [h0] at hz2
          simp only [List.length_nil] at hz2
          omega
        · omega
        · intro z hz
          obtain ⟨q, hq, c, hc, hzc⟩ := cover_zs_mem rule prefixes _ _ zs hz1 z hz
          rw [hzc]
          exact walk_append sk0 _ _ root s _ (hwalk q hq)
            (walk_edge sk0 s st0 hs0 _ hmem0 c hc [] _ (walk_nil sk0 _))
      obtain ⟨r1, hc1, hpost⟩ := hcall sk go[idx].1 zs results (hrank _ hmem) hpre
      obtain ⟨sk1, hsp, f2, hstep⟩ := cover_loop_step sk0 root rank A G hwf go s prefixes st0
        hs0 hgo hwalk idx wrapped inn sk results hLI go[idx] hge zs hz3 r1 hpost
      have hnowrap : (inn + go[idx].2.length) % 2 ^ 32 = inn + go[idx].2.length :=
        Nat.mod_eq_of_lt hinlt
      simp only [hge, hz1, hc1, hsp, hnowrap]
      have f1 := hpost.1
      have m1 := hpost.2.2.2.1
      split
      · rename_i hlast
        have hLI' := hstep 0 true (by omega) (fun j hj _ => by omega) (fun h => by cases h)
        obtain ⟨r, idx', inn', k1, k2, k3, k4, k5⟩ := ih 0 true _ sk1 r1.1 hLI' (by
          simp only [if_true]
          cases hw : wrapped with
          | false =>
            rw [hw] at hr
            simp only [Bool.false_eq_true, if_false] at hr
            omega
          | true =>
            rw [hw] at hr
            simp only [if_true] at hr
            have : inn < prefixes.length := by
              by_contra hcc
              exact hcont ⟨hw, hcc⟩
            omega)
        exact ⟨r, idx', inn', k1, pathFrame_trans (pathFrame_trans f1 f2) k2,
          fun π hπ => k3 π (m1 π hπ), k4, k5⟩
      · rename_i hnlast
        have hLI' := hstep (idx + 1) wrapped (by omega) (fun j _ hc => by
          rcases hc with h | h
          · exact Or.inl h
          · omega) (fun h => ⟨h, rfl⟩)
        obtain ⟨r, idx', inn', k1, k2, k3, k4, k5⟩ := ih (idx + 1) wrapped _ sk1 r1.1 hLI' (by
          cases hw : wrapped with
          | false =>
            rw [hw] at hr
            simp only [Bool.false_eq_true, if_false] at hr ⊢
            omega
          | true =>
            rw [hw] at hr
            simp only [if_true] at hr ⊢
            have : inn < prefixes.length := by
              by_contra hcc
              exact hcont ⟨hw, hcc⟩
            omega)
        exact ⟨r, idx', inn', k1, pathFrame_trans (pathFrame_trans f1 f2) k2,
          fun π hπ => k3 π (m1 π hπ), k4, k5⟩

theorem covered_mono (sk0 : List SkeletonState) (root : Nat) (sk : List SkeletonState)
    (res res' : List Path) (hsub : ∀ π ∈ res, π ∈ res') (h : Covered sk0 root sk res) :
    Covered sk0 root sk res' := by
  intro t st hst hp hv e he
  obtain ⟨k1, k2⟩ := h t st hst hp hv e he
  refine ⟨k1, fun a ha => ?_⟩
  obtain ⟨π, hπ, hte⟩ := k2 a ha
  exact ⟨π, hsub π hπ, hte⟩

/-- Contract of `generate_paths_cover` on a skeleton without cycles: from a state that meets
the precondition the call returns, once the recursion bound exceeds the rank of the state
by the room the edge loop needs, and the result meets the postcondition. -/
theorem generate_paths_cover_spec (sk0 : List SkeletonState) (root : Nat) (rank : Nat → Nat)
    (A G : Nat) (hrank : Ranked rank sk0) (hwf : EdgeWF A G sk0) (hGA : G * A < 2 ^ 32)
    (hA2 : 2 * A ≤ 2 ^ 32) (fuel : Nat) (sk : List SkeletonState) (s : Nat)
    (prefixes results : List Path)
    (hpre : CoverPre sk0 root rank A s prefixes sk results)
    (hf : rank s + G + A + 2 ≤ fuel) :
    ∃ r, generate_paths_cover fuel sk s prefixes results = some r ∧
      CoverPost sk0 root s prefixes sk results r := by
  induction fuel generalizing sk s prefixes results with
  | zero => omega
  | succ fuel ih =>
    obtain ⟨g1, p1, c1, v1, hs, hne, hnA, hwalk⟩ := hpre
    obtain ⟨st, hst⟩ := goEq_lt g1 s hs
    obtain ⟨st0, hs0, hgo0⟩ := goEq_getElem g1 s st hst
    have hst0mem : st0 ∈ sk0 := List.getElem?_mem hs0
    rw [generate_paths_cover]
    simp only [hst]
    cases hp : st.path with
    | some pp =>
      simp only
      refine ⟨_, rfl, pathFrame_refl sk, p1, ?_, ?_, ⟨st, hst, by rw [hp]; simp⟩, ?_⟩
      · exact covered_mono sk0 root sk _ _ (fun π hπ => List.mem_append_left _ hπ) c1
      · exact fun π hπ => List.mem_append_left _ hπ
      · intro q hq
        obtain ⟨f, w1, w2⟩ := (p1 s st hst).2 pp hp
        exact ⟨q.append pp, List.mem_append_right _ (List.mem_map_of_mem _ hq), pp.chars, f,
          rfl, w1, w2⟩
    | none =>
      simp only
      have hv0 : st.visited = 0 := v1 s st hst (Nat.le_refl _)
      rw [if_pos (by omega)]
      have hgone : st.go ≠ [] := (p1 s st hst).1 hp
      have hinc := visit_inc_getElem sk s st hst
      have hLI : CoverLoopInv sk0 root rank A st0.go s prefixes 0 false 0 (visit_inc sk s)
          results := by
        refine ⟨?_, ?_, ?_, ?_, ⟨_, by rw [hinc s, if_pos rfl], by simp, ?_⟩, ?_, ?_, ?_, ?_⟩
        · intro t
          rw [hinc t, ← g1 t]
          by_cases e : s = t
          · subst e
            rw [if_pos rfl, hst]
            rfl
          · rw [if_neg e]
        · intro t x hx
          rw [hinc t] at hx
          by_cases e : s = t
          · subst e
            rw [if_pos rfl] at hx
            cases hx
            exact p1 s st hst
          · rw [if_neg e] at hx
            exact p1 t x hx
        · intro t x hx hxp hxv e he
          rw [hinc t] at hx
          by_cases ets : s = t
          · subst ets
            rw [if_pos rfl] at hx
            cases hx
            exact absurd hp hxp
          · rw [if_neg ets] at hx
            obtain ⟨⟨pt, k1, k2⟩, k3⟩ := c1 t x hx hxp hxv e he
            refine ⟨?_, k3⟩
            rw [hinc e.1]
            by_cases e2 : s = e.1
            · rw [if_pos e2]
              rw [← e2, hst] at k1
              cases k1
              exact ⟨_, rfl, k2⟩
            · rw [if_neg e2]
              exact ⟨pt, k1, k2⟩
        · intro t x hx hr
          rw [hinc t] at hx
          by_cases ets : s = t
          · subst ets
            omega
          · rw [if_neg ets] at hx
            exact v1 t x hx (by omega)
        · rintro (h | h)
          · exact absurd rfl h
          · cases h
        · rintro j e - (h | h)
          · cases h
          · omega
        · intro i hi
          omega
        · rw [hgo0]
          exact List.length_pos.2 hgone
        · intro _
          omega
      have hGle : st0.go.length ≤ G := (hwf.2 st0 hst0mem).1
      obtain ⟨r, idx', inn', k1, k2, k3, k4, k5⟩ := gen_cover_loop_spec sk0 root rank A G hwf
        hGA hA2 (generate_paths_cover fuel) st0.go s st.rule prefixes st0 hs0 rfl
        (fun e he => ranked_getElem rank sk0 hrank s st0 hs0 e he) hwalk hne hnA
        (fun sk' p zs res hrk hpre' => ih sk' p zs res hpre' (by omega))
        fuel 0 false 0 (visit_inc sk s) results hLI (by
          simp only [Bool.false_eq_true, if_false]
          omega)
      rw [hgo0] at k1
      simp only [k1, Option.map_some']
      obtain ⟨g2, p2, c2, -, ⟨stx, hstx, -, hpx⟩, hproc, hsurv, -, -⟩ := k4
      have hdec := visit_dec_getElem r.2 s stx hstx
      have hpath : ∀ p : Nat, (∃ pt : SkeletonState, r.2[p]? = some pt ∧ pt.path ≠ none) →
          ∃ pt : SkeletonState, (visit_dec r.2 s)[p]? = some pt ∧ pt.path ≠ none := by
        rintro p ⟨pt, h1, h2⟩
        rw [hdec p]
        by_cases e : s = p
        · rw [if_pos e]
          rw [← e, hstx] at h1
          cases h1
          exact ⟨_, rfl, h2⟩
        · rw [if_neg e]
          exact ⟨pt, h1, h2⟩
      refine ⟨_, rfl, pathFrame_visit_dec sk r.2 s k2, ?_, ?_, k3, ?_, ?_⟩
      · intro t x hx
        rw [hdec t] at hx
        by_cases e : s = t
        · subst e
          rw [if_pos rfl] at hx
          cases hx
          exact p2 s stx hstx
        · rw [if_neg e] at hx
          exact p2 t x hx
      · intro t x hx hxp hxv e he
        rw [hdec t] at hx
        by_cases ets : s = t
        · subst ets
          rw [if_pos rfl] at hx
          cases hx
          simp only at he
          obtain ⟨st0', hs0', hgo0'⟩ := goEq_getElem g2 s stx hstx
          rw [hs0] at hs0'
          cases hs0'
          rw [← hgo0'] at he
          obtain ⟨j, hj⟩ := List.getElem?_of_mem he
          obtain ⟨h1, h2⟩ := hproc j e hj (Or.inl rfl)
          exact ⟨hpath e.1 h1, h2⟩
        · rw [if_neg ets] at hx
          obtain ⟨h1, h2⟩ := c2 t x hx hxp hxv e he
          exact ⟨hpath e.1 h1, h2⟩
      · exact hpath s ⟨stx, hstx, hpx (Or.inr rfl)⟩
      · intro q hq
        obtain ⟨k, hk⟩ := List.getElem?_of_mem hq
        have hklt : k < prefixes.length := (List.getElem?_eq_some.1 hk).1
        obtain ⟨q', h1, h2⟩ := hsurv k (by omega)
        rw [Nat.mod_eq_of_lt hklt, hk] at h1
        cases h1
        exact h2

/-- The edge loop of `generate_paths_cover` keeps its result when the round bound grows
and the recursive call is replaced by one that returns at least as often. -/
theorem gen_cover_loop_mono
    (call call' : List SkeletonState → Nat → List Path → List Path →
      Option (List Path × List SkeletonState))
    (hcall : ∀ sk p zs res r, call sk p zs res = some r → call' sk p zs res = some r)
    (go : List (Nat × List Nat)) (s rule : Nat) (prefixes : List Path)
    (rounds rounds' : Nat) (hle : rounds ≤ rounds') (idx : Nat) (wrapped : Bool) (inn : Nat)
    (sk : List SkeletonState) (results : List Path) (r : List Path × List SkeletonState)
    (h : gen_cover_loop call go s rule prefixes rounds idx wrapped inn sk results = some r) :
    gen_cover_loop call' go s rule prefixes rounds' idx wrapped inn sk results = some r := by
  induction rounds generalizing rounds' idx wrapped inn sk results with
  | zero => simp [gen_cover_loop] at h
  | succ rounds ih =>
    obtain ⟨k, rfl⟩ : ∃ k, rounds' = k + 1 := ⟨rounds' - 1, by omega⟩
    rw [gen_cover_loop] at h ⊢
    split at h
    · rename_i hw
      rw [if_pos hw]
      exact h
    · rename_i hw
      rw [if_neg hw]
      split at h
      · cases h
      · rename_i e he
        split at h
        · cases h
        · rename_i zs hz
          split at h
          · cases h
          · rename_i r1 hc
            rw [hcall _ _ _ _ _ hc]
            simp only
            split at h
            · cases h
            · rename_i sk1 hsp
              split at h
              · rename_i h3
                rw [if_pos h3]
                exact ih k (by omega) _ _ _ _ _ h
              · rename_i h3
                rw [if_neg h3]
                exact ih k (by omega) _ _ _ _ _ h

/-- A larger recursion bound does not change a result of `generate_paths_cover`. -/
theorem generate_paths_cover_mono (fuel : Nat) (sk : List SkeletonState) (s : Nat)
    (prefixes results : List Path) (r : List Path × List SkeletonState)
    (h : generate_paths_cover fuel sk s prefixes results = some r) :
    generate_paths_cover (fuel + 1) sk s prefixes results = some r := by
  induction fuel generalizing sk s prefixes results r with
  | zero => simp [generate_paths_cover] at h
  | succ fuel ih =>
    rw [generate_paths_cover] at h ⊢
    split at h
    · cases h
    · rename_i st hst
      split at h
      · exact h
      · split at h
        · rename_i hv
          rw [if_pos hv]
          simp only [Option.map_eq_some'] at h ⊢
          obtain ⟨a, h1, h2⟩ := h
          exact ⟨a, gen_cover_loop_mono _ _ (fun sk' p zs res r' hr => ih sk' p zs res r' hr)
            _ _ _ _ _ _ (Nat.le_succ _) _ _ _ _ _ _ h1, h2⟩
        · rename_i hv
          rw [if_neg hv]
          exact h

/-- Two results of `generate_paths_cover` under different recursion bounds agree. -/
theorem generate_paths_cover_unique (fuel fuel' : Nat) (sk : List SkeletonState) (s : Nat)
    (prefixes results : List Path) (r r' : List Path × List SkeletonState)
    (h : generate_paths_cover fuel sk s prefixes results = some r)
    (h' : generate_paths_cover fuel' sk s prefixes results = some r') : r = r' := by
  have hmono : ∀ (a b : Nat), a ≤ b → ∀ x, generate_paths_cover a sk s prefixes results = some x →
      generate_paths_cover b sk s prefixes results = some x := by
    intro a b hab x hx
    induction b with
    | zero =>
      have : a = 0 := by omega
      subst this
      exact hx
    | succ k ihk =>
      by_cases e : a = k + 1
      · subst e; exact hx
      · exact generate_paths_cover_mono k sk s prefixes results x (ihk (by omega))
  rcases Nat.le_total fuel fuel' with hle | hle
  · have := hmono fuel fuel' hle r h
    rw [h'] at this
    cases this; rfl
  · have := hmono fuel' fuel hle r' h'
    rw [h] at this
    cases this; rfl

/-- Coverage where cover mode does achieve it: in a skeleton without cycles (`rank`
decreases along every edge, a sufficient condition, not a necessary one) whose
edges carry between 1 and `A` characters, with at most `G` edges per state and sizes that
keep the `uint32_t` counter `in` from wrapping, starting from all `visited` counters 0 and
cached paths on exactly the final states (paths without characters), the call
`generate_paths_cover(root, [empty path], [])` returns, and for every state `s` reachable
from the root, every edge of `s` to a successor `p` and every character `a` of that edge,
some emitted path spells a walk from the root to a final state that takes the edge from
`s` to `p` on `a`. -/
theorem generate_paths_cover_covers (sk : List SkeletonState) (rank : Nat → Nat) (A G : Nat)
    (hrank : Ranked rank sk) (hwf : EdgeWF A G sk) (hGA : G * A < 2 ^ 32)
    (hA2 : 2 * A ≤ 2 ^ 32) (hA1 : 1 ≤ A) (hfresh : GenFresh sk) (root : Nat)
    (hroot : root < sk.length) (fuel : Nat) (hf : rank root + G + A + 2 ≤ fuel) :
    ∃ r, generate_paths_cover fuel sk root [empty_path] [] = some r ∧
      ∀ s w, walk sk w root s = true → ∀ st, sk[s]? = some st → ∀ e ∈ st.go, ∀ a ∈ e.2,
        ∃ π ∈ r.1, takes_edge sk root π.chars s a e.1 := by
  have hpre : CoverPre sk root rank A root [empty_path] sk [] := by
    refine ⟨fun _ => rfl, ?_, ?_, ?_, hroot, by simp, by simpa using hA1, ?_⟩
    · intro t st hst
      obtain ⟨-, f1, f2⟩ := hfresh st (List.getElem?_mem hst)
      refine ⟨fun hp hg => ?_, fun pp hpp => ?_⟩
      · have := f1 hg
        rw [hp] at this
        cases this
      · have hg : st.go = [] := by
          by_contra hg
          rw [f2 hg] at hpp
          cases hpp
        have := f1 hg
        rw [hpp] at this
        simp only [Option.map_some', Option.some.injEq] at this
        refine ⟨t, by rw [this]; exact walk_nil sk t, ?_⟩
        simp [is_final_at, hst, hg]
    · intro t st hst hp _ e he
      obtain ⟨-, -, f2⟩ := hfresh st (List.getElem?_mem hst)
      have hg : st.go = [] := by
        by_contra hg
        exact hp (f2 hg)
      rw [hg] at he
      cases he
    · intro t st hst _
      exact (hfresh st (List.getElem?_mem hst)).1
    · intro q hq
      simp only [List.mem_singleton] at hq
      subst hq
      exact walk_nil sk root
  obtain ⟨r, h1, f1, -, c2, -, ⟨x0, hx0, hx0p⟩, -⟩ :=
    generate_paths_cover_spec sk root rank A G hrank hwf hGA hA2 fuel sk root [empty_path] []
      hpre hf
  have hvis : ∀ (t : Nat) (x : SkeletonState), r.2[t]? = some x →
      x.visited = 0 ∧ ∃ st, sk[t]? = some st ∧ x.go = st.go := by
    intro t x hx
    obtain ⟨a, ha, hfa⟩ := pathFrame_getElem_rev f1 t x hx
    exact ⟨by rw [hfa.2.2.1]; exact (hfresh a (List.getElem?_mem ha)).1, a, ha, hfa.1⟩
  have hreach : ∀ (w : List Nat) (s t : Nat), walk sk w s t = true →
      (∃ x : SkeletonState, r.2[s]? = some x ∧ x.path ≠ none) →
      ∃ y : SkeletonState, r.2[t]? = some y ∧ y.path ≠ none := by
    intro w
    induction w with
    | nil =>
      intro s t hw hx
      simp only [walk, decide_eq_true_eq] at hw
      subst hw
      exact hx
    | cons a w ih =>
      intro s t hw ⟨x, hx, hxp⟩
      obtain ⟨st, hs, e, he, -, hw'⟩ := (walk_cons_iff sk s t a w).1 hw
      obtain ⟨hv, st', hs', hg⟩ := hvis s x hx
      rw [hs] at hs'
      cases hs'
      exact ih e.1 t hw' (c2 s x hx hxp hv e (by rw [hg]; exact he)).1
  refine ⟨r, h1, fun s w hw st hs e he a ha => ?_⟩
  obtain ⟨x, hx, hxp⟩ := hreach w root s hw ⟨x0, hx0, hx0p⟩
  obtain ⟨hv, st', hs', hg⟩ := hvis s x hx
  rw [hs] at hs'
  cases hs'
  exact (c2 s x hx hxp hv e (by rw [hg]; exact he)).2 a ha

/-- Coverage on the skeleton of the rule `"ab"`: the edge from state 1 to the null state on
the character `c` (99) is taken by an emitted path. -/
theorem generate_paths_cover_covers_witness :
    Ranked (fun s => 3 - s) skAb ∧ EdgeWF 4 2 skAb ∧ GenFresh skAb ∧
    walk skAb [97] 0 1 = true ∧
    ∃ r, generate_paths_cover 11 skAb 0 [empty_path] [] = some r ∧
      ∃ π ∈ r.1, takes_edge skAb 0 π.chars 1 99 3 := by
  refine ⟨by decide, by decide, by decide, by decide, ?_⟩
  obtain ⟨r, h1, h2⟩ := generate_paths_cover_covers skAb (fun s => 3 - s) 4 2 (by decide)
    (by decide) (by decide) (by decide) (by decide) (by decide) 0 (by decide) 11 (by decide)
  exact ⟨r, h1, h2 1 [97] (by decide) (char_state 2 3 98) (by decide) (3, [0, 97, 99, 255])
    (by decide) 99 (by decide)⟩

/-- A small skeleton on which cover mode drops a prefix, that of the rule
`[^\xff]* "\xff"`: all `visited` counters are 0, cached paths are on the final states
only, the root has the edge to itself on the characters 0 and 254, and
`generate_paths_cover(root, [empty path], [])` emits the two paths `0 255` and `255`, for
every recursion bound with which it returns.  The prefix `254` is handed to the root
while it is active twice and is dropped, so no emitted path takes the edge from the root
to itself on 254. -/
theorem generate_paths_cover_drops_prefix :
    GenFresh skStar ∧ walk skStar [] 0 0 = true ∧
    skStar[0]? = some ⟨[(0, [0, 254]), (1, [255])], RULE_NONE, 0, none, INVALID_PATH_LEN⟩ ∧
    (generate_paths_cover 5 skStar 0 [empty_path] []).map
      (fun r => r.1.map (fun p => p.chars)) = some [[0, 255], [255]] ∧
    (∀ fuel r, generate_paths_cover fuel skStar 0 [empty_path] [] = some r →
      r.1.map (fun p => p.chars) = [[0, 255], [255]] ∧
      ∀ π ∈ r.1, ¬ takes_edge skStar 0 π.chars 0 254 0) := by
  have hv : (generate_paths_cover 5 skStar 0 [empty_path] []).map
      (fun r => r.1.map (fun p => p.chars)) = some [[0, 255], [255]] := by decide
  refine ⟨by decide, by decide, by decide, hv, ?_⟩
  intro fuel r hr
  have hr5 : generate_paths_cover 5 skStar 0 [empty_path] [] = some r := by
    cases h5 : generate_paths_cover 5 skStar 0 [empty_path] [] with
    | none => rw [h5] at hv; cases hv
    | some r5 =>
      rw [generate_paths_cover_unique fuel 5 skStar 0 [empty_path] [] r r5 hr h5]
  rw [hr5] at hv
  simp only [Option.map_some', Option.some.injEq] at hv
  refine ⟨hv, ?_⟩
  rintro π hπ ⟨w1, w2, f, hc, -⟩
  have hmem : π.chars ∈ r.1.map (fun p => p.chars) := List.mem_map_of_mem _ hπ
  rw [hv] at hmem
  have h254 : (254 : Nat) ∈ π.chars := by rw [hc]; simp
  simp only [List.mem_cons, List.mem_singleton, List.not_mem_nil, or_false] at hmem
  rcases hmem with e | e
  · rw [e] at h254
    simp at h254
  · rw [e] at h254
    simp at h254

/-- The contract of the standard alone does not fix which final item is kept: `idleStd`
meets the contract, does not leave a least element in front, and with it
`prune_final_items` keeps the final item that stands in front, here the one of rule 1. -/
theorem idleStd_keeps_front :
    idleStd.Conforming ∧ ¬ idleStd.MinFirst ∧
    closTwoFinals.map (rule_of nfaTwoFinals) = [1, 0] ∧
    (prune_final_items idleStd nfaTwoFinals closTwoFinals rulesTwo).1 = [⟨0, 0, 0, 0, 0⟩] := by
  refine ⟨idleStd_conforming, ?_, by decide, by decide⟩
  intro h
  have := h (compare_by_rule nfaTwoFinals) closTwoFinals ⟨0, 0, 0, 0, 0⟩ [⟨1, 1, 0, 0, 0⟩]
    (compare_by_rule_strictWeak nfaTwoFinals) (by decide) ⟨1, 1, 0, 0, 0⟩ (by decide)
  exact absurd this (by decide)

/-- The bounded form `takes_edge_at` says the same as `takes_edge`. -/
theorem takes_edge_iff (sk : List SkeletonState) (root : Nat) (chars : List Nat)
    (s a p : Nat) : takes_edge sk root chars s a p ↔ takes_edge_at sk root chars s a p := by
  constructor
  · rintro ⟨w1, w2, f, hc, h1, h2, h3, h4⟩
    subst hc
    have hf : f < sk.length := by
      unfold is_final_at at h4
      cases hs : sk[f]? with
      | none => simp [hs] at h4
      | some st => exact (List.getElem?_eq_some.1 hs).1
    refine ⟨w1.length, by simp, f, hf,
      by rw [List.getElem?_append_right (Nat.le_refl _)]; simp, ?_, h2, ?_, h4⟩
    · rw [List.take_left]
      exact h1
    · have : List.drop (w1.length + 1) (w1 ++ a :: w2) = w2 := by
        rw [List.drop_append_eq_append_drop]
        simp
      rw [this]
      exact h3
  · rintro ⟨i, hi, f, -, hci, h1, h2, h3, h4⟩
    refine ⟨chars.take i, chars.drop (i + 1), f, ?_, h1, h2, h3, h4⟩
    obtain ⟨_, hget⟩ := List.getElem?_eq_some.1 hci
    rw [← hget, ← List.drop_eq_getElem_cons hi, List.take_append_drop]

/-- When cover mode, at some recursion bound, emits the strings `corpus` and none of them
takes the edge from `s` to `p` on `a`, then no emitted path takes that edge, at any
recursion bound. -/
theorem cover_misses (sk : List SkeletonState) (corpus : List (List Nat)) (s a p F : Nat)
    (hv : (generate_paths_cover F sk 0 [empty_path] []).map
      (fun r => r.1.map (fun q => q.chars)) = some corpus)
    (hno : ∀ c ∈ corpus, ¬ takes_edge_at sk 0 c s a p)
    (fuel : Nat) (r : List Path × List SkeletonState)
    (hr : generate_paths_cover fuel sk 0 [empty_path] [] = some r) :
    r.1.map (fun q => q.chars) = corpus ∧ ∀ π ∈ r.1, ¬ takes_edge sk 0 π.chars s a p := by
  have hrF : generate_paths_cover F sk 0 [empty_path] [] = some r := by
    cases hF : generate_paths_cover F sk 0 [empty_path] [] with
    | none => rw [hF] at hv; cases hv
    | some rF => rw [generate_paths_cover_unique fuel F sk 0 [empty_path] [] r rF hr hF]
  rw [hrF] at hv
  simp only [Option.map_some', Option.some.injEq] at hv
  refine ⟨hv, fun π hπ ht => ?_⟩
  have hmem : π.chars ∈ r.1.map (fun q => q.chars) := List.mem_map_of_mem _ hπ
  rw [hv] at hmem
  exact hno _ hmem ((takes_edge_iff sk 0 π.chars s a p).1 ht)

/-- When the estimate of the root is `MAX_SIZE` at some recursion bound, `generate_paths`
emits, at any recursion bound with which it returns, what cover mode emits, and warns
exactly when the cover estimate is `MAX_SIZE`. -/
theorem generate_paths_cover_mode (sk : List SkeletonState) (F : Nat)
    (ha : estimate_size_all F sk 0 1 0 = some (MAX_SIZE, sk)) (fuel : Nat) (r : paths_result)
    (h : generate_paths fuel sk [] = some r) :
    ∃ r2 r4, estimate_size_cover fuel sk 0 1 0 = some r2 ∧
      generate_paths_cover fuel sk 0 [empty_path] [] = some r4 ∧
      r.results = r4.1 ∧ r.warned = decide (r2.1 = MAX_SIZE) := by
  unfold generate_paths at h
  simp only at h
  cases h1 : estimate_size_all fuel sk 0 1 0 with
  | none => simp [h1] at h
  | some r1 =>
    have e1 := estimate_size_all_unique fuel F sk 0 1 0 r1 _ h1 ha
    subst e1
    simp only [h1, if_true] at h
    cases h2 : estimate_size_cover fuel sk 0 1 0 with
    | none => simp [h2] at h
    | some r2 =>
      simp only [h2, Option.map_eq_some'] at h
      obtain ⟨r3, h3, rfl⟩ := h
      have hfr := generate_paths_cover_frame_eq fuel
        (estimate_size_cover_frame fuel sk 0 1 0 r2 h2) 0 [empty_path] []
      rw [h3] at hfr
      cases h4 : generate_paths_cover fuel sk 0 [empty_path] [] with
      | none => rw [h4] at hfr; cases hfr
      | some r4 =>
        rw [h4] at hfr
        simp only [Option.map_some', Option.some.injEq] at hfr
        exact ⟨r2, r4, rfl, rfl, hfr, rfl⟩

/-- Cover mode on the S4 skeleton `skLoop`, which has a cycle: every character of both
edges of the root, the self-loop on `a` included, is taken by an emitted path. -/
theorem generate_paths_cover_self_loop :
    (generate_paths_cover 5 skLoop 0 [empty_path] []).map
      (fun r => r.1.map (fun q => q.chars)) =
      some [[97, 0], [97, 96], [97, 98], [97, 255], [0], [96], [98], [255]] ∧
    (∀ fuel r, generate_paths_cover fuel skLoop 0 [empty_path] [] = some r →
      ∀ e ∈ [(0, [97]), (1, [0, 96, 98, 255])], ∀ a ∈ e.2,
        ∃ π ∈ r.1, takes_edge skLoop 0 π.chars 0 a e.1) := by
  have hv : (generate_paths_cover 5 skLoop 0 [empty_path] []).map
      (fun r => r.1.map (fun q => q.chars)) =
      some [[97, 0], [97, 96], [97, 98], [97, 255], [0], [96], [98], [255]] := by decide
  refine ⟨hv, ?_⟩
  intro fuel r hr e he a ha
  have hr5 : generate_paths_cover 5 skLoop 0 [empty_path] [] = some r := by
    cases h5 : generate_paths_cover 5 skLoop 0 [empty_path] [] with
    | none => rw [h5] at hv; cases hv
    | some r5 => rw [generate_paths_cover_unique fuel 5 skLoop 0 [empty_path] [] r r5 hr h5]
  rw [hr5] at hv
  simp only [Option.map_some', Option.some.injEq] at hv
  have hall : ∀ e ∈ [(0, [97]), (1, [0, 96, 98, 255])], ∀ a ∈ e.2,
      ∃ c ∈ [[97, 0], [97, 96], [97, 98], [97, 255], [0], [96], [98], [255]],
        takes_edge_at skLoop 0 c 0 a e.1 := by decide
  obtain ⟨c, hc, ht⟩ := hall e he a ha
  rw [← hv] at hc
  obtain ⟨π, hπ, rfl⟩ := List.mem_map.1 hc
  exact ⟨π, hπ, (takes_edge_iff skLoop 0 π.chars 0 a e.1).2 ht⟩

set_option maxRecDepth 100000 in
/-- C11 at the failing input: the skeleton the constructor builds for the DFA of the rule
`[^]{30} ("a" | "bc")* "d"`.  All `visited` counters are 0 and cached paths are on the
final states only; state 31 is reachable from the root and has the edge to state 30 on
the character `c` (99), and the string of 30 zeros followed by `b c d` spells a walk from
the root to a final state that takes this edge.  The estimate of the root is `MAX_SIZE`,
so `generate_paths` takes cover mode; it returns without the warning, and for every
recursion bound with which it returns it emits the 17 strings `coverBack 30`, none of
which takes the edge from state 31 to state 30 on `c`: the prefix that reaches state 30
over this edge finds the state active twice and is dropped, and state 31 is later left
over its cached path.  The same holds for the call
`generate_paths_cover(root, [empty path], [])` itself.  On the same DFA without the
chain, the sibling `generate_paths_all` emits `b c d`, which takes the edge, and
`generate_paths_cover` emits no path that does. -/
theorem generate_paths_cover_misses_back_edge :
    GenFresh (Skeleton (dfaBack 30)) ∧
    walk (Skeleton (dfaBack 30)) (List.replicate 30 0 ++ [98]) 0 31 = true ∧
    (Skeleton (dfaBack 30))[31]? =
      some ⟨[(30, [99]), (33, [0, 98, 100, 255])], RULE_NONE, 0, none, INVALID_PATH_LEN⟩ ∧
    takes_edge (Skeleton (dfaBack 30)) 0 (List.replicate 30 0 ++ [98, 99, 100]) 31 99 30 ∧
    estimate_size_all 40 (Skeleton (dfaBack 30)) 0 1 0 =
      some (MAX_SIZE, Skeleton (dfaBack 30)) ∧
    (generate_paths 40 (Skeleton (dfaBack 30)) []).map
      (fun r => (r.warned, r.results.map (fun q => q.chars))) = some (false, coverBack 30) ∧
    (∀ fuel r, generate_paths fuel (Skeleton (dfaBack 30)) [] = some r →
      r.warned = false ∧ r.results.map (fun q => q.chars) = coverBack 30 ∧
      ∀ π ∈ r.results, ¬ takes_edge (Skeleton (dfaBack 30)) 0 π.chars 31 99 30) ∧
    (∀ fuel r, generate_paths_cover fuel (Skeleton (dfaBack 30)) 0 [empty_path] [] = some r →
      r.1.map (fun q => q.chars) = coverBack 30 ∧
      ∀ π ∈ r.1, ¬ takes_edge (Skeleton (dfaBack 30)) 0 π.chars 31 99 30) ∧
    (generate_paths_all 10 (Skeleton (dfaBack 0)) 0 [empty_path] []).map
      (fun r => decide ([98, 99, 100] ∈ r.1.map (fun q => q.chars))) = some true ∧
    takes_edge (Skeleton (dfaBack 0)) 0 [98, 99, 100] 1 99 0 ∧
    (∀ fuel r, generate_paths_cover fuel (Skeleton (dfaBack 0)) 0 [empty_path] [] = some r →
      r.1.map (fun q => q.chars) = coverBack 0 ∧
      ∀ π ∈ r.1, ¬ takes_edge (Skeleton (dfaBack 0)) 0 π.chars 1 99 0) := by
  have ha : estimate_size_all 40 (Skeleton (dfaBack 30)) 0 1 0 =
      some (MAX_SIZE, Skeleton (dfaBack 30)) := by decide
  have hc : (estimate_size_cover 40 (Skeleton (dfaBack 30)) 0 1 0).map (fun r => r.1) =
      some 542 := by decide
  have hv : (generate_paths_cover 40 (Skeleton (dfaBack 30)) 0 [empty_path] []).map
      (fun r => r.1.map (fun q => q.chars)) = some (coverBack 30) := by decide
  have hno : ∀ c ∈ coverBack 30, ¬ takes_edge_at (Skeleton (dfaBack 30)) 0 c 31 99 30 := by
    decide
  have hv0 : (generate_paths_cover 10 (Skeleton (dfaBack 0)) 0 [empty_path] []).map
      (fun r => r.1.map (fun q => q.chars)) = some (coverBack 0) := by decide
  have hno0 : ∀ c ∈ coverBack 0, ¬ takes_edge_at (Skeleton (dfaBack 0)) 0 c 1 99 0 := by
    decide
  have hcov := cover_misses (Skeleton (dfaBack 30)) (coverBack 30) 31 99 30 40 hv hno
  refine ⟨by decide, by decide, by decide,
    (takes_edge_iff _ _ _ _ _ _).2 (by decide), ha, by decide, ?_, hcov, by decide,
    (takes_edge_iff _ _ _ _ _ _).2 (by decide),
    cover_misses (Skeleton (dfaBack 0)) (coverBack 0) 1 99 0 10 hv0 hno0⟩
  intro fuel r h
  obtain ⟨r2, r4, h2, h4, e1, e2⟩ := generate_paths_cover_mode _ 40 ha fuel r h
  obtain ⟨k1, k2⟩ := hcov fuel r4 h4
  refine ⟨?_, by rw [e1]; exact k1, fun π hπ => k2 π (by rw [← e1]; exact hπ)⟩
  have h2' : estimate_size_cover 40 (Skeleton (dfaBack 30)) 0 1 0 = some r2 := by
    cases h40 : estimate_size_cover 40 (Skeleton (dfaBack 30)) 0 1 0 with
    | none => rw [h40] at hc; cases hc
    | some r40 =>
      rw [estimate_size_cover_unique fuel 40 _ 0 1 0 r2 r40 h2 h40]
  rw [h2'] at hc
  simp only [Option.map_some', Option.some.injEq] at hc
  rw [e2, hc]
  decide

end re2c
